import Mathlib

/-!
# buffalo: the line buffer and the viewport of `buffalo.c`

A shallow embedding of the editor's data model (`struct Line`, `Filepos`, the
global variables) and of the functions that mutate or read it, followed by
the properties proved about them.

Pointers are addresses (`Nat`) into an explicit heap, `none` is the null
pointer.  C `int`s are `Int`.  `malloc`/`calloc`/`realloc` are taken to
succeed (the source calls `i_die` otherwise); `malloc` hands out the address
`brk`, which no live Line uses.
-/

namespace Buffalo

/-! ## Data model -/

/-- The block size, `#define LINESIZE 80`. -/
def LINESIZE : Int := 80

/-- The record `struct Line`.  `c` is the storage `char *c` points to, read as a
function of the byte index; `cap` is the size in bytes of the block the
allocator last handed out for `c` (bookkeeping of the allocator, not a field
of the C struct). -/
structure Line where
  c : Int → Nat
  len : Int
  mul : Int
  cap : Int
  dirty : Bool
  next : Option Nat
  prev : Option Nat

/-- The record `Filepos`: a Line pointer and a byte offset. -/
structure Filepos where
  l : Option Nat
  o : Int
deriving DecidableEq, Repr

/-- The global variables of `buffalo.c` that the buffer and the viewport use,
with the heap of Lines and the allocator's next free address.  `fault` is a
ghost flag: it is raised when a store into a Line's storage lands outside
the block of `cap` bytes (undefined behaviour in C). -/
structure State where
  heap : Nat → Option Line
  brk : Nat
  fstart : Option Nat
  fend : Option Nat
  sstart : Option Nat
  cur : Filepos
  height : Int
  width : Int
  modified : Bool
  fault : Bool

/-- Store `v` at address `a` of the heap (`v = none` frees the address). -/
def hset (h : Nat → Option Line) (a : Nat) (v : Option Line) : Nat → Option Line :=
  fun x => if x = a then v else h x

/-- Assignment to fields of the Line at `a`: `a->field = ...`.  Nothing
happens when `a` is not a live Line. -/
def upd (h : Nat → Option Line) (a : Nat) (f : Line → Line) : Nat → Option Line :=
  fun x => if x = a then (h a).map f else h x

/-- The store `c[i] = b`. -/
def poke (c : Int → Nat) (i : Int) (b : Nat) : Int → Nat :=
  fun j => if j = i then b else c j

/-- The call `memcpy(&d[dst], &s[src], n)`. -/
def memcpy (d : Int → Nat) (dst : Int) (s : Int → Nat) (src n : Int) : Int → Nat :=
  fun i => if dst ≤ i ∧ i < dst + n then s (src + (i - dst)) else d i

/-- The call `memmove(&c[dst], &c[src], n)` inside one block. -/
def memmove (c : Int → Nat) (dst src n : Int) : Int → Nat :=
  memcpy c dst c src n

/-- A store of `n` bytes at index `lo` of a block of `cap` bytes leaves the
block. -/
def outside (cap lo n : Int) : Bool :=
  decide (0 < n ∧ (lo < 0 ∨ cap < lo + n))

/-- The C string that starts at `c[i]`: the bytes up to the first NUL, at most
`n` of them. -/
def cstr (c : Int → Nat) : Nat → Int → List Nat
  | 0, _ => []
  | n + 1, i => if c i = 0 then [] else c i :: cstr c n (i + 1)

/-- The bytes `c[0] .. c[len-1]` of a Line. -/
def content (L : Line) : List Nat :=
  (List.range L.len.toNat).map (fun (i : Nat) => L.c (i : Int))

/-! ## Allocation and insertion -/

/-- Function `i_newline(mul)`: a new Line at address `brk` with `LINESIZE * mul`
zeroed bytes.  `malloc` leaves `next` and `prev` unset; every caller assigns
them before reading. -/
def i_newline (s : State) (mul : Int) : State × Nat :=
  let l : Line :=
    { c := poke (fun _ => 0) 0 0, len := 0, mul := mul, cap := LINESIZE * mul,
      dirty := true, next := none, prev := none }
  ({ s with heap := hset s.heap s.brk (some l), brk := s.brk + 1,
            fault := s.fault || outside (LINESIZE * mul) 0 1 }, s.brk)

/-- The growth step of `i_insert`: one more block when `len + 2` reaches the
capacity, `realloc(l->c, LINESIZE * (++l->mul))`.  The bytes of the old block
are kept. -/
def grow (L : Line) : Line :=
  if L.len + 2 ≥ LINESIZE * L.mul then
    { L with mul := L.mul + 1, cap := LINESIZE * (L.mul + 1) }
  else L

/-- The `else` branch of the loop of `i_insert`: put the ordinary byte `ch`
at offset `o` of the Line.  The second component tells whether a store left
the block. -/
def putChar (L : Line) (o : Int) (ch : Nat) : Line × Bool :=
  let L1 := grow L
  let c1 := if o < L1.len then memmove L1.c (o + 1) o (L1.len - o) else L1.c
  let f1 := if o < L1.len then outside L1.cap (o + 1) (L1.len - o) else false
  let c2 := poke c1 o ch
  let c3 := poke c2 (L1.len + 1) 0
  ({ L1 with c := c3, len := L1.len + 1, dirty := true },
   f1 || outside L1.cap o 1 || outside L1.cap (L1.len + 1) 1)

/-- The separator branch of the loop of `i_insert` at `(l, o)`, with `L` the
Line at `l`: splice the new Line `ln` after `l`, move the bytes from offset
`o` on into it by a call of `i_insert` itself (`self`), cut `l` at `o`, and
correct `fend`.  Returns the new state and `ln`. -/
def splitLine (self : State → Filepos → List Nat → State × Filepos)
    (s : State) (l : Nat) (o : Int) (L : Line) : State × Nat :=
  let sn := i_newline s L.mul
  let ln := sn.2
  let h1 := upd sn.1.heap ln (fun N => { N with prev := some l, next := L.next })
  let h2 := match L.next with
    | some n => upd h1 n (fun X => { X with prev := some ln })
    | none => h1
  let h3 := upd h2 l (fun X => { X with next := some ln })
  let s3 : State := { sn.1 with heap := h3 }
  let s4 : State :=
    if o < L.len then (self s3 ⟨some ln, 0⟩ (cstr L.c (L.cap - o).toNat o)).1 else s3
  let h5 := upd s4.heap l (fun X => { X with c := poke X.c o 0, len := o, dirty := true })
  ({ s4 with heap := h5,
             fend := if s4.fend = some l then some ln else s4.fend,
             height := 0,
             fault := s4.fault || outside L.cap o 1 }, ln)

/-- The loop of `i_insert` over the bytes of `buf`, with `l` the current Line
and `o` the current offset (`pos` is `(l, o)` throughout).  `self` is
`i_insert` itself, called on a separator to move the rest of the Line. -/
def insertLoop (self : State → Filepos → List Nat → State × Filepos) :
    State → Nat → Int → List Nat → State × Filepos
  | s, l, o, [] => ({ s with modified := true }, ⟨some l, o⟩)
  | s, l, o, ch :: rest =>
    if ch = 0 then ({ s with modified := true }, ⟨some l, o⟩)
    else
      match s.heap l with
      | none => ({ s with modified := true }, ⟨some l, o⟩)
      | some L =>
        if ch = 10 ∨ ch = 13 then
          insertLoop self (splitLine self s l o L).1 (splitLine self s l o L).2 0 rest
        else
          insertLoop self
            { s with heap := hset s.heap l (some (putChar L o ch).1),
                     fault := s.fault || (putChar L o ch).2 } l (o + 1) rest

/-- Function `i_insert(pos, buf)` with a bound `d` on the depth of the self-calls.
`buf` is the byte sequence read from the pointer; the loop stops at its first
NUL. -/
def i_insertF : Nat → State → Filepos → List Nat → State × Filepos
  | 0, s, pos, _ => (s, pos)
  | d + 1, s, pos, buf =>
    match pos.l with
    | none => (s, pos)
    | some l => insertLoop (i_insertF d) s l pos.o buf

/-- Function `i_insert(pos, buf)`.  The self-call made on a separator starts on an
empty Line and so never calls itself again (`i_insertF_depth`): depth 2 is
the whole function. -/
def i_insert (s : State) (pos : Filepos) (buf : List Nat) : State × Filepos :=
  i_insertF 2 s pos buf

/-- Function `i_backspace(pos)`. -/
def i_backspace (s : State) (pos : Filepos) : State × Filepos :=
  match pos.l with
  | none => (s, pos)
  | some a =>
    match s.heap a with
    | none => (s, pos)
    | some L =>
      if pos.o ≤ 0 then
        match L.prev with
        | none => (s, pos)
        | some p =>
          match s.heap p with
          | none => (s, pos)
          | some P =>
            let nl := L.len + P.len
            let mul := nl.tdiv LINESIZE + 1
            let P1 : Line :=
              { P with mul := mul, cap := mul * LINESIZE,
                       c := memcpy P.c P.len L.c 0 (L.len + 1),
                       len := nl, next := L.next, dirty := true }
            let h1 := hset s.heap p (some P1)
            let h2 := match L.next with
              | some n => upd h1 n (fun X => { X with prev := some p })
              | none => h1
            let h3 := hset h2 a none
            ({ s with heap := h3, height := 0, modified := true,
                      fault := s.fault || outside (mul * LINESIZE) P.len (L.len + 1) },
             ⟨some p, P.len⟩)
      else
        let L1 : Line :=
          { L with c := memmove L.c (pos.o - 1) pos.o (L.len - pos.o + 1), len := L.len - 1 }
        ({ s with heap := hset s.heap a (some L1), height := 0, modified := true,
                  fault := s.fault || outside L.cap (pos.o - 1) (L.len - pos.o + 1) },
         ⟨some a, pos.o - 1⟩)

/-- Function `f_newl(arg)` with `after = (arg->i != 0)`: splice an empty Line after or
before the cursor Line and move the cursor to it. -/
def f_newl (s : State) (after : Bool) : State :=
  let sn := i_newline s 1
  let l := sn.2
  let s1 : State := { sn.1 with modified := true }
  match s1.cur.l with
  | none => s1
  | some cl =>
    match s1.heap cl with
    | none => s1
    | some C =>
      if after then
        let h1 := upd s1.heap l (fun N => { N with prev := some cl, next := C.next })
        let h2 := match C.next with
          | some n => upd h1 n (fun X => { X with prev := some l })
          | none => h1
        let h3 := upd h2 cl (fun X => { X with next := some l })
        { s1 with heap := h3, fend := if C.next = none then some l else s1.fend,
                  cur := ⟨some l, 0⟩ }
      else
        let h1 := upd s1.heap l (fun N => { N with next := some cl, prev := C.prev })
        let h2 := match C.prev with
          | some p => upd h1 p (fun X => { X with next := some l })
          | none => h1
        let h3 := upd h2 cl (fun X => { X with prev := some l })
        { s1 with heap := h3, fstart := if C.prev = none then some l else s1.fstart,
                  cur := ⟨some l, 0⟩ }

/-! ## Movement -/

/-- Function `m_prevchar(pos)`. -/
def m_prevchar (h : Nat → Option Line) (pos : Filepos) : Filepos :=
  match pos.l with
  | none => pos
  | some a =>
    if pos.o - 1 < 0 then
      match h a with
      | none => pos
      | some L =>
        match L.prev with
        | some p =>
          match h p with
          | none => ⟨some p, 0⟩
          | some P => ⟨some p, P.len⟩
        | none => ⟨some a, 0⟩
    else ⟨some a, pos.o - 1⟩

/-- Function `m_nextchar(pos)`. -/
def m_nextchar (h : Nat → Option Line) (pos : Filepos) : Filepos :=
  match pos.l with
  | none => pos
  | some a =>
    match h a with
    | none => pos
    | some L =>
      if pos.o + 1 > L.len then
        match L.next with
        | some n => ⟨some n, 0⟩
        | none => ⟨some a, L.len⟩
      else ⟨some a, pos.o + 1⟩

/-- Function `m_prevline(pos)`. -/
def m_prevline (h : Nat → Option Line) (pos : Filepos) : Filepos :=
  match pos.l with
  | none => pos
  | some a =>
    match h a with
    | none => pos
    | some L =>
      match L.prev with
      | none => pos
      | some p =>
        match h p with
        | none => ⟨some p, pos.o⟩
        | some P => ⟨some p, if pos.o > P.len then P.len else pos.o⟩

/-- Function `m_nextline(pos)`. -/
def m_nextline (h : Nat → Option Line) (pos : Filepos) : Filepos :=
  match pos.l with
  | none => pos
  | some a =>
    match h a with
    | none => pos
    | some L =>
      match L.next with
      | none => pos
      | some n =>
        match h n with
        | none => ⟨some n, pos.o⟩
        | some N => ⟨some n, if pos.o > N.len then N.len else pos.o⟩

/-- Function `m_startofline(pos)`. -/
def m_startofline (pos : Filepos) : Filepos :=
  match pos.l with
  | none => pos
  | some a => ⟨some a, 0⟩

/-- Function `m_endofline(pos)`. -/
def m_endofline (h : Nat → Option Line) (pos : Filepos) : Filepos :=
  match pos.l with
  | none => pos
  | some a =>
    match h a with
    | none => pos
    | some L => ⟨some a, L.len⟩

/-- Function `m_startoffile(pos)`. -/
def m_startoffile (s : State) (pos : Filepos) : Filepos :=
  match pos.l with
  | none => pos
  | some _ =>
    match s.fstart with
    | none => pos
    | some f => ⟨some f, 0⟩

/-- Function `m_endoffile(pos)`. -/
def m_endoffile (s : State) (pos : Filepos) : Filepos :=
  match pos.l with
  | none => pos
  | some _ =>
    match s.fend with
    | none => pos
    | some e =>
      match s.heap e with
      | none => ⟨some e, pos.o⟩
      | some E => ⟨some e, E.len⟩

/-- The loop of `m_nextscreen`: at most `k` steps down the chain (`k` is
`height - i`), stopping at a Line without successor. -/
def stepsNext (h : Nat → Option Line) : Nat → Nat → Nat
  | 0, a => a
  | k + 1, a =>
    match h a with
    | none => a
    | some L =>
      match L.next with
      | none => a
      | some n => stepsNext h k n

/-- The loop of `m_prevscreen`: at most `k` steps up the chain, stopping at a
Line without predecessor. -/
def stepsPrev (h : Nat → Option Line) : Nat → Nat → Nat
  | 0, a => a
  | k + 1, a =>
    match h a with
    | none => a
    | some L =>
      match L.prev with
      | none => a
      | some p => stepsPrev h k p

/-- Function `m_nextscreen(pos)`. -/
def m_nextscreen (s : State) (pos : Filepos) : Filepos :=
  match pos.l with
  | none => pos
  | some a =>
    match s.heap (stepsNext s.heap s.height.toNat a) with
    | none => ⟨some (stepsNext s.heap s.height.toNat a), pos.o⟩
    | some B =>
      ⟨some (stepsNext s.heap s.height.toNat a), if pos.o > B.len then B.len else pos.o⟩

/-- Function `m_prevscreen(pos)`. -/
def m_prevscreen (s : State) (pos : Filepos) : Filepos :=
  match pos.l with
  | none => pos
  | some a =>
    match s.heap (stepsPrev s.heap s.height.toNat a) with
    | none => ⟨some (stepsPrev s.heap s.height.toNat a), pos.o⟩
    | some B =>
      ⟨some (stepsPrev s.heap s.height.toNat a), if pos.o > B.len then B.len else pos.o⟩

/-- The loop of `m_prevword` and `m_nextword` after its first step, with
`step` the character movement: go on while the byte at the Position is not a
space.  `none`: the loop has not stopped within `k` tests. -/
def wordLoop (step : Filepos → Filepos) (h : Nat → Option Line) : Nat → Filepos → Option Filepos
  | 0, _ => none
  | k + 1, pos =>
    match pos.l with
    | none => some pos
    | some a =>
      match h a with
      | none => some pos
      | some L => if L.c pos.o ≠ 32 then wordLoop step h k (step pos) else some pos

/-- Function `m_prevword(pos)` with a bound `fuel` on the tests of its loop. -/
def m_prevword (fuel : Nat) (h : Nat → Option Line) (pos : Filepos) : Option Filepos :=
  match pos.l with
  | none => some pos
  | some _ => wordLoop (m_prevchar h) h fuel (m_prevchar h pos)

/-- Function `m_nextword(pos)` with a bound `fuel` on the tests of its loop. -/
def m_nextword (fuel : Nat) (h : Nat → Option Line) (pos : Filepos) : Option Filepos :=
  match pos.l with
  | none => some pos
  | some _ => wordLoop (m_nextchar h) h fuel (m_nextchar h pos)

/-! ## Drawing -/

/-- Function `i_utf8len(c)`, from the lead byte `*c` read as `unsigned char`. -/
def i_utf8len (b : Nat) : Int :=
  if b % 256 ≥ 0xFC then 6
  else if b % 256 ≥ 0xF8 then 5
  else if b % 256 ≥ 0xF0 then 4
  else if b % 256 ≥ 0xE0 then 3
  else if b % 256 ≥ 0xC0 then 2
  else 1

/-- One row of a draw: the Line shown on it, the bytes sent to the terminal
after `c_clearline` (`none` when the row is left as it is), and whether they
were sent in the cursor colour. -/
structure Row where
  line : Nat
  text : Option (List Nat)
  blue : Bool

/-- What one call of `i_drawscr` did: its arguments, the rows of the Lines it
went through, and the number of rows it cleared below them. -/
structure Frame where
  sdirty : Bool
  crow : Int
  ccol : Int
  rows : List Row
  blank : Nat

/-- The bytes the inner loop of `i_drawscr` sends for a Line: the bytes
`c[0]`, `c[1]`, ... while the index is below `len` and below `width`, a tab
as `TABSTOP` spaces. -/
def rowText (TABSTOP width : Int) (L : Line) : List Nat :=
  ((List.range (min L.len width).toNat).map (fun (c : Nat) =>
    if L.c c = 9 then List.replicate TABSTOP.toNat 32 else [L.c c])).flatten

/-- The first loop of `i_drawscr`, from the Line `l` on, for at most `k`
rows (`k` is `height - n`). -/
def drawRows (TABSTOP : Int) (cur : Option Nat) (sdirty : Bool) (width : Int) :
    Nat → (Nat → Option Line) → Option Nat → (Nat → Option Line) × List Row
  | 0, h, _ => (h, [])
  | _ + 1, h, none => (h, [])
  | k + 1, h, some a =>
    match h a with
    | none => (h, [])
    | some L =>
      if some a = cur then
        let r := drawRows TABSTOP cur sdirty width k
          (upd h a (fun X => { X with dirty := true })) L.next
        (r.1, ⟨a, some (rowText TABSTOP width L), true⟩ :: r.2)
      else if L.dirty || sdirty then
        let r := drawRows TABSTOP cur sdirty width k
          (upd h a (fun X => { X with dirty := false })) L.next
        (r.1, ⟨a, some (rowText TABSTOP width L), false⟩ :: r.2)
      else
        let r := drawRows TABSTOP cur sdirty width k h L.next
        (r.1, ⟨a, none, false⟩ :: r.2)

/-- Function `i_drawscr(sdirty, crow, ccol)`. -/
def i_drawscr (TABSTOP : Int) (s : State) (sdirty : Bool) (crow ccol : Int) : State × Frame :=
  let r := drawRows TABSTOP s.cur.l sdirty s.width (s.height - 1).toNat s.heap s.sstart
  ({ s with heap := r.1 },
   { sdirty := sdirty, crow := crow, ccol := ccol, rows := r.2,
     blank := (s.height - 1).toNat - r.2.length })

/-- The loop of `i_draw` that finds the cursor column: `i` runs over the
bytes before offset `o` in steps of `i_utf8len`. -/
def curCol (TABSTOP : Int) (c : Int → Nat) (o : Int) : Nat → Int → Int → Int
  | 0, _, ccol => ccol
  | k + 1, i, ccol =>
    if i < o then
      curCol TABSTOP c o k (i + i_utf8len (c i)) (if c i = 9 then ccol + TABSTOP else ccol + 1)
    else ccol

/-- The first search of `i_draw`: from `l` on, with row number `i`, for at
most `k` Lines (`k` is `nh - i`).  Gives the row of the cursor Line, or the
pointer the loop stopped at. -/
def scanOn (h : Nat → Option Line) (cur : Option Nat) : Nat → Option Nat → Int → Int ⊕ Option Nat
  | 0, l, _ => .inr l
  | _ + 1, none, _ => .inr none
  | k + 1, some a, i =>
    if some a = cur then .inl i
    else
      match h a with
      | none => .inr none
      | some L => scanOn h cur k L.next (i + 1)

/-- The second search of `i_draw`: down the chain from `l` to its end.
`some true` when the cursor Line is found, `some false` when the end is
reached, `none` when the bound on the steps runs out. -/
def scanBelow (h : Nat → Option Line) (cur : Option Nat) : Nat → Option Nat → Option Bool
  | _, none => some false
  | 0, some _ => none
  | k + 1, some a =>
    if some a = cur then some true
    else
      match h a with
      | none => some false
      | some L => scanBelow h cur k L.next

/-- The third search of `i_draw`: from `fstart` down while the Line is not
`sstart` and has a successor. -/
def scanAbove (h : Nat → Option Line) (cur sstart : Option Nat) : Nat → Nat → Option Bool
  | 0, _ => none
  | k + 1, a =>
    if some a = sstart then some false
    else
      match h a with
      | none => some false
      | some L =>
        match L.next with
        | none => some false
        | some n => if some a = cur then some true else scanAbove h cur sstart k n

/-- The recentring loop of `i_draw`: at most `k` steps up the chain from the
cursor Line (`k` is `nh/2 - 1`). -/
def recentre (h : Nat → Option Line) : Nat → Nat → Nat
  | 0, a => a
  | k + 1, a =>
    match h a with
    | none => a
    | some L =>
      match L.prev with
      | none => a
      | some p => recentre h k p

/-- How a call of `i_draw` ends. -/
inductive Drawn where
  | nofile : Drawn
  | drew (s : State) (f : Frame) : Drawn
  | died : Drawn
  | stuck : Drawn

/-- The start of `i_draw`: `sstart` is set to `fstart` when it is unset, and
when the height or width differs from the cached one the cache is updated.
The second component is `sdirty`. -/
def drawPrep (s : State) (nh nw : Int) : State × Bool :=
  let s1 : State := if s.sstart = none then { s with sstart := s.fstart } else s
  let sdirty : Bool := decide (nh ≠ s1.height ∨ nw ≠ s1.width)
  (if sdirty then { s1 with height := nh, width := nw } else s1, sdirty)

/-- The cursor column `i_draw` computes (1 when the cursor Line cannot be
read). -/
def drawCol (TABSTOP : Int) (s : State) : Int :=
  match s.cur.l with
  | none => 1
  | some c =>
    match s.heap c with
    | none => 1
    | some C => curCol TABSTOP C.c s.cur.o s.cur.o.toNat 0 1

/-- The recentring of `i_draw` and the call `i_drawscr(true, nh/2, ccol)`
that follows it. -/
def drawCentred (TABSTOP : Int) (s : State) (nh : Int) : Drawn :=
  match s.cur.l with
  | none => .died
  | some c =>
    let r := i_drawscr TABSTOP
      { s with sstart := some (recentre s.heap (nh.tdiv 2 - 1).toNat c) }
      true (nh.tdiv 2) (drawCol TABSTOP s)
    .drew r.1 r.2

/-- Function `i_draw()` with `nh`, `nw` the height and width the terminal reports and
`fuel` a bound on the steps of the two searches that walk the chain without
a row limit.  `nofile`: there is no buffer.  `drew`: the state after and the
record of the call of `i_drawscr`.  `died`: `i_die`.  `stuck`: the bound ran
out. -/
def i_draw (TABSTOP : Int) (fuel : Nat) (s : State) (nh nw : Int) : Drawn :=
  match s.fstart with
  | none => .nofile
  | some f =>
    let s2 := (drawPrep s nh nw).1
    let sdirty := (drawPrep s nh nw).2
    match scanOn s2.heap s2.cur.l (nh - 1).toNat s2.sstart 1 with
    | .inl i =>
      let r := i_drawscr TABSTOP s2 sdirty i (drawCol TABSTOP s2)
      .drew r.1 r.2
    | .inr l =>
      match scanBelow s2.heap s2.cur.l fuel l with
      | none => .stuck
      | some true => drawCentred TABSTOP s2 nh
      | some false =>
        match scanAbove s2.heap s2.cur.l s2.sstart fuel f with
        | none => .stuck
        | some true => drawCentred TABSTOP s2 nh
        | some false => .died

/-! ## Loading -/

/-- The globals at program start: no buffer, nothing allocated. -/
def init : State :=
  { heap := fun _ => none, brk := 0, fstart := none, fend := none, sstart := none,
    cur := ⟨none, 0⟩, height := 0, width := 0, modified := false, fault := false }

/-- Function `i_loadfile`: set up the one-Line buffer when there is none yet, insert
every chunk `read` returned, and put the cursor at the start.  `malloc`
leaves `dirty`, `next` and `prev` of the first Line unset; they are taken as
false and null. -/
def i_loadfile (s : State) (chunks : List (List Nat)) : State :=
  let s1 : State :=
    match s.fstart with
    | some _ => s
    | none =>
      let l : Line :=
        { c := poke (fun _ => 0) 0 0, len := 0, mul := 0, cap := LINESIZE,
          dirty := false, next := none, prev := none }
      { s with heap := hset s.heap s.brk (some l), brk := s.brk + 1,
               fstart := some s.brk, fend := some s.brk, cur := ⟨some s.brk, 0⟩ }
  let s2 := chunks.foldl
    (fun (t : State) buf => let r := i_insert t t.cur buf; { r.1 with cur := r.2 }) s1
  { s2 with cur := ⟨s2.fstart, 0⟩, modified := false }

/-! ## Well-formed buffers -/

/-- The Lines `ls` form a doubly linked segment of the heap: it starts at the
pointer `f`, the first Line's `prev` is `p`, every `next` leads to the
following Line with `prev` leading back, and the last Line's `next` is `e`. -/
def Dll (h : Nat → Option Line) : Option Nat → Option Nat → List Nat → Option Nat → Prop
  | _, f, [], e => f = e
  | p, f, a :: t, e =>
    f = some a ∧
      match h a with
      | none => False
      | some L => L.prev = p ∧ Dll h (some a) L.next t e

/-- A Line respects the storage discipline of the source: its length is not
negative, `c[len]` is the terminating NUL, its bytes hold no NUL and no
separator, and either it has `mul >= 1`, a block of `LINESIZE * mul` bytes
and room in it for the bytes and the NUL, or it is the first Line as
`i_loadfile` makes it: empty, with a block of `LINESIZE` bytes and `mul = 0`
recorded for it.  A Line without storage (the one `i_newline(0)` returns) is
not admitted. -/
def LineOk (L : Line) : Prop :=
  0 ≤ L.len ∧ L.c L.len = 0 ∧ (∀ b ∈ content L, b ≠ 0 ∧ b ≠ 10 ∧ b ≠ 13) ∧
    ((1 ≤ L.mul ∧ L.cap = LINESIZE * L.mul ∧ L.len < L.cap) ∨
      (L.mul = 0 ∧ L.cap = LINESIZE ∧ L.len = 0))

/-- Well-formed buffer with chain `ls`: the Lines `ls` are distinct
(acyclic), are linked from `fstart` to a null `next` with consistent `prev`
links, `fend` is the last of them, all were handed out by the allocator, and
each respects `LineOk`. -/
structure WF (s : State) (ls : List Nat) : Prop where
  ne : ls ≠ []
  nodup : ls.Nodup
  chain : Dll s.heap none s.fstart ls none
  last : s.fend = ls.getLast?
  fresh : ∀ a ∈ ls, a < s.brk
  ok : ∀ a ∈ ls, ∀ L ∈ s.heap a, LineOk L

/-- The contents of the Lines `ls`, in order. -/
def texts (h : Nat → Option Line) (ls : List Nat) : List (List Nat) :=
  ls.map (fun a => match h a with
    | some L => content L
    | none => [])

/-- The flattened content: the Lines joined by one `\n`. -/
def flat (h : Nat → Option Line) (ls : List Nat) : List Nat :=
  [10].intercalate (texts h ls)

/-- The index in the flattened content of the Position `(a, o)`. -/
def flatIndex (h : Nat → Option Line) : List Nat → Nat → Int → Nat
  | [], _, _ => 0
  | b :: t, a, o =>
    if b = a then o.toNat
    else (match h b with
      | some L => (content L).length + 1
      | none => 1) + flatIndex h t a o

/-- A separator byte of `i_insert`: `\n` or `\r`. -/
def isSep (b : Nat) : Bool := b = 10 || b = 13

/-- The text with every separator written as `\n`. -/
def norm (t : List Nat) : List Nat := t.map (fun b => if isSep b then 10 else b)

/-- The bytes of `t` after its last separator (all of `t` when it has none). -/
def lastSeg : List Nat → List Nat
  | [] => []
  | b :: t => if t.any isSep then lastSeg t else if isSep b then t else b :: t

/-! ## Vocabulary of the statements and proofs -/

/-- Text without NUL and without separator bytes. -/
def Plain (t : List Nat) : Prop := ∀ b ∈ t, b ≠ 0 ∧ b ≠ 10 ∧ b ≠ 13

/-- The Line after the `else` branch of `i_insert` ran for every byte of a
text, starting at offset `o`. -/
def putChars (L : Line) (o : Int) : List Nat → Line × Bool
  | [] => (L, false)
  | ch :: t => ((putChars (putChar L o ch).1 (o + 1) t).1,
      (putChar L o ch).2 || (putChars (putChar L o ch).1 (o + 1) t).2)

/-- The last Line of `xs`, or `p` when `xs` is empty. -/
def lastOr (p : Option Nat) : List Nat → Option Nat
  | [] => p
  | a :: t => lastOr (some a) t

/-- What the loop needs of the self-call: on plain text at offset 0 of a live
Line it behaves as the loop of `i_insert` does. -/
def SelfOk (self : State → Filepos → List Nat → State × Filepos) : Prop :=
  ∀ (s : State) (l : Nat) (L : Line) (t : List Nat), Plain t → s.heap l = some L →
    self s ⟨some l, 0⟩ t =
      ({ s with heap := hset s.heap l (some (putChars L 0 t).1), modified := true,
                fault := s.fault || (putChars L 0 t).2 }, ⟨some l, 0 + t.length⟩)

/-- The Line `l` after a split at `o`: cut at `o` and followed by `ln`. -/
def cutLine (L : Line) (o : Int) (ln : Nat) : Line :=
  { L with next := some ln, c := poke L.c o 0, len := o, dirty := true }

/-- The new Line before the rest of `l` is moved into it. -/
def freshLine (L : Line) (l : Nat) : Line :=
  { c := poke (fun _ => 0) 0 0, len := 0, mul := L.mul, cap := LINESIZE * L.mul,
    dirty := true, next := L.next, prev := some l }

/-- The new Line of a split of `l` at `o`, holding the bytes of `l` from `o`
on. -/
def tailLine (L : Line) (o : Int) (l : Nat) : Line × Bool :=
  if o < L.len then putChars (freshLine L l) 0 (cstr L.c (L.cap - o).toNat o)
  else (freshLine L l, false)

/-- The state after the separator branch ran at `(l, o)`. -/
def splitState (s : State) (l : Nat) (o : Int) (L : Line) : State :=
  { s with
    heap := fun x =>
      if x = l then some (cutLine L o s.brk)
      else if x = s.brk then some (tailLine L o l).1
      else if L.next = some x then (s.heap x).map (fun X => { X with prev := some s.brk })
      else s.heap x,
    brk := s.brk + 1,
    fend := if s.fend = some l then some s.brk else s.fend,
    height := 0,
    modified := if o < L.len then true else s.modified,
    fault := ((s.fault || outside (LINESIZE * L.mul) 0 1) || (tailLine L o l).2) ||
      outside L.cap o 1 }

/-- The Lines before the cursor Line, each followed by its separator. -/
def pfx (xs : List (List Nat)) : List Nat := (xs.map (fun x => x ++ [10])).flatten

/-- The Lines after the cursor Line, each preceded by its separator. -/
def sfx (xs : List (List Nat)) : List Nat := (xs.map (fun x => 10 :: x)).flatten

/-- The number of separator bytes of a text. -/
def sepCount (t : List Nat) : Nat := (t.filter isSep).length

/-- The Line after the `else` branch of `i_backspace` at offset `o`. -/
def delChar (L : Line) (o : Int) : Line :=
  { L with c := memmove L.c (o - 1) o (L.len - o + 1), len := L.len - 1 }

/-- Function `i_backspace` applied `n` times. -/
def backspaces : Nat → State × Filepos → State × Filepos
  | 0, r => r
  | n + 1, r => backspaces n (i_backspace r.1 r.2)

instance (t : List Nat) : Decidable (Plain t) :=
  inferInstanceAs (Decidable (∀ b ∈ t, b ≠ 0 ∧ b ≠ 10 ∧ b ≠ 13))

/-- The previous Line after the merge path of `i_backspace` appended the Line
`A` to it. -/
def mergeLine (P A : Line) : Line :=
  { P with mul := (A.len + P.len).tdiv LINESIZE + 1,
           cap := ((A.len + P.len).tdiv LINESIZE + 1) * LINESIZE,
           c := memcpy P.c P.len A.c 0 (A.len + 1),
           len := A.len + P.len, next := A.next, dirty := true }

instance Dll.dec (h : Nat → Option Line) :
    ∀ (ls : List Nat) (p f e : Option Nat), Decidable (Dll h p f ls e)
  | [], _, f, e => inferInstanceAs (Decidable (f = e))
  | a :: t, p, f, e =>
    match hh : h a with
    | none => isFalse (by simp [Dll, hh])
    | some L =>
      have := Dll.dec h t (some a) L.next e
      decidable_of_iff (f = some a ∧ L.prev = p ∧ Dll h (some a) L.next t e)
        (by simp [Dll, hh])

instance (L : Line) : Decidable (LineOk L) :=
  inferInstanceAs (Decidable (0 ≤ L.len ∧ L.c L.len = 0 ∧
    (∀ b ∈ content L, b ≠ 0 ∧ b ≠ 10 ∧ b ≠ 13) ∧
    ((1 ≤ L.mul ∧ L.cap = LINESIZE * L.mul ∧ L.len < L.cap) ∨
      (L.mul = 0 ∧ L.cap = LINESIZE ∧ L.len = 0))))

instance (s : State) (ls : List Nat) : Decidable (WF s ls) :=
  decidable_of_iff (ls ≠ [] ∧ ls.Nodup ∧ Dll s.heap none s.fstart ls none ∧
      s.fend = ls.getLast? ∧ (∀ a ∈ ls, a < s.brk) ∧ ∀ a ∈ ls, ∀ L ∈ s.heap a, LineOk L)
    ⟨fun ⟨a, b, c, d, e, f⟩ => ⟨a, b, c, d, e, f⟩,
     fun h => ⟨h.ne, h.nodup, h.chain, h.last, h.fresh, h.ok⟩⟩

/-- The buffer of the end-to-end example: "ab\ncd" inserted at the start of
the buffer the editor starts from. -/
def abcd : State × Filepos :=
  i_insert (i_loadfile init []) ⟨some 0, 0⟩ [97, 98, 10, 99, 100]

/-- The result of a draw that reached `i_drawscr`, for the buffer `ls` with
cursor Line `c`: `i_drawscr` ran on a state `s3` that has the heap and the
cursor of `s` and the new height and width, with `sdirty` set when the
terminal was resized, and with `sstart` the head of a suffix `win` of the
chain that holds the cursor Line among its first `nh - 1` Lines when
`nh >= 2`. -/
def Shown (TABSTOP : Int) (s : State) (ls : List Nat) (c : Nat) (nh nw : Int) (d : Drawn) :
    Prop :=
  ∃ (s3 : State) (sd : Bool) (crow ccol : Int) (xs win : List Nat),
    d = .drew (i_drawscr TABSTOP s3 sd crow ccol).1 (i_drawscr TABSTOP s3 sd crow ccol).2 ∧
    s3.heap = s.heap ∧ s3.cur = s.cur ∧ s3.height = nh ∧ s3.width = nw ∧
    ((nh ≠ s.height ∨ nw ≠ s.width) → sd = true) ∧
    ls = xs ++ win ∧ s3.sstart = win.head? ∧
    Dll s.heap (lastOr none xs) win.head? win none ∧
    (2 ≤ nh → c ∈ win.take (nh - 1).toNat)

/-- A buffer of four Lines "a", "b", "c", "d" with the cursor on the last
Line and `sstart` not yet set. -/
def lines4 : State :=
  { (i_insert (i_loadfile init []) ⟨some 0, 0⟩ [97, 10, 98, 10, 99, 10, 100]).1 with
    cur := ⟨some 3, 1⟩ }

/-- The empty Line `f_newl` allocates. -/
def newl : Line :=
  { c := poke (fun _ => 0) 0 0, len := 0, mul := 1, cap := LINESIZE * 1,
    dirty := true, next := none, prev := none }

/-- The storage bound of a Line: at least one block, the block the allocator
handed out has `LINESIZE * mul` bytes, and the content and its terminating
NUL fit. -/
def Strict (L : Line) : Prop :=
  1 ≤ L.mul ∧ L.cap = LINESIZE * L.mul ∧ L.len + 1 ≤ LINESIZE * L.mul

/-- The Line `L` can take the text `t` without a split of a Line that has no
block recorded: `L` has `mul >= 1`, or `t` does not begin with a separator
(an ordinary first byte makes `i_insert` bring the Line to one block before
any split).  A split of a Line with `mul = 0` calls `i_newline(0)`. -/
def CanSplit (L : Line) (t : List Nat) : Prop :=
  1 ≤ L.mul ∨ ∀ b ∈ t.head?, b ≠ 10 ∧ b ≠ 13

instance (L : Line) (t : List Nat) : Decidable (CanSplit L t) :=
  inferInstanceAs (Decidable (1 ≤ L.mul ∨ ∀ b ∈ t.head?, b ≠ 10 ∧ b ≠ 13))

/-- The invariant of the storage bound: every Line of the chain has at least
one block, and no store so far has left a block. -/
def Roomy (s : State) (ls : List Nat) : Prop :=
  (∀ a ∈ ls, ∀ L ∈ s.heap a, 1 ≤ L.mul) ∧ s.fault = false

instance (L : Line) : Decidable (Strict L) :=
  inferInstanceAs (Decidable (1 ≤ L.mul ∧ L.cap = LINESIZE * L.mul ∧
    L.len + 1 ≤ LINESIZE * L.mul))

/-- A buffer whose first Line has had 79 bytes inserted, which brought it to
two blocks, followed by an empty second Line. -/
def wide : State :=
  (i_insert (i_loadfile init []) ⟨some 0, 0⟩ (List.replicate 79 97 ++ [10])).1

/-- The invariant of the capacity multiple through `i_insert`, relative to
the state `s0` with chain `ls0` the call started from: every Line of `ls0` is
still in the chain, with a `mul` that is not below the one it had. -/
def Grown (s0 : State) (ls0 : List Nat) (s : State) (ls : List Nat) : Prop :=
  ∀ a ∈ ls0, ∀ X, s0.heap a = some X → a ∈ ls ∧ ∃ X', s.heap a = some X' ∧ X.mul ≤ X'.mul

/-- The state a finished draw leaves, when the draw reached `i_drawscr`. -/
def Drawn.state : Drawn → Option State
  | .drew s _ => some s
  | _ => none

/-- The record of the call of `i_drawscr`, when the draw reached it. -/
def Drawn.frame : Drawn → Option Frame
  | .drew _ f => some f
  | _ => none

/-- The four-Line buffer after its first draw on a 24 by 80 terminal: the
cursor Line is the last one, the other Lines have been drawn and are not
dirty. -/
def shown4 : State :=
  ((i_draw 8 4 lines4 24 80).state).getD lines4

/-- A buffer whose only Line holds one tab. -/
def tabbed : State :=
  { (i_insert (i_loadfile init []) ⟨some 0, 0⟩ [9]).1 with
    cur := ⟨some 0, 1⟩, sstart := some 0, height := 2, width := 1 }

/-- The four-Line buffer with the cursor on the first Line and the screen
starting at the second Line. -/
def above4 : State :=
  { lines4 with cur := ⟨some 0, 0⟩, sstart := some 1 }

/-- The four-Line buffer after its first draw, with the cursor moved to the
second Line: the last Line is still dirty (it was the cursor Line of the
draw), the others are not. -/
def moved4 : State :=
  { shown4 with cur := ⟨some 1, 0⟩ }

/-- A valid Position of the buffer with chain `ls`: its Line is one of the
chain and its offset lies between 0 and the length of that Line. -/
def Valid (h : Nat → Option Line) (ls : List Nat) (pos : Filepos) : Prop :=
  ∃ a ∈ pos.l, a ∈ ls ∧ ∃ L ∈ h a, 0 ≤ pos.o ∧ pos.o ≤ L.len

instance (h : Nat → Option Line) (ls : List Nat) (pos : Filepos) :
    Decidable (Valid h ls pos) :=
  inferInstanceAs (Decidable (∃ a ∈ pos.l, a ∈ ls ∧ ∃ L ∈ h a, 0 ≤ pos.o ∧ pos.o ≤ L.len))

/-- The four-Line buffer with the cursor at the start of its first Line, after
its first draw on a 24 by 80 terminal: the cache holds the height 24, the
first Line is dirty as the cursor Line, the other Lines are not. -/
def top4 : State :=
  ((i_draw 8 4 { lines4 with cur := ⟨some 0, 0⟩ } 24 80).state).getD lines4

/-! ## Heap and storage lemmas -/

@[simp] theorem hset_same (h : Nat → Option Line) (a : Nat) (v : Option Line) :
    hset h a v a = v := by
  simp [hset]

@[simp] theorem hset_ne (h : Nat → Option Line) {a x : Nat} (v : Option Line) (hx : x ≠ a) :
    hset h a v x = h x := by
  simp [hset, hx]

@[simp] theorem upd_same (h : Nat → Option Line) (a : Nat) (f : Line → Line) :
    upd h a f a = (h a).map f := by
  simp [upd]

@[simp] theorem upd_ne (h : Nat → Option Line) {a x : Nat} (f : Line → Line) (hx : x ≠ a) :
    upd h a f x = h x := by
  simp [upd, hx]

theorem hset_hset (h : Nat → Option Line) (a : Nat) (v w : Option Line) :
    hset (hset h a v) a w = hset h a w := by
  funext x
  by_cases hx : x = a <;> simp [hset, hx]

@[simp] theorem content_length (L : Line) : (content L).length = L.len.toNat := by
  simp [content]

theorem content_getElem (L : Line) (i : Nat) (hi : i < (content L).length) :
    (content L)[i] = L.c i := by
  simp [content]

/-- Two Lines with the same length and the same bytes below it have the same
content. -/
theorem content_congr {L M : Line} (hl : L.len = M.len)
    (hc : ∀ i : Int, 0 ≤ i → i < L.len → L.c i = M.c i) : content L = content M := by
  unfold content
  rw [hl]
  apply List.map_congr_left
  intro i hi
  have := List.mem_range.mp hi
  apply hc <;> omega

@[simp] theorem grow_len (L : Line) : (grow L).len = L.len := by
  unfold grow; split <;> rfl

@[simp] theorem grow_c (L : Line) : (grow L).c = L.c := by
  unfold grow; split <;> rfl

@[simp] theorem grow_next (L : Line) : (grow L).next = L.next := by
  unfold grow; split <;> rfl

@[simp] theorem grow_prev (L : Line) : (grow L).prev = L.prev := by
  unfold grow; split <;> rfl

@[simp] theorem putChar_len (L : Line) (o : Int) (ch : Nat) :
    (putChar L o ch).1.len = L.len + 1 := by
  simp [putChar]

@[simp] theorem putChar_next (L : Line) (o : Int) (ch : Nat) :
    (putChar L o ch).1.next = L.next := by
  simp [putChar]

@[simp] theorem putChar_prev (L : Line) (o : Int) (ch : Nat) :
    (putChar L o ch).1.prev = L.prev := by
  simp [putChar]

/-- The bytes of the Line after `putChar`, index by index. -/
theorem putChar_c (L : Line) (o : Int) (ch : Nat) (i : Int) :
    (putChar L o ch).1.c i =
      if i = L.len + 1 then 0 else if i = o then ch
      else if o < i ∧ i ≤ L.len then L.c (i - 1) else L.c i := by
  simp only [putChar, poke, grow_len, grow_c]
  split_ifs <;> (try simp only [memmove, memcpy]) <;> (try split_ifs) <;>
    first | rfl | omega | (congr 1; omega)

theorem getElem_take_cons_drop {α : Type} (xs : List α) (k : Nat) (x : α) (hk : k ≤ xs.length)
    (i : Nat) (hi : i < (xs.take k ++ x :: xs.drop k).length) :
    (xs.take k ++ x :: xs.drop k)[i]? =
      if i < k then xs[i]? else if i = k then some x else xs[i - 1]? := by
  rw [List.getElem?_append]
  simp only [List.length_take, Nat.min_eq_left hk]
  split_ifs with h1 h2
  · simp [List.getElem?_take, h1]
  · subst h2; simp
  · obtain ⟨j, hj⟩ : ∃ j, i - k = j + 1 := ⟨i - k - 1, by omega⟩
    rw [hj, List.getElem?_cons_succ, List.getElem?_drop]
    congr 1; omega

/-- A Line has content `xs` when its length is the length of `xs` and its
bytes are those of `xs`. -/
theorem content_eq_of (L : Line) (xs : List Nat) (hl : L.len.toNat = xs.length)
    (hc : ∀ i : Nat, i < xs.length → some (L.c i) = xs[i]?) : content L = xs := by
  apply List.ext_getElem?
  intro i
  by_cases hi : i < xs.length
  · rw [← hc i hi]
    simp [content, hl, hi]
  · have h1 : xs.length ≤ i := by omega
    rw [List.getElem?_eq_none h1, List.getElem?_eq_none]
    simp [hl, h1]

theorem content_getElem? (L : Line) (i : Nat) (hi : i < L.len.toNat) :
    (content L)[i]? = some (L.c i) := by
  simp [content, hi]

/-- The step `putChar` inserts the byte at the offset. -/
theorem putChar_content (L : Line) (o : Int) (ch : Nat) (h0 : 0 ≤ o) (h1 : o ≤ L.len) :
    content (putChar L o ch).1 =
      (content L).take o.toNat ++ ch :: (content L).drop o.toNat := by
  apply content_eq_of
  · simp; omega
  · intro i hi
    have hlen : i < L.len.toNat + 1 := by simp at hi; omega
    rw [getElem_take_cons_drop _ _ _ (by simp; omega) _ hi, putChar_c]
    by_cases ha : i < o.toNat
    · rw [if_pos ha, content_getElem? _ _ (by omega)]
      rw [if_neg (by omega), if_neg (by omega), if_neg (by omega)]
    · rw [if_neg ha]
      by_cases hb : i = o.toNat
      · rw [if_pos hb, if_neg (by omega), if_pos (by omega)]
      · rw [if_neg hb, content_getElem? _ _ (by omega), if_neg (by omega), if_neg (by omega),
          if_pos (by omega)]
        congr 2; omega

theorem grow_store (L : Line)
    (hs : (1 ≤ L.mul ∧ L.cap = LINESIZE * L.mul ∧ L.len < L.cap) ∨
      (L.mul = 0 ∧ L.cap = LINESIZE ∧ L.len = 0)) :
    1 ≤ (grow L).mul ∧ (grow L).cap = LINESIZE * (grow L).mul ∧ L.len + 1 < (grow L).cap := by
  unfold grow
  split_ifs with h <;> (try dsimp only) <;> refine ⟨?_, ?_, ?_⟩ <;>
    first | rfl | (simp only [LINESIZE] at *; omega)

theorem putChar_ok (L : Line) (o : Int) (ch : Nat) (hL : LineOk L) (h0 : 0 ≤ o)
    (h1 : o ≤ L.len) (hch : ch ≠ 0 ∧ ch ≠ 10 ∧ ch ≠ 13) :
    LineOk (putChar L o ch).1 ∧ 1 ≤ (putChar L o ch).1.mul := by
  obtain ⟨hl, hz, hb, hs⟩ := hL
  have hst : 1 ≤ (putChar L o ch).1.mul ∧
      (putChar L o ch).1.cap = LINESIZE * (putChar L o ch).1.mul ∧
      L.len + 1 < (putChar L o ch).1.cap := grow_store L hs
  refine ⟨⟨by simp; omega, ?_, ?_, Or.inl ⟨hst.1, hst.2.1, by simpa using hst.2.2⟩⟩, hst.1⟩
  · rw [putChar_c]; simp
  · rw [putChar_content L o ch h0 h1]
    intro b hb2
    rcases List.mem_append.mp hb2 with h | h
    · exact hb b (List.mem_of_mem_take h)
    · rcases List.mem_cons.mp h with h | h
      · exact h ▸ hch
      · exact hb b (List.mem_of_mem_drop h)

theorem hset_self (h : Nat → Option Line) (a : Nat) (v : Option Line) (hv : h a = v) :
    hset h a v = h := by
  funext x
  by_cases hx : x = a
  · subst hx; simp [hv]
  · simp [hx]

/-- On plain text the loop of `i_insert` only rewrites the current Line. -/
theorem insertLoop_plain (self : State → Filepos → List Nat → State × Filepos)
    (t : List Nat) (ht : Plain t) (s : State) (l : Nat) (o : Int) (L : Line)
    (hL : s.heap l = some L) :
    insertLoop self s l o t =
      ({ s with heap := hset s.heap l (some (putChars L o t).1), modified := true,
                fault := s.fault || (putChars L o t).2 }, ⟨some l, o + t.length⟩) := by
  induction t generalizing s o L with
  | nil =>
    simp [insertLoop, putChars, hset_self _ _ _ hL]
  | cons ch t ih =>
    have hch := ht ch (List.mem_cons_self _ _)
    have ht2 : Plain t := fun b hb => ht b (List.mem_cons_of_mem _ hb)
    rw [insertLoop, if_neg hch.1]
    simp only [hL]
    rw [if_neg (by simp [hch.2.1, hch.2.2])]
    rw [ih ht2 _ _ (putChar L o ch).1 (by simp)]
    simp only [putChars, hset_hset, Bool.or_assoc, List.length_cons]
    congr 2
    push_cast; ring

theorem putChars_spec (t : List Nat) (L : Line) (o : Int) (h0 : 0 ≤ o) (h1 : o ≤ L.len) :
    (putChars L o t).1.len = L.len + t.length ∧
    (putChars L o t).1.next = L.next ∧ (putChars L o t).1.prev = L.prev ∧
    content (putChars L o t).1 = (content L).take o.toNat ++ t ++ (content L).drop o.toNat := by
  induction t generalizing L o with
  | nil => simp [putChars]
  | cons ch t ih =>
    obtain ⟨a, b, c, d⟩ := ih (putChar L o ch).1 (o + 1) (by omega) (by simp; omega)
    simp only [putChars]
    refine ⟨by rw [a]; simp; ring, by rw [b]; simp, by rw [c]; simp, ?_⟩
    rw [d, putChar_content L o ch h0 h1]
    have e1 : (o + 1).toNat = o.toNat + 1 := by omega
    have e2 : o.toNat ≤ (content L).length := by simp; omega
    rw [e1]
    have e3 : ((content L).take o.toNat).length = o.toNat := by simp; omega
    rw [List.take_append_eq_append_take, List.drop_append_eq_append_drop]
    simp [e3, List.take_of_length_le, List.drop_of_length_le]

theorem putChars_ok (t : List Nat) (ht : Plain t) (L : Line) (o : Int) (hL : LineOk L)
    (h0 : 0 ≤ o) (h1 : o ≤ L.len) : LineOk (putChars L o t).1 := by
  induction t generalizing L o with
  | nil => simpa [putChars] using hL
  | cons ch t ih =>
    simp only [putChars]
    exact ih (fun b hb => ht b (List.mem_cons_of_mem _ hb)) _ _
      (putChar_ok L o ch hL h0 h1 (ht ch (List.mem_cons_self _ _))).1 (by omega) (by simp; omega)

/-! ## Linked segments -/

theorem Dll_cons_iff (h : Nat → Option Line) (p f e : Option Nat) (a : Nat) (t : List Nat) :
    Dll h p f (a :: t) e ↔
      f = some a ∧ ∃ L, h a = some L ∧ L.prev = p ∧ Dll h (some a) L.next t e := by
  rw [Dll]
  cases hh : h a <;> simp

theorem lastOr_append (p : Option Nat) (xs : List Nat) (a : Nat) :
    lastOr p (xs ++ [a]) = some a := by
  induction xs generalizing p with
  | nil => rfl
  | cons b t ih => exact ih _

theorem Dll_append (h : Nat → Option Line) (p f e : Option Nat) (xs ys : List Nat) :
    Dll h p f (xs ++ ys) e ↔ ∃ m, Dll h p f xs m ∧ Dll h (lastOr p xs) m ys e := by
  induction xs generalizing p f with
  | nil => simp [Dll, lastOr]
  | cons a t ih =>
    simp only [List.cons_append, Dll_cons_iff, ih, lastOr]
    constructor
    · rintro ⟨hf, L, hL, hp, m, h1, h2⟩
      exact ⟨m, ⟨hf, L, hL, hp, h1⟩, h2⟩
    · rintro ⟨m, ⟨hf, L, hL, hp, h1⟩, h2⟩
      exact ⟨hf, L, hL, hp, m, h1, h2⟩

/-- A segment only depends on the links of its own Lines. -/
theorem Dll_congr (h h' : Nat → Option Line) (p f e : Option Nat) (ls : List Nat)
    (hh : ∀ a ∈ ls, ∀ L, h a = some L → ∃ L', h' a = some L' ∧ L'.prev = L.prev ∧ L'.next = L.next)
    (hd : Dll h p f ls e) : Dll h' p f ls e := by
  induction ls generalizing p f with
  | nil => exact hd
  | cons a t ih =>
    rw [Dll_cons_iff] at hd ⊢
    obtain ⟨hf, L, hL, hp, hr⟩ := hd
    obtain ⟨L', hL', h1, h2⟩ := hh a (List.mem_cons_self _ _) L hL
    exact ⟨hf, L', hL', h1.trans hp, h2 ▸ ih _ _ (fun b hb => hh b (List.mem_cons_of_mem _ hb)) hr⟩

/-- A segment starts at its first Line. -/
theorem Dll_head (h : Nat → Option Line) (p f e : Option Nat) (ls : List Nat)
    (hd : Dll h p f ls e) : f = (ls.head?).or e := by
  cases ls with
  | nil => simpa [Dll] using hd
  | cons a t => simpa using ((Dll_cons_iff _ _ _ _ _ _).mp hd).1

/-- Every Line of a segment is live. -/
theorem Dll_live (h : Nat → Option Line) (p f e : Option Nat) (ls : List Nat)
    (hd : Dll h p f ls e) : ∀ a ∈ ls, ∃ L, h a = some L := by
  induction ls generalizing p f with
  | nil => simp
  | cons a t ih =>
    obtain ⟨_, L, hL, _, hr⟩ := (Dll_cons_iff _ _ _ _ _ _).mp hd
    intro b hb
    rcases List.mem_cons.mp hb with rfl | hb
    · exact ⟨L, hL⟩
    · exact ih _ _ hr b hb

/-! ## The tail of a Line read as a C string -/

theorem cstr_eq (c : Int → Nat) (k : Nat) : ∀ (i : Int) (n : Nat), k < n → c (i + k) = 0 →
    (∀ j : Nat, j < k → c (i + j) ≠ 0) →
    cstr c n i = (List.range k).map (fun (j : Nat) => c (i + j)) := by
  induction k with
  | zero =>
    intro i n hn hz _
    obtain ⟨m, rfl⟩ : ∃ m, n = m + 1 := ⟨n - 1, by omega⟩
    simp only [cstr]
    rw [if_pos (by simpa using hz)]
    rfl
  | succ k ih =>
    intro i n hn hz hnz
    obtain ⟨m, rfl⟩ : ∃ m, n = m + 1 := ⟨n - 1, by omega⟩
    have h0 : c i ≠ 0 := by simpa using hnz 0 (by omega)
    simp only [cstr]
    rw [if_neg h0, ih (i + 1) m (by omega)
      (by rw [← hz]; congr 1; push_cast; ring)
      (fun j hj => by
        have := hnz (j + 1) (by omega)
        rwa [show i + 1 + (j : Int) = i + ((j + 1 : Nat) : Int) by push_cast; ring])]
    rw [List.range_succ_eq_map, List.map_cons, List.map_map]
    simp only [Nat.cast_zero, add_zero, List.cons.injEq, true_and]
    apply List.map_congr_left
    intro j _
    simp only [Function.comp, Nat.succ_eq_add_one]
    congr 1; push_cast; ring

theorem content_drop (L : Line) (k : Nat) :
    (content L).drop k = (List.range (L.len.toNat - k)).map (fun (j : Nat) => L.c ((k : Int) + j)) := by
  apply List.ext_getElem?
  intro i
  simp only [List.getElem?_drop, content, List.getElem?_map, List.getElem?_range]
  by_cases hi : i < L.len.toNat - k
  · rw [List.getElem?_range (by omega), List.getElem?_range hi]
    simp
  · rw [List.getElem?_eq_none (by simp; omega), List.getElem?_eq_none (by simp; omega)]
    rfl

/-- Reading the C string at offset `o` of a well-kept Line gives the bytes
from `o` to the end of the Line. -/
theorem cstr_content (L : Line) (o : Int) (hL : LineOk L) (h0 : 0 ≤ o) (h1 : o ≤ L.len)
    (hcap : L.len < L.cap) :
    cstr L.c (L.cap - o).toNat o = (content L).drop o.toNat := by
  obtain ⟨hl, hz, hb, _⟩ := hL
  rw [content_drop, cstr_eq L.c (L.len.toNat - o.toNat) o _ (by omega)
    (by rw [← hz]; congr 1; omega)]
  · apply List.map_congr_left
    intro j _
    congr 1; omega
  · intro j hj
    have hm : L.c (o + j) ∈ content L := by
      simp only [content, List.mem_map, List.mem_range]
      exact ⟨o.toNat + j, by omega, by congr 1; omega⟩
    exact (hb _ hm).1

theorem i_insertF_selfOk (d : Nat) : SelfOk (i_insertF (d + 1)) := by
  intro s l L t ht hL
  simp only [i_insertF]
  exact insertLoop_plain _ t ht s l 0 L hL

/-! ## The separator branch -/

theorem splitLine_eq (self : State → Filepos → List Nat → State × Filepos)
    (hself : SelfOk self) (s : State) (l : Nat) (o : Int) (L : Line)
    (hL : s.heap l = some L) (hl : l ≠ s.brk) (hn1 : L.next ≠ some s.brk)
    (hn2 : L.next ≠ some l) (hp : o < L.len → Plain (cstr L.c (L.cap - o).toNat o)) :
    splitLine self s l o L = (splitState s l o L, s.brk) := by
  have h3 : ∀ x, (match L.next with
        | some n => upd (upd (hset s.heap s.brk (some
            { c := poke (fun _ => 0) 0 0, len := 0, mul := L.mul, cap := LINESIZE * L.mul,
              dirty := true, next := none, prev := none })) s.brk
              (fun N => { N with prev := some l, next := L.next })) n
              (fun X => { X with prev := some s.brk })
        | none => upd (hset s.heap s.brk (some
            { c := poke (fun _ => 0) 0 0, len := 0, mul := L.mul, cap := LINESIZE * L.mul,
              dirty := true, next := none, prev := none })) s.brk
              (fun N => { N with prev := some l, next := L.next })) x =
      if x = s.brk then some (freshLine L l)
      else if L.next = some x then (s.heap x).map (fun X => { X with prev := some s.brk })
      else s.heap x := by
    intro x
    cases hnx : L.next with
    | none =>
      by_cases hx : x = s.brk
      · subst hx; simp [freshLine, hnx]
      · simp [hx]
    | some n =>
      have hnb : n ≠ s.brk := fun e => hn1 (by rw [hnx, e])
      by_cases hx : x = s.brk
      · subst hx
        dsimp only
        rw [upd_ne _ _ (Ne.symm hnb)]
        simp [freshLine, hnx]
      · by_cases hxn : x = n
        · subst hxn
          simp [hx]
        · have : ¬ n = x := fun e => hxn e.symm
          simp [hx, hxn, this]
  unfold splitLine
  simp only [i_newline]
  by_cases ho : o < L.len
  · simp only [if_pos ho]
    rw [hself _ s.brk (freshLine L l) _ (hp ho) (by
      show upd _ l _ s.brk = _
      rw [upd_ne _ _ (Ne.symm hl), h3, if_pos rfl])]
    simp only [splitState, tailLine, if_pos ho, Prod.mk.injEq, and_true]
    congr 1
    funext x
    by_cases hx : x = l
    · subst hx
      simp [upd_same, hset_ne, hl, h3, hn2, hL, cutLine]
    · by_cases hxb : x = s.brk
      · subst hxb
        simp [hx]
      · simp [hx, hxb, h3]
  · simp only [if_neg ho]
    simp only [splitState, tailLine, if_neg ho, Prod.mk.injEq, and_true, Bool.or_false]
    congr 1
    funext x
    by_cases hx : x = l
    · subst hx
      simp [upd_same, hl, h3, hn2, hL, cutLine]
    · by_cases hxb : x = s.brk
      · subst hxb
        simp [hx, h3]
      · simp [hx, hxb, h3]

theorem cutLine_content (L : Line) (o : Int) (ln : Nat) (h0 : 0 ≤ o) (h1 : o ≤ L.len) :
    content (cutLine L o ln) = (content L).take o.toNat := by
  apply content_eq_of
  · simp [cutLine]; omega
  · intro i hi
    have hi2 : i < o.toNat := by simp at hi; omega
    rw [List.getElem?_take_of_lt hi2, content_getElem? _ _ (by omega)]
    simp only [cutLine, poke]
    rw [if_neg (by omega)]

theorem cutLine_ok (L : Line) (o : Int) (ln : Nat) (hL : LineOk L) (h0 : 0 ≤ o)
    (h1 : o ≤ L.len) : LineOk (cutLine L o ln) := by
  refine ⟨h0, by simp [cutLine, poke], ?_, ?_⟩
  · rw [cutLine_content L o ln h0 h1]
    exact fun b hb => hL.2.2.1 b (List.mem_of_mem_take hb)
  · rcases hL.2.2.2 with h | h
    · exact Or.inl ⟨h.1, h.2.1, by show o < L.cap; omega⟩
    · exact Or.inr ⟨h.1, h.2.1, by show o = 0; omega⟩

theorem grow_mul (L : Line) : L.mul ≤ (grow L).mul := by
  unfold grow
  split_ifs
  · show L.mul ≤ L.mul + 1
    omega
  · exact le_refl _

theorem putChar_mul (L : Line) (o : Int) (ch : Nat) : L.mul ≤ (putChar L o ch).1.mul := by
  simpa [putChar] using grow_mul L

theorem putChars_mul (t : List Nat) : ∀ (L : Line) (o : Int), L.mul ≤ (putChars L o t).1.mul := by
  induction t with
  | nil => intro L o; exact le_refl _
  | cons ch t ih =>
    intro L o
    exact le_trans (putChar_mul L o ch) (ih _ _)

theorem freshLine_ok (L : Line) (l : Nat) (hm : 1 ≤ L.mul) : LineOk (freshLine L l) := by
  refine ⟨le_refl _, by simp [freshLine, poke], by simp [freshLine, content], ?_⟩
  refine Or.inl ⟨hm, rfl, ?_⟩
  show (0 : Int) < LINESIZE * L.mul
  simp only [LINESIZE]; omega

theorem tail_plain (L : Line) (o : Int) (hL : LineOk L) (h0 : 0 ≤ o) (h1 : o < L.len) :
    cstr L.c (L.cap - o).toNat o = (content L).drop o.toNat ∧
      Plain (cstr L.c (L.cap - o).toNat o) := by
  have hcap : L.len < L.cap := by
    rcases hL.2.2.2 with h | h <;> omega
  have e := cstr_content L o hL h0 (by omega) hcap
  exact ⟨e, fun b hb => hL.2.2.1 b (List.mem_of_mem_drop (e ▸ hb))⟩

theorem tailLine_spec (L : Line) (o : Int) (l : Nat) (hL : LineOk L) (hm : 1 ≤ L.mul)
    (h0 : 0 ≤ o) (h1 : o ≤ L.len) :
    content (tailLine L o l).1 = (content L).drop o.toNat ∧ LineOk (tailLine L o l).1 ∧
      (tailLine L o l).1.prev = some l ∧ (tailLine L o l).1.next = L.next ∧
      1 ≤ (tailLine L o l).1.mul := by
  unfold tailLine
  by_cases ho : o < L.len
  · obtain ⟨e, hp⟩ := tail_plain L o hL h0 ho
    obtain ⟨_, hn, hpv, hc⟩ := putChars_spec (cstr L.c (L.cap - o).toNat o) (freshLine L l) 0
      (le_refl _) (by simp [freshLine])
    rw [if_pos ho]
    refine ⟨?_, putChars_ok _ hp _ _ (freshLine_ok L l hm) (le_refl _) (by simp [freshLine]),
      hpv, hn, le_trans hm (putChars_mul _ (freshLine L l) 0)⟩
    rw [hc, e]
    simp [freshLine, content]
  · rw [if_neg ho]
    refine ⟨?_, freshLine_ok L l hm, rfl, rfl, hm⟩
    have : (content L).length ≤ o.toNat := by simp; omega
    rw [List.drop_of_length_le this]
    simp [freshLine, content]

/-! ## Well-formedness around the cursor Line -/

theorem nodup_split {pre post : List Nat} {l : Nat} (h : (pre ++ l :: post).Nodup) :
    l ∉ pre ∧ l ∉ post ∧ pre.Nodup ∧ post.Nodup ∧ ∀ x ∈ pre, x ∉ post := by
  rw [List.nodup_append, List.nodup_cons] at h
  obtain ⟨h1, ⟨h2, h3⟩, h4⟩ := h
  refine ⟨fun hm => h4 hm (List.mem_cons_self _ _), h2, h1, h3, fun x hx hp => ?_⟩
  exact h4 hx (List.mem_cons_of_mem _ hp)

/-- The shape of a well-formed buffer around one of its Lines. -/
theorem WF.cursorLine {s : State} {pre post : List Nat} {l : Nat} (hw : WF s (pre ++ l :: post)) :
    ∃ L, s.heap l = some L ∧ LineOk L ∧ Dll s.heap none s.fstart pre (some l) ∧
      L.prev = lastOr none pre ∧ Dll s.heap (some l) L.next post none ∧
      L.next = post.head? := by
  obtain ⟨m, hpre, hrest⟩ := (Dll_append _ _ _ _ _ _).mp hw.chain
  obtain ⟨hm, L, hL, hp, hpost⟩ := (Dll_cons_iff _ _ _ _ _ _).mp hrest
  subst hm
  refine ⟨L, hL, hw.ok l (by simp) L hL, hpre, hp, hpost, ?_⟩
  simpa using Dll_head _ _ _ _ _ hpost

theorem splitState_wf (s : State) (pre post : List Nat) (l : Nat) (o : Int) (L : Line)
    (hw : WF s (pre ++ l :: post)) (hL : s.heap l = some L) (hm : 1 ≤ L.mul) (h0 : 0 ≤ o)
    (h1 : o ≤ L.len) :
    WF (splitState s l o L) (pre ++ l :: s.brk :: post) := by
  obtain ⟨L', hL', hok, hpre, hp, hpost, hnx⟩ := hw.cursorLine
  obtain rfl : L' = L := by rw [hL] at hL'; exact (Option.some.inj hL').symm
  obtain ⟨n1, n2, n3, n4, n5⟩ := nodup_split hw.nodup
  have hbl : l ≠ s.brk := Nat.ne_of_lt (hw.fresh l (by simp))
  have hb1 : s.brk ∉ pre := fun hm => Nat.lt_irrefl _ (hw.fresh _ (by simp [hm]))
  have hb2 : s.brk ∉ post := fun hm => Nat.lt_irrefl _ (hw.fresh _ (by simp [hm]))
  obtain ⟨tc, tok, tp, tn, -⟩ := tailLine_spec L' o l hok hm h0 h1
  have hnxm : ∀ x, L'.next = some x → x ∈ post := by
    intro x hx
    rw [hnx] at hx
    exact List.mem_of_mem_head? hx
  have hheap : ∀ x, x ≠ l → x ≠ s.brk → (∀ y, L'.next = some y → y ≠ x) →
      (splitState s l o L').heap x = s.heap x := by
    intro x hx1 hx2 hx3
    simp only [splitState, if_neg hx1, if_neg hx2]
    rw [if_neg (fun e => hx3 x e rfl)]
  refine ⟨by simp, ?_, ?_, ?_, ?_, ?_⟩
  · rw [List.nodup_append, List.nodup_cons, List.nodup_cons]
    refine ⟨n3, ⟨?_, hb2, n4⟩, ?_⟩
    · simp only [List.mem_cons, not_or]
      exact ⟨hbl, n2⟩
    · intro x hx hx2
      rcases List.mem_cons.mp hx2 with rfl | hx2
      · exact n1 hx
      · rcases List.mem_cons.mp hx2 with rfl | hx2
        · exact hb1 hx
        · exact n5 x hx hx2
  · show Dll (splitState s l o L').heap none s.fstart (pre ++ l :: s.brk :: post) none
    rw [Dll_append]
    refine ⟨some l, Dll_congr _ _ _ _ _ _ (fun a ha X hX => ⟨X, ?_, rfl, rfl⟩) hpre, ?_⟩
    · rw [hheap a (fun e => n1 (e ▸ ha)) (fun e => hb1 (e ▸ ha))
        (fun y hy e => n5 a ha (e ▸ hnxm y hy))]
      exact hX
    rw [Dll_cons_iff]
    refine ⟨rfl, cutLine L' o s.brk, by simp [splitState], hp, ?_⟩
    show Dll _ (some l) (some s.brk) (s.brk :: post) none
    rw [Dll_cons_iff]
    refine ⟨rfl, (tailLine L' o l).1, by simp [splitState, Ne.symm hbl], tp, ?_⟩
    rw [tn]
    cases post with
    | nil => exact hpost
    | cons n t =>
      rw [Dll_cons_iff] at hpost ⊢
      obtain ⟨e1, X, hX, hXp, hXr⟩ := hpost
      have hnl : n ≠ l := fun e => n2 (by simp [e])
      have hnb : n ≠ s.brk := fun e => hb2 (by simp [e])
      refine ⟨e1, { X with prev := some s.brk }, ?_, rfl, ?_⟩
      · simp [splitState, hnl, hnb, e1, hX]
      · refine Dll_congr _ _ _ _ _ _ (fun a ha Y hY => ⟨Y, ?_, rfl, rfl⟩) hXr
        have hnt : n ∉ t := (List.nodup_cons.mp n4).1
        rw [hheap a (fun e => n2 (by simp [← e, ha])) (fun e => hb2 (by simp [← e, ha]))
          (fun y hy e => hnt (by
            have : y = n := by rw [e1] at hy; exact (Option.some.inj hy).symm
            rw [← this, e]; exact ha))]
        exact hY
  · show (if s.fend = some l then some s.brk else s.fend) = _
    rw [hw.last]
    cases post with
    | nil => simp
    | cons n t =>
      have : (n :: t).getLast? ≠ some l := fun e => n2 (List.mem_of_getLast?_eq_some e)
      simp only [List.getLast?_append_cons, List.getLast?_cons_cons] at this ⊢
      rw [if_neg this]
  · intro a ha
    show a < s.brk + 1
    simp only [List.mem_append, List.mem_cons] at ha
    rcases ha with h | rfl | rfl | h
    · exact Nat.lt_succ_of_lt (hw.fresh a (by simp [h]))
    · exact Nat.lt_succ_of_lt (hw.fresh a (by simp))
    · exact Nat.lt_succ_self _
    · exact Nat.lt_succ_of_lt (hw.fresh a (by simp [h]))
  · intro a ha X hX
    by_cases hal : a = l
    · subst hal
      have : X = cutLine L' o s.brk := by simpa [splitState] using hX.symm
      exact this ▸ cutLine_ok L' o s.brk hok h0 h1
    · by_cases hab : a = s.brk
      · subst hab
        have : X = (tailLine L' o l).1 := by simpa [splitState, hal] using hX.symm
        exact this ▸ tok
      · have ham : a ∈ pre ++ l :: post := by
          simp only [List.mem_append, List.mem_cons] at ha ⊢
          tauto
        simp only [splitState, if_neg hal, if_neg hab, Option.mem_def] at hX
        split_ifs at hX
        · obtain ⟨Y, hY, rfl⟩ := Option.map_eq_some'.mp hX
          exact hw.ok a ham Y hY
        · exact hw.ok a ham X hX

/-- Rewriting a Line of the chain keeps the buffer well-formed when the new
Line has the same links and respects the storage discipline. -/
theorem WF.hset {s : State} {ls : List Nat} (hw : WF s ls) (l : Nat) (L M : Line)
    (hL : s.heap l = some L) (hp : M.prev = L.prev) (hn : M.next = L.next) (hM : LineOk M)
    (s' : State) (hh : s'.heap = Buffalo.hset s.heap l (some M)) (h1 : s'.fstart = s.fstart)
    (h2 : s'.fend = s.fend) (h3 : s.brk ≤ s'.brk) : WF s' ls := by
  refine ⟨hw.ne, hw.nodup, ?_, by rw [h2, hw.last], fun a ha => lt_of_lt_of_le (hw.fresh a ha) h3,
    ?_⟩
  · rw [h1, hh]
    refine Dll_congr _ _ _ _ _ _ (fun a _ X hX => ?_) hw.chain
    by_cases ha : a = l
    · subst ha
      rw [hL] at hX
      obtain rfl := Option.some.inj hX
      exact ⟨M, by simp, hp, hn⟩
    · exact ⟨X, by simp [ha, hX], rfl, rfl⟩
  · intro a ha X hX
    rw [hh] at hX
    by_cases hal : a = l
    · subst hal
      have : X = M := by simpa using hX.symm
      exact this ▸ hM
    · rw [hset_ne _ _ hal] at hX
      exact hw.ok a ha X hX

/-- The texts of Lines whose content the heap change leaves alone. -/
theorem texts_congr (h h' : Nat → Option Line) (ls : List Nat)
    (hh : ∀ a ∈ ls, (h' a).map content = (h a).map content ∧ ((h' a).isSome ↔ (h a).isSome)) :
    texts h' ls = texts h ls := by
  unfold texts
  apply List.map_congr_left
  intro a ha
  obtain ⟨h1, h2⟩ := hh a ha
  cases e : h a <;> cases e' : h' a <;> simp_all

theorem texts_append (h : Nat → Option Line) (xs ys : List Nat) :
    texts h (xs ++ ys) = texts h xs ++ texts h ys := by
  simp [texts]

theorem pfx_append (xs ys : List (List Nat)) : pfx (xs ++ ys) = pfx xs ++ pfx ys := by
  simp [pfx]

theorem intercalate_cons (x : List Nat) (xs : List (List Nat)) :
    [10].intercalate (x :: xs) = x ++ sfx xs := by
  induction xs generalizing x with
  | nil => simp [List.intercalate, sfx]
  | cons y t ih =>
    have := ih y
    simp only [List.intercalate, sfx, List.intersperse_cons_cons, List.flatten_cons,
      List.map_cons] at this ⊢
    rw [this]
    simp

theorem intercalate_split (xs : List (List Nat)) (x : List Nat) (ys : List (List Nat)) :
    [10].intercalate (xs ++ x :: ys) = pfx xs ++ x ++ sfx ys := by
  induction xs with
  | nil => simp [intercalate_cons, pfx]
  | cons a t ih =>
    cases t with
    | nil =>
      rw [List.cons_append, intercalate_cons] at *
      simp only [List.nil_append] at *
      simp [sfx, pfx, intercalate_cons]
    | cons b u =>
      rw [List.cons_append, intercalate_cons]
      rw [List.cons_append, intercalate_cons] at ih
      simp only [sfx, pfx, List.map_cons, List.flatten_cons, List.cons_append,
        List.append_assoc, List.map_append] at ih ⊢
      simp [sfx, pfx] at ih ⊢
      exact ih

theorem lastSeg_plain (t : List Nat) (h : t.any isSep = false) : lastSeg t = t := by
  cases t with
  | nil => rfl
  | cons b u =>
    simp only [List.any_cons, Bool.or_eq_false_iff] at h
    simp [lastSeg, h.1, h.2]

theorem splitState_other (s : State) (l : Nat) (o : Int) (L : Line) (a : Nat) (h1 : a ≠ l)
    (h2 : a ≠ s.brk) :
    ((splitState s l o L).heap a).map content = (s.heap a).map content ∧
      (((splitState s l o L).heap a).isSome ↔ (s.heap a).isSome) := by
  simp only [splitState, if_neg h1, if_neg h2]
  split_ifs
  · cases s.heap a <;> simp [content]
  · exact ⟨rfl, Iff.rfl⟩

theorem texts_singleton (h : Nat → Option Line) (l : Nat) (L : Line) (hL : h l = some L) :
    texts h [l] = [content L] := by
  simp [texts, hL]

/-- What the loop of `i_insert` does to a well-formed buffer, seen from the
cursor: the Lines before `l` and after `l` keep their content, `mid` holds
the Lines that now precede the cursor Line `l'`, the text before the cursor
grows by the inserted text and the text after it is unchanged. -/
theorem insertLoop_spec (self : State → Filepos → List Nat → State × Filepos)
    (hself : SelfOk self) (t : List Nat) (ht : ∀ b ∈ t, b ≠ 0) :
    ∀ (s : State) (pre post : List Nat) (l : Nat) (o : Int) (L : Line),
      WF s (pre ++ l :: post) → s.heap l = some L → 0 ≤ o → o ≤ L.len → CanSplit L t →
      ∃ (mid : List Nat) (l' : Nat) (o' : Int) (L' : Line),
        (insertLoop self s l o t).2 = ⟨some l', o'⟩ ∧
        WF (insertLoop self s l o t).1 (pre ++ mid ++ l' :: post) ∧
        (insertLoop self s l o t).1.heap l' = some L' ∧ 0 ≤ o' ∧ o' ≤ L'.len ∧
        mid.length = sepCount t ∧
        texts (insertLoop self s l o t).1.heap pre = texts s.heap pre ∧
        texts (insertLoop self s l o t).1.heap post = texts s.heap post ∧
        pfx (texts (insertLoop self s l o t).1.heap (pre ++ mid)) ++ (content L').take o'.toNat =
          pfx (texts s.heap pre) ++ (content L).take o.toNat ++ norm t ∧
        (content L').drop o'.toNat = (content L).drop o.toNat ∧
        insertLoop self s l o t = insertLoop (i_insertF 1) s l o t ∧
        o' = (if t.any isSep then 0 else o) + (lastSeg t).length ∧
        (t.any isSep = false → l' = l ∧ mid = []) := by
  induction t with
  | nil =>
    intro s pre post l o L hw hL h0 h1 _
    refine ⟨[], l, o, L, rfl, ?_, hL, h0, h1, rfl, rfl, rfl, by simp [norm, insertLoop], rfl, rfl,
      by simp [lastSeg], fun _ => ⟨rfl, rfl⟩⟩
    simpa [insertLoop] using (⟨hw.ne, hw.nodup, hw.chain, hw.last, hw.fresh, hw.ok⟩ :
      WF { s with modified := true } (pre ++ l :: post))
  | cons ch t ih =>
    intro s pre post l o L hw hL h0 h1 hcs
    have hch : ch ≠ 0 := ht ch (List.mem_cons_self _ _)
    have ht2 : ∀ b ∈ t, b ≠ 0 := fun b hb => ht b (List.mem_cons_of_mem _ hb)
    obtain ⟨L0, hL0, hok, -, -, -, hnx⟩ := hw.cursorLine
    obtain rfl : L0 = L := by rw [hL] at hL0; exact (Option.some.inj hL0).symm
    obtain ⟨n1, n2, -, -, -⟩ := nodup_split hw.nodup
    by_cases hsep : ch = 10 ∨ ch = 13
    · -- separator: split the Line and go on in the new one
      have hm : 1 ≤ L0.mul := by
        rcases hcs with h | h
        · exact h
        · have := h ch rfl
          rcases hsep with e | e
          · exact absurd e this.1
          · exact absurd e this.2
      have hbl : l ≠ s.brk := Nat.ne_of_lt (hw.fresh l (by simp))
      have hnxm : ∀ x, L0.next = some x → x ∈ post := fun x hx =>
        List.mem_of_mem_head? (hnx ▸ hx)
      have hn1 : L0.next ≠ some s.brk := fun e =>
        Nat.lt_irrefl _ (hw.fresh _ (by simp [hnxm _ e]))
      have hn2 : L0.next ≠ some l := fun e => n2 (hnxm _ e)
      have hpl : o < L0.len → Plain (cstr L0.c (L0.cap - o).toNat o) := fun ho =>
        (tail_plain L0 o hok h0 ho).2
      have step : ∀ f, SelfOk f → insertLoop f s l o (ch :: t) =
          insertLoop f (splitState s l o L0) s.brk 0 t := by
        intro f hf
        rw [insertLoop, if_neg hch]
        simp only [hL, if_pos hsep]
        rw [splitLine_eq f hf s l o L0 hL hbl hn1 hn2 hpl]
      have hw2 : WF (splitState s l o L0) ((pre ++ [l]) ++ s.brk :: post) := by
        simpa using splitState_wf s pre post l o L0 hw hL hm h0 h1
      obtain ⟨tc, tok, -, -, tm⟩ := tailLine_spec L0 o l hok hm h0 h1
      have hT : (splitState s l o L0).heap s.brk = some (tailLine L0 o l).1 := by
        simp [splitState, Ne.symm hbl]
      have hC : (splitState s l o L0).heap l = some (cutLine L0 o s.brk) := by
        simp [splitState]
      obtain ⟨mid, l', o', L', e1, e2, e3, e4, e5, e6, e7, e8, e9, e10, e11, e12, -⟩ :=
        ih ht2 (splitState s l o L0) (pre ++ [l]) post s.brk 0 (tailLine L0 o l).1 hw2 hT
          (le_refl _) tok.1 (Or.inl tm)
      have hsepb : isSep ch = true := by
        rcases hsep with h | h <;> simp [isSep, h]
      rw [step self hself]
      refine ⟨l :: mid, l', o', L', e1, by simpa using e2, e3, e4, e5, ?_, ?_, ?_, ?_, ?_, ?_, ?_,
        ?_⟩
      · simp [sepCount, List.filter_cons, hsepb, e6]
      · simp only [texts_append] at e7
        have := (List.append_inj e7 (by simp [texts])).1
        rw [this]
        exact texts_congr _ _ _ (fun a ha => splitState_other s l o L0 a
          (fun e => n1 (e ▸ ha)) (fun e => Nat.lt_irrefl _ (hw.fresh _ (by simp [← e, ha]))))
      · rw [e8]
        exact texts_congr _ _ _ (fun a ha => splitState_other s l o L0 a
          (fun e => n2 (e ▸ ha)) (fun e => Nat.lt_irrefl _ (hw.fresh _ (by simp [← e, ha]))))
      · have hpre : texts (splitState s l o L0).heap pre = texts s.heap pre :=
          texts_congr _ _ _ (fun a ha => splitState_other s l o L0 a
            (fun e => n1 (e ▸ ha)) (fun e => Nat.lt_irrefl _ (hw.fresh _ (by simp [← e, ha]))))
        have : pre ++ l :: mid = (pre ++ [l]) ++ mid := by simp
        rw [this, e9, texts_append, pfx_append, hpre, texts_singleton _ _ _ hC,
          cutLine_content L0 o s.brk h0 h1]
        simp [pfx, norm, hsepb]
      · rw [e10, tc]
        simp
      · rw [e11, step _ (i_insertF_selfOk 0)]
      · rw [e12]
        simp only [List.any_cons, hsepb, Bool.true_or, if_true, lastSeg]
        by_cases ha : t.any isSep = true
        · simp [ha]
        · simp only [ha]
          simp [lastSeg_plain t (by simpa using ha)]
      · intro h
        simp [hsepb] at h
    · -- ordinary byte
      have hnsep : isSep ch = false := by
        simp only [not_or] at hsep
        simp [isSep, hsep.1, hsep.2]
      have step : ∀ f, insertLoop f s l o (ch :: t) =
          insertLoop f { s with heap := hset s.heap l (some (putChar L0 o ch).1),
                                fault := s.fault || (putChar L0 o ch).2 } l (o + 1) t := by
        intro f
        rw [insertLoop, if_neg hch]
        simp only [hL, if_neg hsep]
      have hpk := putChar_ok L0 o ch hok h0 h1 ⟨hch, fun e => hsep (Or.inl e), fun e => hsep (Or.inr e)⟩
      have hw2 : WF { s with heap := hset s.heap l (some (putChar L0 o ch).1),
                             fault := s.fault || (putChar L0 o ch).2 } (pre ++ l :: post) :=
        hw.hset l L0 (putChar L0 o ch).1 hL (by simp) (by simp) hpk.1 _ rfl rfl rfl (le_refl _)
      obtain ⟨mid, l', o', L', e1, e2, e3, e4, e5, e6, e7, e8, e9, e10, e11, e12, e13⟩ :=
        ih ht2 _ pre post l (o + 1) (putChar L0 o ch).1 hw2 (by simp) (by omega) (by simp; omega)
          (Or.inl hpk.2)
      have hoth : ∀ (xs : List Nat), l ∉ xs →
          texts (hset s.heap l (some (putChar L0 o ch).1)) xs = texts s.heap xs := by
        intro xs hx
        refine texts_congr _ _ _ (fun a ha => ?_)
        have : a ≠ l := fun e => hx (e ▸ ha)
        simp [this]
      have hlen : o.toNat ≤ (content L0).length := by simp; omega
      have e14 : (o + 1).toNat = o.toNat + 1 := by omega
      have htk : ((content L0).take o.toNat).length = o.toNat := by simp; omega
      rw [step self]
      refine ⟨mid, l', o', L', e1, e2, e3, e4, e5, ?_, ?_, ?_, ?_, ?_, ?_, ?_, ?_⟩
      · simp [sepCount, List.filter_cons, hnsep, e6]
      · rw [e7]; exact hoth pre n1
      · rw [e8]; exact hoth post n2
      · rw [e9]
        simp only [hoth pre n1]
        rw [putChar_content L0 o ch h0 h1, e14, List.take_append_eq_append_take, htk]
        simp [norm, hnsep, List.take_of_length_le]
      · rw [e10, putChar_content L0 o ch h0 h1, e14, List.drop_append_eq_append_drop, htk]
        simp [List.drop_of_length_le]
      · rw [e11, step]
      · rw [e12]
        simp only [List.any_cons, hnsep, Bool.false_or, lastSeg]
        by_cases ha : t.any isSep = true
        · simp [ha]
        · simp only [ha]
          simp [lastSeg_plain t (by simpa using ha)]
          ring
      · intro h
        simp only [List.any_cons, hnsep, Bool.false_or] at h
        exact e13 h

/-! ## Insertion: the flattened content -/

theorem flat_split (h : Nat → Option Line) (pre post : List Nat) (l : Nat) (L : Line)
    (hL : h l = some L) :
    flat h (pre ++ l :: post) = pfx (texts h pre) ++ content L ++ sfx (texts h post) := by
  unfold flat
  have : texts h (pre ++ l :: post) = texts h pre ++ content L :: texts h post := by
    simp [texts, hL]
  rw [this, intercalate_split]

theorem pfx_cons_length (x : List Nat) (xs : List (List Nat)) :
    (pfx (x :: xs)).length = x.length + 1 + (pfx xs).length := by
  simp [pfx]
  omega

theorem texts_cons (h : Nat → Option Line) (a : Nat) (t : List Nat) :
    texts h (a :: t) = (match h a with
      | some L => content L
      | none => []) :: texts h t := rfl

theorem flatIndex_split (h : Nat → Option Line) (pre post : List Nat) (l : Nat) (o : Int)
    (hl : l ∉ pre) :
    flatIndex h (pre ++ l :: post) l o = (pfx (texts h pre)).length + o.toNat := by
  induction pre with
  | nil => simp [flatIndex, pfx, texts]
  | cons a t ih =>
    have h1 : a ≠ l := fun e => hl (by simp [e])
    have h2 : l ∉ t := fun e => hl (by simp [e])
    rw [List.cons_append, flatIndex, if_neg h1, ih h2, texts_cons, pfx_cons_length]
    cases e : h a <;> simp <;> ring

/-- The self-call depth of `i_insert` on a well-formed buffer: every bound of
at least 2 gives the result of `i_insert`. -/
theorem i_insertF_depth (s : State) (ls : List Nat) (l : Nat) (o : Int) (L : Line)
    (T : List Nat) (hw : WF s ls) (hl : l ∈ ls) (hL : s.heap l = some L) (h0 : 0 ≤ o)
    (h1 : o ≤ L.len) (hT : ∀ b ∈ T, b ≠ 0) (hcs : CanSplit L T) (d : Nat) (hd : 2 ≤ d) :
    i_insertF d s ⟨some l, o⟩ T = i_insert s ⟨some l, o⟩ T := by
  obtain ⟨pre, post, rfl⟩ := List.append_of_mem hl
  obtain ⟨e, rfl⟩ : ∃ e, d = e + 2 := ⟨d - 2, by omega⟩
  obtain ⟨_, _, _, _, _, _, _, _, _, _, _, _, _, _, h, _⟩ :=
    insertLoop_spec (i_insertF (e + 1)) (i_insertF_selfOk e) T hT s pre post l o L hw hL h0 h1
      hcs
  simpa [i_insert, i_insertF] using h

theorem take_drop_mid (A C S : List Nat) (n : Nat) (hn : n ≤ C.length) :
    (A ++ C ++ S).take (A.length + n) = A ++ C.take n ∧
      (A ++ C ++ S).drop (A.length + n) = C.drop n ++ S := by
  rw [List.append_assoc, List.take_append, List.drop_append,
    List.take_append_of_le_length hn, List.drop_append_of_le_length hn]
  exact ⟨rfl, rfl⟩

/-- A chain that ends in a null `next` is determined by its first pointer. -/
theorem Dll_unique (h : Nat → Option Line) (ls ls' : List Nat) (p p' f : Option Nat)
    (h1 : Dll h p f ls none) (h2 : Dll h p' f ls' none) : ls = ls' := by
  induction ls generalizing ls' p p' f with
  | nil =>
    cases ls' with
    | nil => rfl
    | cons b u =>
      have e1 : f = none := h1
      rw [Dll_cons_iff] at h2
      rw [e1] at h2
      exact absurd h2.1 (by simp)
  | cons a t ih =>
    rw [Dll_cons_iff] at h1
    obtain ⟨e1, L, hL, _, hr⟩ := h1
    cases ls' with
    | nil =>
      have e2 : f = none := h2
      rw [e2] at e1
      exact absurd e1 (by simp)
    | cons b u =>
      rw [Dll_cons_iff] at h2
      obtain ⟨e2, M, hM, _, hr2⟩ := h2
      obtain rfl : a = b := Option.some.inj (e1.symm.trans e2)
      obtain rfl : L = M := Option.some.inj (hL.symm.trans hM)
      rw [ih u _ _ _ hr hr2]

/-- The chain of a well-formed buffer is unique. -/
theorem WF.unique {s : State} {ls ls' : List Nat} (h1 : WF s ls) (h2 : WF s ls') : ls = ls' :=
  Dll_unique _ _ _ _ _ _ h1.chain h2.chain

/-- The buffer the editor starts from: `i_loadfile` with nothing to read. -/
theorem wf_empty : WF (i_loadfile init []) [0] := by
  refine ⟨by simp, by simp, ?_, rfl, by simp [i_loadfile, init], ?_⟩
  · simp [Dll, i_loadfile, init]
  · intro a ha L hL
    simp only [List.mem_singleton] at ha
    subst ha
    simp only [i_loadfile, init, List.foldl_nil, hset_same, Option.mem_def,
      Option.some.injEq] at hL
    subst hL
    simp [LineOk, content, poke]

/-- Insertion where no Line without a recorded block is split.  On a
well-formed buffer, `i_insert` of a NUL-free text at a valid Position whose
Line has `mul >= 1`, or of a NUL-free text that does not begin with a
separator, leaves a well-formed buffer whose flattened content is the old
flattened content with the text (separators written as one `\n`) inserted at
the index of the Position; the returned Position is valid, lies right after
the inserted text, and its offset is the length of the text after its last
separator (added to the old offset on the same Line when there is none).
Every bound of at least 2 on the depth of the self-calls gives this result. -/
theorem i_insert_flat (s : State) (ls : List Nat) (l : Nat) (o : Int) (L : Line)
    (T : List Nat) (hw : WF s ls) (hl : l ∈ ls) (hL : s.heap l = some L) (h0 : 0 ≤ o)
    (h1 : o ≤ L.len) (hT : ∀ b ∈ T, b ≠ 0) (hcs : CanSplit L T) :
    ∃ (ls' : List Nat) (l' : Nat) (o' : Int) (L' : Line),
      (i_insert s ⟨some l, o⟩ T).2 = ⟨some l', o'⟩ ∧
      WF (i_insert s ⟨some l, o⟩ T).1 ls' ∧
      l' ∈ ls' ∧ (i_insert s ⟨some l, o⟩ T).1.heap l' = some L' ∧ 0 ≤ o' ∧ o' ≤ L'.len ∧
      flat (i_insert s ⟨some l, o⟩ T).1.heap ls' =
        (flat s.heap ls).take (flatIndex s.heap ls l o) ++ norm T ++
          (flat s.heap ls).drop (flatIndex s.heap ls l o) ∧
      flatIndex (i_insert s ⟨some l, o⟩ T).1.heap ls' l' o' =
        flatIndex s.heap ls l o + T.length ∧
      o' = (if T.any isSep then 0 else o) + (lastSeg T).length ∧
      (T.any isSep = false → l' = l) ∧
      ∀ d, 2 ≤ d → i_insertF d s ⟨some l, o⟩ T = i_insert s ⟨some l, o⟩ T := by
  have hdepth := i_insertF_depth s ls l o L T hw hl hL h0 h1 hT hcs
  obtain ⟨pre, post, rfl⟩ := List.append_of_mem hl
  obtain ⟨n1, -, -, -, -⟩ := nodup_split hw.nodup
  have hi : i_insert s ⟨some l, o⟩ T = insertLoop (i_insertF 1) s l o T := rfl
  obtain ⟨mid, l', o', L', e1, e2, e3, e4, e5, -, e7, e8, e9, e10, -, e12, e13⟩ :=
    insertLoop_spec (i_insertF 1) (i_insertF_selfOk 0) T hT s pre post l o L hw hL h0 h1 hcs
  rw [hi]
  have hn' : l' ∉ pre ++ mid := (nodup_split e2.nodup).1
  have hk : o.toNat ≤ (content L).length := by simp; omega
  have hk' : o'.toNat ≤ (content L').length := by simp; omega
  obtain ⟨t1, t2⟩ := take_drop_mid (pfx (texts s.heap pre)) (content L)
    (sfx (texts s.heap post)) o.toNat hk
  refine ⟨pre ++ mid ++ l' :: post, l', o', L', e1, e2, by simp, e3, e4, e5, ?_, ?_, e12,
    fun h => (e13 h).1, hdepth⟩
  · rw [flat_split _ _ _ _ _ e3, flat_split _ _ _ _ _ hL, flatIndex_split _ _ _ _ _ n1, t1, t2,
      e8, ← List.take_append_drop o'.toNat (content L'), ← List.append_assoc, e9, e10]
    simp
  · rw [flatIndex_split _ _ _ _ _ hn', flatIndex_split _ _ _ _ _ n1]
    have := congrArg List.length e9
    simp only [List.length_append, List.length_take, content_length, norm, List.length_map]
      at this
    simp only [content_length] at hk hk'
    omega

/-- The text "ab\ncd" inserted into the buffer the editor starts from: the
first byte is an ordinary one. -/
theorem i_insert_flat_witness :
    ∃ (ls' : List Nat) (l' : Nat) (o' : Int) (L' : Line),
      (i_insert (i_loadfile init []) ⟨some 0, 0⟩ [97, 98, 10, 99, 100]).2 = ⟨some l', o'⟩ ∧
      WF (i_insert (i_loadfile init []) ⟨some 0, 0⟩ [97, 98, 10, 99, 100]).1 ls' ∧
      l' ∈ ls' ∧
      (i_insert (i_loadfile init []) ⟨some 0, 0⟩ [97, 98, 10, 99, 100]).1.heap l' = some L' ∧
      0 ≤ o' ∧ o' ≤ L'.len ∧
      flat (i_insert (i_loadfile init []) ⟨some 0, 0⟩ [97, 98, 10, 99, 100]).1.heap ls' =
        (flat (i_loadfile init []).heap [0]).take (flatIndex (i_loadfile init []).heap [0] 0 0) ++
          norm [97, 98, 10, 99, 100] ++
          (flat (i_loadfile init []).heap [0]).drop (flatIndex (i_loadfile init []).heap [0] 0 0) ∧
      flatIndex (i_insert (i_loadfile init []) ⟨some 0, 0⟩ [97, 98, 10, 99, 100]).1.heap ls' l' o' =
        flatIndex (i_loadfile init []).heap [0] 0 0 + [97, 98, 10, 99, 100].length ∧
      o' = (if [97, 98, 10, 99, 100].any isSep then 0 else 0) +
        (lastSeg [97, 98, 10, 99, 100]).length ∧
      ([97, 98, 10, 99, 100].any isSep = false → l' = 0) ∧
      ∀ d, 2 ≤ d → i_insertF d (i_loadfile init []) ⟨some 0, 0⟩ [97, 98, 10, 99, 100] =
        i_insert (i_loadfile init []) ⟨some 0, 0⟩ [97, 98, 10, 99, 100] :=
  i_insert_flat (i_loadfile init []) [0] 0 0
    { c := poke (fun _ => 0) 0 0, len := 0, mul := 0, cap := LINESIZE,
      dirty := false, next := none, prev := none }
    [97, 98, 10, 99, 100] wf_empty (by simp) rfl (le_refl _) (le_refl _) (by decide)
    (Or.inr (by decide))

/-- The Line count where no Line without a recorded block is split.  On a
well-formed buffer, `i_insert` of a NUL-free text at a valid Position whose
Line has `mul >= 1`, or of a NUL-free text that does not begin with a
separator, leaves a well-formed buffer whose chain has exactly `k` more Lines,
`k` the number of separator bytes (`\n` or `\r`) of the text. -/
theorem i_insert_line_count (s : State) (ls : List Nat) (l : Nat) (o : Int) (L : Line)
    (T : List Nat) (hw : WF s ls) (hl : l ∈ ls) (hL : s.heap l = some L) (h0 : 0 ≤ o)
    (h1 : o ≤ L.len) (hT : ∀ b ∈ T, b ≠ 0) (hcs : CanSplit L T) :
    ∃ ls' : List Nat, WF (i_insert s ⟨some l, o⟩ T).1 ls' ∧
      ls'.length = ls.length + sepCount T := by
  obtain ⟨pre, post, rfl⟩ := List.append_of_mem hl
  obtain ⟨mid, l', o', L', -, e2, -, -, -, e6, -⟩ :=
    insertLoop_spec (i_insertF 1) (i_insertF_selfOk 0) T hT s pre post l o L hw hL h0 h1 hcs
  refine ⟨pre ++ mid ++ l' :: post, e2, ?_⟩
  simp only [List.length_append, List.length_cons, e6]
  omega

/-- The text "a\nb\rc" inserted into the buffer the editor starts from adds
two Lines. -/
theorem i_insert_line_count_witness :
    ∃ ls' : List Nat,
      WF (i_insert (i_loadfile init []) ⟨some 0, 0⟩ [97, 10, 98, 13, 99]).1 ls' ∧
      ls'.length = [0].length + sepCount [97, 10, 98, 13, 99] :=
  i_insert_line_count (i_loadfile init []) [0] 0 0
    { c := poke (fun _ => 0) 0 0, len := 0, mul := 0, cap := LINESIZE,
      dirty := false, next := none, prev := none }
    [97, 10, 98, 13, 99] wf_empty (by simp) rfl (le_refl _) (le_refl _) (by decide)
    (Or.inr (by decide))

/-! ## Backspace inside a Line and the round trip -/

theorem i_backspace_inside (s : State) (l : Nat) (o : Int) (L : Line)
    (hL : s.heap l = some L) (h0 : 0 < o) :
    i_backspace s ⟨some l, o⟩ =
      ({ s with heap := hset s.heap l (some (delChar L o)), height := 0, modified := true,
                fault := s.fault || outside L.cap (o - 1) (L.len - o + 1) },
       ⟨some l, o - 1⟩) := by
  simp only [i_backspace, hL]
  rw [if_neg (by omega)]
  rfl

theorem delChar_content (L : Line) (o : Int) (h0 : 0 < o) (h1 : o ≤ L.len) :
    content (delChar L o) = (content L).take (o - 1).toNat ++ (content L).drop o.toNat := by
  have e : o.toNat = (o - 1).toNat + 1 := by omega
  rw [e, ← List.eraseIdx_eq_take_drop_succ]
  apply content_eq_of
  · rw [List.length_eraseIdx]
    simp only [delChar, content_length]
    rw [if_pos (by omega)]
    omega
  · intro i hi
    rw [List.length_eraseIdx, if_pos (by simp; omega)] at hi
    simp only [content_length] at hi
    rw [List.getElem?_eraseIdx]
    simp only [delChar, memmove, memcpy]
    by_cases h : i < (o - 1).toNat
    · rw [if_pos h, content_getElem? _ _ (by omega), if_neg (by omega)]
    · rw [if_neg h, content_getElem? _ _ (by omega), if_pos (by omega)]
      congr 2
      omega

theorem backspaces_inside (n : Nat) : ∀ (s : State) (l : Nat) (o : Int) (L : Line),
    s.heap l = some L → (n : Int) ≤ o → o ≤ L.len →
    ∃ M : Line, (backspaces n (s, ⟨some l, o⟩)).2 = ⟨some l, o - n⟩ ∧
      (backspaces n (s, ⟨some l, o⟩)).1.heap = hset s.heap l (some M) ∧
      M.len = L.len - n ∧
      content M = (content L).take (o - n).toNat ++ (content L).drop o.toNat ∧
      M.next = L.next ∧ M.prev = L.prev ∧
      (backspaces n (s, ⟨some l, o⟩)).1.fstart = s.fstart ∧
      (backspaces n (s, ⟨some l, o⟩)).1.fend = s.fend := by
  induction n with
  | zero =>
    intro s l o L hL h0 h1
    refine ⟨L, by simp [backspaces], by simp [backspaces, hset_self _ _ _ hL], by simp, ?_,
      rfl, rfl, rfl, rfl⟩
    simp
  | succ n ih =>
    intro s l o L hL h0 h1
    have hpos : 0 < o := by omega
    simp only [backspaces]
    rw [i_backspace_inside s l o L hL hpos]
    obtain ⟨M, e1, e2, e3, e4, e5, e6, e7, e8⟩ := ih
      { s with heap := hset s.heap l (some (delChar L o)), height := 0, modified := true,
               fault := s.fault || outside L.cap (o - 1) (L.len - o + 1) }
      l (o - 1) (delChar L o) (by simp) (by omega) (by simp [delChar]; omega)
    refine ⟨M, ?_, ?_, ?_, ?_, e5, e6, e7, e8⟩
    · rw [e1]; congr 1; push_cast; ring
    · rw [e2]; exact hset_hset _ _ _ _
    · rw [e3]; simp [delChar]; ring
    · rw [e4, delChar_content L o hpos h1]
      have a1 : ((content L).take (o - 1).toNat).length = (o - 1).toNat := by
        simp; omega
      have a2 : (o - 1 - (n : Int)).toNat ≤ (o - 1).toNat := by omega
      rw [List.take_append_of_le_length (by rw [a1]; exact a2),
        List.drop_append_of_le_length (by rw [a1]), List.take_take,
        List.drop_eq_nil_of_le (le_of_eq a1), Nat.min_eq_left a2]
      simp only [List.nil_append]
      congr 2
      push_cast
      congr 1
      ring

/-- C3: round trip.  Inserting a plain text (no NUL, no separator) at a valid
Position and then applying `i_backspace` once per inserted byte, starting at
the returned Position, ends at the original Position and leaves every Line
with the content, the length and the links it had before; `fstart` and `fend`
are unchanged. -/
theorem insert_backspace_roundtrip (s : State) (l : Nat) (o : Int) (L : Line) (T : List Nat)
    (hL : s.heap l = some L) (h0 : 0 ≤ o) (h1 : o ≤ L.len) (hT : Plain T) :
    (backspaces T.length (i_insert s ⟨some l, o⟩ T)).2 = ⟨some l, o⟩ ∧
    (∀ a, ((backspaces T.length (i_insert s ⟨some l, o⟩ T)).1.heap a).map content =
          (s.heap a).map content ∧
        ((backspaces T.length (i_insert s ⟨some l, o⟩ T)).1.heap a).map Line.len =
          (s.heap a).map Line.len ∧
        ((backspaces T.length (i_insert s ⟨some l, o⟩ T)).1.heap a).map Line.next =
          (s.heap a).map Line.next ∧
        ((backspaces T.length (i_insert s ⟨some l, o⟩ T)).1.heap a).map Line.prev =
          (s.heap a).map Line.prev) ∧
    (backspaces T.length (i_insert s ⟨some l, o⟩ T)).1.fstart = s.fstart ∧
    (backspaces T.length (i_insert s ⟨some l, o⟩ T)).1.fend = s.fend := by
  have hi : i_insert s ⟨some l, o⟩ T = insertLoop (i_insertF 1) s l o T := rfl
  rw [hi, insertLoop_plain _ T hT s l o L hL]
  obtain ⟨p1, p2, p3, p4⟩ := putChars_spec T L o h0 h1
  obtain ⟨M, e1, e2, e3, e4, e5, e6, e7, e8⟩ := backspaces_inside T.length
    { s with heap := hset s.heap l (some (putChars L o T).1), modified := true,
             fault := s.fault || (putChars L o T).2 }
    l (o + T.length) (putChars L o T).1 (by simp) (by omega) (by rw [p1]; omega)
  have hlen : o.toNat ≤ (content L).length := by simp; omega
  have htk : ((content L).take o.toNat).length = o.toNat := by simp; omega
  have hc : content M = content L := by
    rw [e4, p4]
    have a1 : (o + (T.length : Int) - (T.length : Int)).toNat = o.toNat := by
      congr 1; ring
    have a2 : (o + (T.length : Int)).toNat = o.toNat + T.length := by omega
    rw [a1, a2, List.append_assoc, List.take_append_of_le_length (by rw [htk]),
      List.take_take, Nat.min_self, ← List.append_assoc,
      List.drop_append_eq_append_drop,
      List.drop_eq_nil_of_le (by rw [List.length_append, htk]), List.length_append, htk,
      Nat.sub_self, List.drop_zero, List.nil_append, List.take_append_drop]
  refine ⟨by rw [e1]; congr 1; ring, fun a => ?_, e7, e8⟩
  rw [e2]
  by_cases ha : a = l
  · subst ha
    simp only [hset_same, hL, Option.map_some', hc, e3, p1, e5, e6, p2, p3]
    simp
  · simp [ha]

/-- C3 at a concrete input: "xy" inserted into and removed from the buffer the
editor starts from. -/
theorem insert_backspace_roundtrip_witness :
    (backspaces [120, 121].length (i_insert (i_loadfile init []) ⟨some 0, 0⟩ [120, 121])).2 =
      ⟨some 0, 0⟩ ∧
    (∀ a, ((backspaces [120, 121].length
            (i_insert (i_loadfile init []) ⟨some 0, 0⟩ [120, 121])).1.heap a).map content =
          ((i_loadfile init []).heap a).map content ∧
        ((backspaces [120, 121].length
            (i_insert (i_loadfile init []) ⟨some 0, 0⟩ [120, 121])).1.heap a).map Line.len =
          ((i_loadfile init []).heap a).map Line.len ∧
        ((backspaces [120, 121].length
            (i_insert (i_loadfile init []) ⟨some 0, 0⟩ [120, 121])).1.heap a).map Line.next =
          ((i_loadfile init []).heap a).map Line.next ∧
        ((backspaces [120, 121].length
            (i_insert (i_loadfile init []) ⟨some 0, 0⟩ [120, 121])).1.heap a).map Line.prev =
          ((i_loadfile init []).heap a).map Line.prev) ∧
    (backspaces [120, 121].length
      (i_insert (i_loadfile init []) ⟨some 0, 0⟩ [120, 121])).1.fstart =
        (i_loadfile init []).fstart ∧
    (backspaces [120, 121].length
      (i_insert (i_loadfile init []) ⟨some 0, 0⟩ [120, 121])).1.fend =
        (i_loadfile init []).fend :=
  insert_backspace_roundtrip (i_loadfile init []) 0 0
    { c := poke (fun _ => 0) 0 0, len := 0, mul := 0, cap := LINESIZE,
      dirty := false, next := none, prev := none }
    [120, 121] rfl (le_refl _) (le_refl _) (by decide)

/-! ## Backspace at the start of a Line: the merge -/

theorem i_backspace_merge_eq (s : State) (a p : Nat) (o : Int) (A P : Line)
    (hA : s.heap a = some A) (hP : s.heap p = some P) (hprev : A.prev = some p)
    (ho : o ≤ 0) (hap : a ≠ p) (hn1 : A.next ≠ some p) (hn2 : A.next ≠ some a) :
    i_backspace s ⟨some a, o⟩ =
      ({ s with
          heap := fun x =>
            if x = a then none
            else if x = p then some (mergeLine P A)
            else if A.next = some x then (s.heap x).map (fun X => { X with prev := some p })
            else s.heap x,
          height := 0, modified := true,
          fault := s.fault ||
            outside (((A.len + P.len).tdiv LINESIZE + 1) * LINESIZE) P.len (A.len + 1) },
       ⟨some p, P.len⟩) := by
  simp only [i_backspace, hA, if_pos ho, hprev, hP]
  congr 2
  funext x
  cases hnx : A.next with
  | none =>
    by_cases hx : x = a
    · subst hx; simp
    · by_cases hxp : x = p
      · subst hxp; simp [hx, mergeLine, hnx]
      · simp [hx, hxp]
  | some n =>
    have hnp : n ≠ p := fun e => hn1 (by rw [hnx, e])
    have hna : n ≠ a := fun e => hn2 (by rw [hnx, e])
    by_cases hx : x = a
    · subst hx; simp
    · by_cases hxp : x = p
      · subst hxp
        simp [hx, mergeLine, hnx, Ne.symm hnp]
      · by_cases hxn : x = n
        · subst hxn; simp [hx, hxp]
        · have : ¬ n = x := fun e => hxn e.symm
          simp [hx, hxp, hxn, this]

theorem mergeLine_content (P A : Line) (hP : 0 ≤ P.len) (hA : 0 ≤ A.len) :
    content (mergeLine P A) = content P ++ content A := by
  apply content_eq_of
  · simp [mergeLine]; omega
  · intro i hi
    simp only [List.length_append, content_length] at hi
    simp only [mergeLine, memcpy]
    by_cases h : i < P.len.toNat
    · rw [List.getElem?_append_left (by simpa using h), content_getElem? _ _ h,
        if_neg (by omega)]
    · rw [List.getElem?_append_right (by simp; omega),
        content_getElem? _ _ (by simp; omega), if_pos (by omega)]
      congr 2
      simp only [content_length]
      omega

theorem mergeLine_ok (P A : Line) (hP : LineOk P) (hA : LineOk A) : LineOk (mergeLine P A) := by
  have h1 := hP.1
  have h2 := hA.1
  refine ⟨by simp [mergeLine]; omega, ?_, ?_, Or.inl ⟨?_, ?_, ?_⟩⟩
  · simp only [mergeLine, memcpy]
    rw [if_pos (by omega), ← hA.2.1]
    congr 1; omega
  · rw [mergeLine_content P A h1 h2]
    intro b hb
    rcases List.mem_append.mp hb with h | h
    · exact hP.2.2.1 b h
    · exact hA.2.2.1 b h
  · show 1 ≤ (A.len + P.len).tdiv LINESIZE + 1
    rw [Int.tdiv_eq_ediv (by omega) (by simp [LINESIZE])]
    simp only [LINESIZE]; omega
  · show _ = LINESIZE * _
    simp only [mergeLine]; ring
  · show A.len + P.len < ((A.len + P.len).tdiv LINESIZE + 1) * LINESIZE
    rw [Int.tdiv_eq_ediv (by omega) (by simp [LINESIZE])]
    simp only [LINESIZE]; omega

theorem lastOr_eq_some (xs : List Nat) (q : Option Nat) (p : Nat) (h : lastOr q xs = some p) :
    (xs = [] ∧ q = some p) ∨ ∃ pre, xs = pre ++ [p] := by
  induction xs generalizing q with
  | nil => exact Or.inl ⟨rfl, h⟩
  | cons a t ih =>
    rcases ih (some a) h with ⟨rfl, e⟩ | ⟨pre, rfl⟩
    · exact Or.inr ⟨[], by simp [Option.some.inj e]⟩
    · exact Or.inr ⟨a :: pre, rfl⟩

/-- C4: the merge path of `i_backspace`.  In a well-formed buffer with chain
`ls`, at the Position `(a, 0)` of a Line `A` whose previous Line is `P` at
`p`: the chain is `pre ++ p :: a :: post`; the returned Position is
`(p, old length of P)`; the Line at `p` now holds the old content of `P`
followed by the content of `A`, its `next` is the old successor of `A` and
that successor's `prev` is `p`; `a` is released; the chain from `fstart` is
`pre ++ p :: post`, one Line shorter, and every other Line keeps its content.
When `a` was not the last Line the buffer is well-formed again. -/
theorem i_backspace_merge (s : State) (ls : List Nat) (a p : Nat) (A P : Line)
    (hw : WF s ls) (ha : a ∈ ls) (hA : s.heap a = some A) (hprev : A.prev = some p)
    (hP : s.heap p = some P) :
    ∃ pre post, ls = pre ++ p :: a :: post ∧
      (i_backspace s ⟨some a, 0⟩).2 = ⟨some p, P.len⟩ ∧
      (∃ P', (i_backspace s ⟨some a, 0⟩).1.heap p = some P' ∧
        content P' = content P ++ content A ∧ P'.len = P.len + A.len ∧
        P'.next = A.next ∧ P'.prev = P.prev ∧ LineOk P') ∧
      (i_backspace s ⟨some a, 0⟩).1.heap a = none ∧
      (∀ n, A.next = some n →
        ∃ N, (i_backspace s ⟨some a, 0⟩).1.heap n = some N ∧ N.prev = some p) ∧
      Dll (i_backspace s ⟨some a, 0⟩).1.heap none (i_backspace s ⟨some a, 0⟩).1.fstart
        (pre ++ p :: post) none ∧
      (pre ++ p :: post).Nodup ∧
      (pre ++ p :: post).length + 1 = ls.length ∧
      (∀ x, x ≠ p → x ≠ a →
        ((i_backspace s ⟨some a, 0⟩).1.heap x).map content = (s.heap x).map content) ∧
      (post ≠ [] → WF (i_backspace s ⟨some a, 0⟩).1 (pre ++ p :: post)) := by
  obtain ⟨pre', post, rfl⟩ := List.append_of_mem ha
  obtain ⟨A0, hA0, hokA, -, hpA, hpostA, hnxA⟩ := hw.cursorLine
  obtain rfl : A0 = A := Option.some.inj (hA0.symm.trans hA)
  rw [hprev] at hpA
  rcases lastOr_eq_some pre' none p hpA.symm with ⟨-, e⟩ | ⟨pre, rfl⟩
  · exact absurd e (by simp)
  have hls : pre ++ [p] ++ a :: post = pre ++ p :: (a :: post) := by simp
  rw [hls] at hw ⊢
  obtain ⟨P0, hP0, hokP, hpre, hpP, -, -⟩ := hw.cursorLine
  obtain rfl : P0 = P := Option.some.inj (hP0.symm.trans hP)
  obtain ⟨m1, m2, m3, m4, m5⟩ := nodup_split hw.nodup
  have hap : a ≠ p := fun e => m2 (by simp [e])
  have hapost : a ∉ post := (List.nodup_cons.mp m4).1
  have hppost : p ∉ post := fun h => m2 (List.mem_cons_of_mem _ h)
  have hnxm : ∀ x, A0.next = some x → x ∈ post := fun x hx =>
    List.mem_of_mem_head? (hnxA ▸ hx)
  have hn1 : A0.next ≠ some p := fun e => hppost (hnxm _ e)
  have hn2 : A0.next ≠ some a := fun e => hapost (hnxm _ e)
  rw [i_backspace_merge_eq s a p 0 A0 P0 hA hP hprev (le_refl _) hap hn1 hn2]
  have hheap : ∀ x, x ≠ a → x ≠ p → (∀ y, A0.next = some y → y ≠ x) →
      (if x = a then none
        else if x = p then some (mergeLine P0 A0)
        else if A0.next = some x then (s.heap x).map (fun X => { X with prev := some p })
        else s.heap x) = s.heap x := by
    intro x h1 h2 h3
    rw [if_neg h1, if_neg h2, if_neg (fun e => h3 x e rfl)]
  have hchain : Dll (fun x =>
      if x = a then none
        else if x = p then some (mergeLine P0 A0)
        else if A0.next = some x then (s.heap x).map (fun X => { X with prev := some p })
        else s.heap x) none s.fstart (pre ++ p :: post) none := by
    rw [Dll_append]
    refine ⟨some p, Dll_congr _ _ _ _ _ _ (fun x hx X hX => ⟨X, ?_, rfl, rfl⟩) hpre, ?_⟩
    · show (if x = a then _ else _) = _
      rw [hheap x (fun e => m5 x hx (by simp [e])) (fun e => m1 (e ▸ hx))
        (fun y hy e => m5 x hx (List.mem_cons_of_mem _ (e ▸ hnxm y hy)))]
      exact hX
    rw [Dll_cons_iff]
    refine ⟨rfl, mergeLine P0 A0, by simp [Ne.symm hap], hpP, ?_⟩
    show Dll _ (some p) A0.next post none
    cases post with
    | nil => exact hpostA
    | cons n t =>
      rw [Dll_cons_iff] at hpostA ⊢
      obtain ⟨e1, X, hX, -, hXr⟩ := hpostA
      have hna : n ≠ a := fun e => hapost (by simp [e])
      have hnp : n ≠ p := fun e => hppost (by simp [e])
      have hnt : n ∉ t := (List.nodup_cons.mp (List.nodup_cons.mp m4).2).1
      refine ⟨e1, { X with prev := some p }, by simp [hna, hnp, e1, hX], rfl, ?_⟩
      refine Dll_congr _ _ _ _ _ _ (fun x hx Y hY => ⟨Y, ?_, rfl, rfl⟩) hXr
      show (if x = a then _ else _) = _
      rw [hheap x (fun e => hapost (by simp [← e, hx])) (fun e => hppost (by simp [← e, hx]))
        (fun y hy e => hnt (by
          have : y = n := by rw [e1] at hy; exact (Option.some.inj hy).symm
          rw [← this, e]; exact hx))]
      exact hY
  have hnd : (pre ++ p :: post).Nodup := by
    rw [List.nodup_append, List.nodup_cons]
    refine ⟨m3, ⟨hppost, (List.nodup_cons.mp m4).2⟩, fun x hx hx2 => ?_⟩
    rcases List.mem_cons.mp hx2 with rfl | hx2
    · exact m1 hx
    · exact m5 x hx (List.mem_cons_of_mem _ hx2)
  refine ⟨pre, post, rfl, rfl, ⟨mergeLine P0 A0, by simp [Ne.symm hap],
      by rw [mergeLine_content P0 A0 hokP.1 hokA.1], by simp [mergeLine]; ring, rfl, rfl,
      mergeLine_ok P0 A0 hokP hokA⟩, by simp, ?_, hchain, hnd, by simp; omega, ?_, ?_⟩
  · intro n hn
    have hnpost := hnxm n hn
    have hna : n ≠ a := fun e => hapost (e ▸ hnpost)
    have hnp : n ≠ p := fun e => hppost (e ▸ hnpost)
    obtain ⟨X, hX⟩ := Dll_live _ _ _ _ _ hpostA n hnpost
    exact ⟨{ X with prev := some p }, by simp [hna, hnp, hn, hX], rfl⟩
  · intro x hxp hxa
    simp only [if_neg hxa, if_neg hxp]
    split_ifs
    · cases s.heap x <;> simp [content]
    · rfl
  · intro hpost
    refine ⟨by simp, hnd, hchain, ?_, fun x hx => hw.fresh x ?_, ?_⟩
    · show s.fend = _
      rw [hw.last]
      obtain ⟨n, t, rfl⟩ := List.exists_cons_of_ne_nil hpost
      simp [List.getLast?_append_cons, List.getLast?_cons_cons]
    · simp only [List.mem_append, List.mem_cons] at hx ⊢
      tauto
    · intro x hx X hX
      have hxa : x ≠ a := by
        intro e
        subst e
        simp only [List.mem_append, List.mem_cons] at hx
        rcases hx with h | h | h
        · exact m5 x h (by simp)
        · exact hap h
        · exact hapost h
      have hxm : x ∈ pre ++ p :: a :: post := by
        simp only [List.mem_append, List.mem_cons] at hx ⊢
        tauto
      simp only [if_neg hxa, Option.mem_def] at hX
      by_cases hxp : x = p
      · subst hxp
        simp only [if_pos] at hX
        exact (Option.some.inj hX) ▸ mergeLine_ok P0 A0 hokP hokA
      · simp only [if_neg hxp] at hX
        split_ifs at hX
        · obtain ⟨Y, hY, rfl⟩ := Option.map_eq_some'.mp hX
          exact hw.ok x hxm Y hY
        · exact hw.ok x hxm X hX

/-! ## Deciding well-formedness of a concrete buffer -/

theorem wf_abcd : WF abcd.1 [0, 1] := by decide

/-- C4 at a concrete input: the Position `(second Line, 0)` of the buffer
"ab", "cd". -/
theorem i_backspace_merge_witness :
    ∃ pre post, [0, 1] = pre ++ 0 :: 1 :: post ∧
      (i_backspace abcd.1 ⟨some 1, 0⟩).2 =
        ⟨some 0, ((abcd.1.heap 0).get (by decide)).len⟩ ∧
      (∃ P', (i_backspace abcd.1 ⟨some 1, 0⟩).1.heap 0 = some P' ∧
        content P' = content ((abcd.1.heap 0).get (by decide)) ++
          content ((abcd.1.heap 1).get (by decide)) ∧
        P'.len = ((abcd.1.heap 0).get (by decide)).len +
          ((abcd.1.heap 1).get (by decide)).len ∧
        P'.next = ((abcd.1.heap 1).get (by decide)).next ∧
        P'.prev = ((abcd.1.heap 0).get (by decide)).prev ∧ LineOk P') ∧
      (i_backspace abcd.1 ⟨some 1, 0⟩).1.heap 1 = none ∧
      (∀ n, ((abcd.1.heap 1).get (by decide)).next = some n →
        ∃ N, (i_backspace abcd.1 ⟨some 1, 0⟩).1.heap n = some N ∧ N.prev = some 0) ∧
      Dll (i_backspace abcd.1 ⟨some 1, 0⟩).1.heap none
        (i_backspace abcd.1 ⟨some 1, 0⟩).1.fstart (pre ++ 0 :: post) none ∧
      (pre ++ 0 :: post).Nodup ∧
      (pre ++ 0 :: post).length + 1 = [0, 1].length ∧
      (∀ x, x ≠ 0 → x ≠ 1 →
        ((i_backspace abcd.1 ⟨some 1, 0⟩).1.heap x).map content =
          (abcd.1.heap x).map content) ∧
      (post ≠ [] → WF (i_backspace abcd.1 ⟨some 1, 0⟩).1 (pre ++ 0 :: post)) :=
  i_backspace_merge abcd.1 [0, 1] 1 0 ((abcd.1.heap 1).get (by decide))
    ((abcd.1.heap 0).get (by decide)) wf_abcd (by simp) (Option.some_get _).symm (by decide)
    (Option.some_get _).symm

/-- C5, evaluated where the code breaks the invariant: in the well-formed
buffer "ab", "cd", `i_backspace` at `(second Line, 0)` merges the last Line
into the first and releases it; the chain from `fstart` is then the single
Line 0, but `fend` still points to the released Line, so the state is no
longer a well-formed buffer for any chain. -/
theorem i_backspace_merge_last_fend :
    WF abcd.1 [0, 1] ∧
    Dll (i_backspace abcd.1 ⟨some 1, 0⟩).1.heap none
      (i_backspace abcd.1 ⟨some 1, 0⟩).1.fstart [0] none ∧
    (i_backspace abcd.1 ⟨some 1, 0⟩).1.fend = some 1 ∧
    (i_backspace abcd.1 ⟨some 1, 0⟩).1.heap 1 = none ∧
    ¬ ∃ ls, WF (i_backspace abcd.1 ⟨some 1, 0⟩).1 ls := by
  refine ⟨wf_abcd, by decide, by decide, rfl, ?_⟩
  rintro ⟨ls, hw⟩
  have h1 : Dll (i_backspace abcd.1 ⟨some 1, 0⟩).1.heap none
      (i_backspace abcd.1 ⟨some 1, 0⟩).1.fstart [0] none := by decide
  obtain rfl := Dll_unique _ _ _ _ _ _ hw.chain h1
  exact absurd hw.last (by decide)

/-- C7: end to end.  The buffer the editor starts from is one Line of length
0; inserting "ab\ncd" at `(first Line, 0)` gives a well-formed buffer of
exactly the two Lines 0 and 1 with contents "ab" and "cd", and returns the
Position `(second Line, 2)`. -/
theorem insert_abcd_end_to_end :
    WF (i_loadfile init []) [0] ∧ texts (i_loadfile init []).heap [0] = [[]] ∧
    WF (i_insert (i_loadfile init []) ⟨some 0, 0⟩ [97, 98, 10, 99, 100]).1 [0, 1] ∧
    texts (i_insert (i_loadfile init []) ⟨some 0, 0⟩ [97, 98, 10, 99, 100]).1.heap [0, 1] =
      [[97, 98], [99, 100]] ∧
    (i_insert (i_loadfile init []) ⟨some 0, 0⟩ [97, 98, 10, 99, 100]).2 = ⟨some 1, 2⟩ := by
  refine ⟨wf_empty, by decide, wf_abcd, by decide, by decide⟩

/-- C8 as stated fails: after "ab\ncd" the cursor is `(second Line, 2)`, and
one `i_backspace` there does not leave a one-Line buffer "abcd" with the
cursor at offset 2. -/
theorem backspace_abcd_not_merged :
    ¬ ∃ ls, WF (i_backspace abcd.1 abcd.2).1 ls ∧ ls.length = 1 ∧
      texts (i_backspace abcd.1 abcd.2).1.heap ls = [[97, 98, 99, 100]] ∧
      (i_backspace abcd.1 abcd.2).2.o = 2 := by
  rintro ⟨ls, -, -, -, h⟩
  exact absurd h (by decide)

/-- C8 as the code has it: after "ab\ncd" the cursor is `(second Line, 2)`;
one `i_backspace` there removes the byte before the cursor, leaving the two
Lines "ab" and "c" and the cursor at `(second Line, 1)`.  The merge happens at
offset 0: `i_backspace` at `(second Line, 0)` leaves the single Line "abcd"
in the chain and returns the Position `(that Line, 2)`. -/
theorem backspace_abcd_end_to_end :
    abcd.2 = ⟨some 1, 2⟩ ∧
    WF (i_backspace abcd.1 abcd.2).1 [0, 1] ∧
    texts (i_backspace abcd.1 abcd.2).1.heap [0, 1] = [[97, 98], [99]] ∧
    (i_backspace abcd.1 abcd.2).2 = ⟨some 1, 1⟩ ∧
    Dll (i_backspace abcd.1 ⟨some 1, 0⟩).1.heap none
      (i_backspace abcd.1 ⟨some 1, 0⟩).1.fstart [0] none ∧
    texts (i_backspace abcd.1 ⟨some 1, 0⟩).1.heap [0] = [[97, 98, 99, 100]] ∧
    (i_backspace abcd.1 ⟨some 1, 0⟩).2 = ⟨some 0, 2⟩ := by
  refine ⟨by decide, by decide, by decide, by decide, by decide, by decide, by decide⟩

/-! ## Character movement -/

/-- C6: in a well-formed buffer, at a valid Position `(a, o)`: unless it is
the end of the buffer (`fend`, its length), `m_prevchar` undoes `m_nextchar`,
also across a Line boundary; `m_prevchar` at `(fstart, 0)` and `m_nextchar`
at `(fend, its length)` return the same Position. -/
theorem prevchar_nextchar (s : State) (ls : List Nat) (a : Nat) (o : Int) (L : Line)
    (hw : WF s ls) (ha : a ∈ ls) (hL : s.heap a = some L) (h0 : 0 ≤ o) (h1 : o ≤ L.len) :
    (¬ (s.fend = some a ∧ o = L.len) →
      m_prevchar s.heap (m_nextchar s.heap ⟨some a, o⟩) = ⟨some a, o⟩) ∧
    (s.fstart = some a → m_prevchar s.heap ⟨some a, 0⟩ = ⟨some a, 0⟩) ∧
    (s.fend = some a → m_nextchar s.heap ⟨some a, L.len⟩ = ⟨some a, L.len⟩) := by
  obtain ⟨pre, post, rfl⟩ := List.append_of_mem ha
  obtain ⟨L0, hL0, -, hpre, hp, hpost, hnx⟩ := hw.cursorLine
  obtain rfl : L0 = L := Option.some.inj (hL0.symm.trans hL)
  obtain ⟨n1, n2, -, -, -⟩ := nodup_split hw.nodup
  refine ⟨fun hend => ?_, fun hstart => ?_, fun hend => ?_⟩
  · by_cases ho : o < L0.len
    · simp only [m_nextchar, hL]
      rw [if_neg (by omega)]
      simp only [m_prevchar]
      rw [if_neg (by omega)]
      congr 1; omega
    · have ho2 : o = L0.len := by omega
      cases post with
      | nil =>
        exact absurd ⟨by rw [hw.last]; simp, ho2⟩ hend
      | cons n t =>
        rw [Dll_cons_iff] at hpost
        obtain ⟨e1, X, hX, hXp, -⟩ := hpost
        simp only [m_nextchar, hL]
        rw [if_pos (by omega)]
        simp only [e1, m_prevchar]
        rw [if_pos (by omega)]
        simp only [hX, hXp, hL, ho2]
  · have hpre0 : pre = [] := by
      cases pre with
      | nil => rfl
      | cons b u =>
        have := ((Dll_cons_iff _ _ _ _ _ _).mp hpre).1
        rw [hstart] at this
        exact absurd (by simp [Option.some.inj this]) n1
    subst hpre0
    have hp' : L0.prev = none := hp
    simp only [m_prevchar]
    rw [if_pos (by omega)]
    simp only [hL, hp']
  · have hpost0 : post = [] := by
      cases post with
      | nil => rfl
      | cons n t =>
        have h := hw.last
        rw [hend, List.getLast?_append_cons, List.getLast?_cons_cons] at h
        exact absurd (List.mem_of_getLast?_eq_some h.symm) n2
    subst hpost0
    have hn' : L0.next = none := hnx
    simp only [m_nextchar, hL]
    rw [if_pos (by omega)]
    simp only [hn']

/-- C6 at a concrete input: the end of the first Line of "ab", "cd", where
the step crosses the Line boundary. -/
theorem prevchar_nextchar_witness :
    (¬ (abcd.1.fend = some 0 ∧ (2 : Int) = ((abcd.1.heap 0).get (by decide)).len) →
      m_prevchar abcd.1.heap (m_nextchar abcd.1.heap ⟨some 0, 2⟩) = ⟨some 0, 2⟩) ∧
    (abcd.1.fstart = some 0 → m_prevchar abcd.1.heap ⟨some 0, 0⟩ = ⟨some 0, 0⟩) ∧
    (abcd.1.fend = some 0 →
      m_nextchar abcd.1.heap ⟨some 0, ((abcd.1.heap 0).get (by decide)).len⟩ =
        ⟨some 0, ((abcd.1.heap 0).get (by decide)).len⟩) :=
  prevchar_nextchar abcd.1 [0, 1] 0 2 ((abcd.1.heap 0).get (by decide)) wf_abcd (by simp)
    (Option.some_get _).symm (by decide) (by decide)

/-! ## Walking the chain: the searches of `i_draw` and the rows of `i_drawscr` -/

/-- The first search over the chain `xs` that starts at `f`: it stops with
the row of the cursor Line when that Line is among the first `k`, and else
with the pointer to the Line after the first `k`. -/
theorem scanOn_spec (h : Nat → Option Line) (c : Nat) (xs : List Nat) :
    ∀ (k : Nat) (p f : Option Nat) (i : Int), Dll h p f xs none →
      (c ∈ xs.take k → ∃ j, scanOn h (some c) k f i = .inl j) ∧
      (c ∉ xs.take k → scanOn h (some c) k f i = .inr (xs.drop k).head?) := by
  induction xs with
  | nil =>
    intro k p f i hd
    have hf : f = none := hd
    subst hf
    cases k <;> simp [scanOn]
  | cons a t ih =>
    intro k p f i hd
    obtain ⟨hf, L, hL, -, hr⟩ := (Dll_cons_iff _ _ _ _ _ _).mp hd
    subst hf
    cases k with
    | zero => simp [scanOn]
    | succ k =>
      by_cases hac : a = c
      · subst hac
        simp [scanOn]
      · have h1 : ¬ (some a = some c) := fun e => hac (Option.some.inj e)
        have h2 : ¬ c = a := fun e => hac e.symm
        obtain ⟨i1, i2⟩ := ih k (some a) L.next (i + 1) hr
        simp only [scanOn, if_neg h1, hL, List.take_succ_cons, List.mem_cons, h2, false_or,
          List.drop_succ_cons]
        exact ⟨i1, i2⟩

/-- The second search over the chain `xs` that starts at `f`, with enough
steps allowed: it tells whether the cursor Line is in `xs`. -/
theorem scanBelow_spec (h : Nat → Option Line) (c : Nat) (xs : List Nat) :
    ∀ (fuel : Nat) (p f : Option Nat), Dll h p f xs none → xs.length ≤ fuel →
      scanBelow h (some c) fuel f = some (decide (c ∈ xs)) := by
  induction xs with
  | nil =>
    intro fuel p f hd _
    have hf : f = none := hd
    subst hf
    cases fuel <;> simp [scanBelow]
  | cons a t ih =>
    intro fuel p f hd hfu
    obtain ⟨hf, L, hL, -, hr⟩ := (Dll_cons_iff _ _ _ _ _ _).mp hd
    subst hf
    obtain ⟨k, rfl⟩ : ∃ k, fuel = k + 1 := ⟨fuel - 1, by simp at hfu; omega⟩
    by_cases hac : a = c
    · subst hac
      simp [scanBelow]
    · have h1 : ¬ (some a = some c) := fun e => hac (Option.some.inj e)
      have h2 : ¬ c = a := fun e => hac e.symm
      simp only [scanBelow, if_neg h1, hL, List.mem_cons, h2, false_or]
      exact ih k (some a) L.next hr (by simp at hfu; omega)

/-- The third search, started at the head `a` of a chain in which the cursor
Line `c` comes before the Line `t` the screen starts at: it finds `c`. -/
theorem scanAbove_spec (h : Nat → Option Line) (c t : Nat) (u : List Nat) :
    ∀ (fuel a : Nat) (p : Option Nat) (w : List Nat),
      Dll h p (some a) (u ++ c :: w) none → w ≠ [] → t ∉ u → t ≠ c → c ∉ u →
      u.length < fuel → scanAbove h (some c) (some t) fuel a = some true := by
  induction u with
  | nil =>
    intro fuel a p w hd hw ht htc _ hfu
    obtain ⟨k, rfl⟩ : ∃ k, fuel = k + 1 := ⟨fuel - 1, by simp at hfu; omega⟩
    obtain ⟨hf, L, hL, -, hr⟩ := (Dll_cons_iff _ _ _ _ _ _).mp hd
    obtain rfl : a = c := Option.some.inj hf
    obtain ⟨n, w', rfl⟩ := List.exists_cons_of_ne_nil hw
    have hn : L.next = some n := ((Dll_cons_iff _ _ _ _ _ _).mp hr).1
    have h1 : ¬ (some a = some t) := fun e => htc (Option.some.inj e).symm
    have h3 : ¬ a = t := fun e => htc e.symm
    simp [scanAbove, hL, hn, h3]
  | cons b u ih =>
    intro fuel a p w hd hw ht htc hcu hfu
    obtain ⟨k, rfl⟩ : ∃ k, fuel = k + 1 := ⟨fuel - 1, by simp at hfu; omega⟩
    obtain ⟨hf, L, hL, -, hr⟩ := (Dll_cons_iff _ _ _ _ _ _).mp hd
    obtain rfl : a = b := Option.some.inj hf
    have hne : L.next = (u ++ c :: w).head? := by simpa using Dll_head _ _ _ _ _ hr
    obtain ⟨n, hn⟩ : ∃ n, L.next = some n := by
      rw [hne]
      cases u <;> simp
    have h1 : ¬ (some a = some t) := fun e => ht (by simp [Option.some.inj e])
    have h2 : ¬ (some a = some c) := fun e => hcu (by simp [Option.some.inj e])
    simp only [scanAbove, if_neg h1, hL, hn, if_neg h2]
    exact ih k n (some a) w (hn ▸ hr) hw (fun e => ht (List.mem_cons_of_mem _ e)) htc
      (fun e => hcu (List.mem_cons_of_mem _ e)) (by simp at hfu; omega)

/-- The recentring walk from the Line `a` of a chain: it goes up over the
last `min k (length pre)` Lines `ys` before `a` and stops at the first of
them. -/
theorem recentre_spec (h : Nat → Option Line) (k : Nat) :
    ∀ (a : Nat) (f : Option Nat) (pre post : List Nat),
      Dll h none f (pre ++ a :: post) none →
      ∃ xs ys, pre = xs ++ ys ∧ ys.length = min k pre.length ∧
        some (recentre h k a) = (ys ++ [a]).head? := by
  induction k with
  | zero =>
    intro a f pre post _
    exact ⟨pre, [], by simp, by simp, by simp [recentre]⟩
  | succ k ih =>
    intro a f pre post hd
    obtain ⟨m, -, h2⟩ := (Dll_append _ _ _ _ _ _).mp hd
    obtain ⟨-, L, hL, hp, -⟩ := (Dll_cons_iff _ _ _ _ _ _).mp h2
    rcases List.eq_nil_or_concat pre with rfl | ⟨pre', b, rfl⟩ <;>
      simp only [List.concat_eq_append] at *
    · have hp' : L.prev = none := hp
      exact ⟨[], [], by simp, by simp, by simp [recentre, hL, hp']⟩
    · have hp' : L.prev = some b := by rw [hp, lastOr_append]
      have hd' : Dll h none f (pre' ++ b :: (a :: post)) none := by
        simpa using hd
      obtain ⟨xs, ys, e1, e2, e3⟩ := ih b f pre' (a :: post) hd'
      refine ⟨xs, ys ++ [b], by simp [e1], by simp [e2]; omega, ?_⟩
      simp only [recentre, hL, hp', e3]
      cases ys <;> simp

/-- The rows `i_drawscr` goes through are the first `k` Lines of the chain
that starts at `f`. -/
theorem drawRows_lines (TABSTOP : Int) (cur : Option Nat) (sdirty : Bool) (width : Int)
    (xs : List Nat) :
    ∀ (k : Nat) (h : Nat → Option Line) (p f : Option Nat), Dll h p f xs none →
      (drawRows TABSTOP cur sdirty width k h f).2.map Row.line = xs.take k := by
  induction xs with
  | nil =>
    intro k h p f hd
    have hf : f = none := hd
    subst hf
    cases k <;> simp [drawRows]
  | cons a t ih =>
    intro k h p f hd
    obtain ⟨hf, L, hL, -, hr⟩ := (Dll_cons_iff _ _ _ _ _ _).mp hd
    subst hf
    cases k with
    | zero => simp [drawRows]
    | succ k =>
      have hupd : ∀ g : Line → Line, (∀ X, (g X).prev = X.prev ∧ (g X).next = X.next) →
          Dll (upd h a g) (some a) L.next t none := by
        intro g hg
        refine Dll_congr _ _ _ _ _ _ (fun b _ X hX => ?_) hr
        by_cases hb : b = a
        · subst hb
          exact ⟨g X, by simp [hX], (hg X).1, (hg X).2⟩
        · exact ⟨X, by simp [hb, hX], rfl, rfl⟩
      simp only [drawRows, hL]
      split_ifs <;>
        simp only [List.map_cons, List.take_succ_cons, List.cons.injEq, true_and]
      · exact ih k _ _ _ (hupd _ (fun X => ⟨rfl, rfl⟩))
      · exact ih k _ _ _ (hupd _ (fun X => ⟨rfl, rfl⟩))
      · exact ih k _ _ _ hr

/-- With `sdirty` set, every row `i_drawscr` goes through is rewritten with
the bytes of its Line. -/
theorem drawRows_all (TABSTOP : Int) (cur : Option Nat) (width : Int) :
    ∀ (k : Nat) (h : Nat → Option Line) (f : Option Nat),
      ∀ r ∈ (drawRows TABSTOP cur true width k h f).2,
        ∃ L, h r.line = some L ∧ r.text = some (rowText TABSTOP width L) := by
  intro k
  induction k with
  | zero => intro h f r hr; simp [drawRows] at hr
  | succ k ih =>
    intro h f r hr
    cases f with
    | none => simp [drawRows] at hr
    | some a =>
      cases hL : h a with
      | none => simp [drawRows, hL] at hr
      | some L =>
        have hback : ∀ (g : Line → Line), (∀ X, (g X).c = X.c ∧ (g X).len = X.len) →
            ∀ r ∈ (drawRows TABSTOP cur true width k (upd h a g) L.next).2,
              ∃ M, h r.line = some M ∧ r.text = some (rowText TABSTOP width M) := by
          intro g hg r hr
          obtain ⟨M, hM, hMt⟩ := ih _ _ r hr
          by_cases hb : r.line = a
          · rw [hb, upd_same, hL] at hM
            refine ⟨L, by rw [hb, hL], ?_⟩
            rw [hMt, ← Option.some.inj hM]
            simp [rowText, (hg L).1, (hg L).2]
          · rw [upd_ne _ _ hb] at hM
            exact ⟨M, hM, hMt⟩
        simp only [drawRows, hL, Bool.or_true, if_true] at hr
        split_ifs at hr
        · rcases List.mem_cons.mp hr with rfl | hr
          · exact ⟨L, hL, rfl⟩
          · exact hback (fun X => { X with dirty := true }) (fun X => ⟨rfl, rfl⟩) r hr
        · rcases List.mem_cons.mp hr with rfl | hr
          · exact ⟨L, hL, rfl⟩
          · exact hback (fun X => { X with dirty := false }) (fun X => ⟨rfl, rfl⟩) r hr

/-! ## The draw cycle -/

theorem drawPrep_spec (s : State) (nh nw : Int) :
    (drawPrep s nh nw).1.heap = s.heap ∧ (drawPrep s nh nw).1.cur = s.cur ∧
    (drawPrep s nh nw).1.fstart = s.fstart ∧
    (drawPrep s nh nw).1.height = nh ∧ (drawPrep s nh nw).1.width = nw ∧
    (drawPrep s nh nw).1.sstart = (if s.sstart = none then s.fstart else s.sstart) ∧
    (drawPrep s nh nw).2 = decide (nh ≠ s.height ∨ nw ≠ s.width) := by
  unfold drawPrep
  by_cases h1 : s.sstart = none <;> by_cases h2 : nh ≠ s.height ∨ nw ≠ s.width <;>
    simp [h1, h2] <;> simp only [not_or, not_not] at h2 <;> simp [h2.1, h2.2]

theorem Dll_suffix (h : Nat → Option Line) (p f : Option Nat) (xs win : List Nat)
    (hd : Dll h p f (xs ++ win) none) : Dll h (lastOr p xs) win.head? win none := by
  obtain ⟨m, -, h2⟩ := (Dll_append _ _ _ _ _ _).mp hd
  have := Dll_head _ _ _ _ _ h2
  simp only [Option.or_none] at this
  exact this ▸ h2

theorem drawCentred_shown (TABSTOP : Int) (s s2 : State) (ls : List Nat) (c : Nat)
    (nh nw : Int) (hw : WF s ls) (hc : s.cur.l = some c) (hcl : c ∈ ls)
    (h1 : s2.heap = s.heap) (h2 : s2.cur = s.cur) (h3 : s2.height = nh) (h4 : s2.width = nw) :
    Shown TABSTOP s ls c nh nw (drawCentred TABSTOP s2 nh) := by
  obtain ⟨pre, post, rfl⟩ := List.append_of_mem hcl
  obtain ⟨xs, ys, e1, e2, e3⟩ :=
    recentre_spec s.heap (nh.tdiv 2 - 1).toNat c s.fstart pre post hw.chain
  have hls : pre ++ c :: post = xs ++ (ys ++ c :: post) := by simp [e1]
  have hhead : (ys ++ c :: post).head? = some (recentre s.heap (nh.tdiv 2 - 1).toNat c) := by
    rw [e3]; cases ys <;> simp
  refine ⟨{ s2 with sstart := some (recentre s2.heap (nh.tdiv 2 - 1).toNat c) }, true,
    nh.tdiv 2, drawCol TABSTOP s2, xs, ys ++ c :: post, ?_, h1, h2, h3, h4, fun _ => rfl, hls,
    ?_, ?_, ?_⟩
  · simp only [drawCentred, h2, hc]
  · show some _ = _
    rw [hhead, h1]
  · exact Dll_suffix _ _ _ _ _ (hls ▸ hw.chain)
  · intro hnh
    have hk : ys.length < (nh - 1).toNat := by
      rw [e2]
      have : nh.tdiv 2 = nh / 2 := Int.tdiv_eq_ediv (by omega) (by omega)
      rw [this]
      have : (nh / 2 - 1).toNat < (nh - 1).toNat := by omega
      exact lt_of_le_of_lt (Nat.min_le_left _ _) this
    obtain ⟨m, hm⟩ : ∃ m, (nh - 1).toNat - ys.length = m + 1 :=
      ⟨(nh - 1).toNat - ys.length - 1, by omega⟩
    rw [List.take_append_eq_append_take, hm, List.take_succ_cons]
    exact List.mem_append_right _ (List.mem_cons_self _ _)

/-- A draw of a well-formed buffer whose cursor Line is in the chain, and
whose `sstart` is unset or in the chain, reaches `i_drawscr`. -/
theorem i_draw_shown (TABSTOP : Int) (fuel : Nat) (s : State) (ls : List Nat) (c : Nat)
    (nh nw : Int) (hw : WF s ls) (hc : s.cur.l = some c) (hcl : c ∈ ls)
    (hs : s.sstart = none ∨ ∃ t ∈ ls, s.sstart = some t) (hfuel : ls.length ≤ fuel) :
    Shown TABSTOP s ls c nh nw (i_draw TABSTOP fuel s nh nw) := by
  obtain ⟨p1, p2, p3, p4, p5, p6, p7⟩ := drawPrep_spec s nh nw
  obtain ⟨f0, rest0, hls0⟩ := List.exists_cons_of_ne_nil hw.ne
  have hf : s.fstart = some f0 := by
    have := Dll_head _ _ _ _ _ hw.chain
    simpa [hls0] using this
  obtain ⟨t, ht, hst⟩ : ∃ t ∈ ls, (drawPrep s nh nw).1.sstart = some t := by
    rw [p6]
    rcases hs with h | ⟨t, ht, h⟩
    · exact ⟨f0, by simp [hls0], by simp [h, hf]⟩
    · exact ⟨t, ht, by simp [h]⟩
  obtain ⟨xs0, rest, hls⟩ := List.append_of_mem ht
  have hwin : Dll s.heap (lastOr none xs0) (some t) (t :: rest) none := by
    have := Dll_suffix _ _ _ _ _ (hls ▸ hw.chain)
    simpa using this
  have hcentred := drawCentred_shown TABSTOP s (drawPrep s nh nw).1 ls c nh nw hw hc hcl p1 p2 p4 p5
  simp only [i_draw, hf]
  rw [p2, hc, p1, hst]
  obtain ⟨a1, a2⟩ := scanOn_spec s.heap c (t :: rest) (nh - 1).toNat _ _ 1 hwin
  by_cases hA : c ∈ (t :: rest).take (nh - 1).toNat
  · obtain ⟨j, hj⟩ := a1 hA
    rw [hj]
    refine ⟨(drawPrep s nh nw).1, (drawPrep s nh nw).2, j, drawCol TABSTOP (drawPrep s nh nw).1,
      xs0, t :: rest, rfl, p1, p2, p4, p5, fun h => by rw [p7]; simpa using h, hls, ?_, hwin,
      fun _ => hA⟩
    rw [hst]; rfl
  · rw [a2 hA]
    dsimp only
    have hdrop : Dll s.heap (lastOr (lastOr none xs0) ((t :: rest).take (nh - 1).toNat))
        ((t :: rest).drop (nh - 1).toNat).head? ((t :: rest).drop (nh - 1).toNat) none := by
      apply Dll_suffix s.heap _ (some t)
      rw [List.take_append_drop]
      exact hwin
    have hlen : ((t :: rest).drop (nh - 1).toNat).length ≤ fuel := by
      have : (t :: rest).length ≤ ls.length := by rw [hls]; simp
      rw [List.length_drop]
      omega
    rw [scanBelow_spec s.heap c _ fuel _ _ hdrop hlen]
    by_cases hB : c ∈ (t :: rest).drop (nh - 1).toNat
    · simp only [hB, decide_True]
      exact hcentred
    · simp only [hB, decide_False]
      have hcx : c ∈ xs0 := by
        have hnot : c ∉ t :: rest := by
          intro hm
          rw [← List.take_append_drop (nh - 1).toNat (t :: rest)] at hm
          rcases List.mem_append.mp hm with h | h
          · exact hA h
          · exact hB h
        rw [hls] at hcl
        rcases List.mem_append.mp hcl with h | h
        · exact h
        · exact absurd h hnot
      obtain ⟨u, v, hxs⟩ := List.append_of_mem hcx
      have hnd := hw.nodup
      rw [hls] at hnd
      obtain ⟨n1, -, n3, -, -⟩ := nodup_split hnd
      have hcu : c ∉ u := by
        rw [hxs] at n3
        exact (nodup_split n3).1
      have hch : Dll s.heap none (some f0) (u ++ c :: (v ++ t :: rest)) none := by
        have := hw.chain
        rw [hf, hls, hxs] at this
        simpa using this
      rw [scanAbove_spec s.heap c t u fuel f0 none (v ++ t :: rest) hch (by simp)
        (fun h => n1 (by simp [hxs, h])) (fun h => n1 (by simp [hxs, h])) hcu
        (by
          have : ls.length = u.length + 1 + v.length + 1 + rest.length := by
            rw [hls, hxs]; simp; omega
          omega)]
      exact hcentred

theorem i_drawscr_spec (TABSTOP : Int) (s : State) (sd : Bool) (crow ccol : Int) :
    (i_drawscr TABSTOP s sd crow ccol).1.height = s.height ∧
    (i_drawscr TABSTOP s sd crow ccol).1.width = s.width ∧
    (i_drawscr TABSTOP s sd crow ccol).1.sstart = s.sstart ∧
    (i_drawscr TABSTOP s sd crow ccol).2.sdirty = sd ∧
    (i_drawscr TABSTOP s sd crow ccol).2.rows =
      (drawRows TABSTOP s.cur.l sd s.width (s.height - 1).toNat s.heap s.sstart).2 :=
  ⟨rfl, rfl, rfl, rfl, rfl⟩

theorem wf_lines4 : WF lines4 [0, 1, 2, 3] := by decide

/-- C9: a draw of a well-formed buffer whose cursor Line `c` is in the chain,
with `sstart` unset or in the chain and a terminal height of at least 2,
reaches `i_drawscr` (given enough steps for the chain walks); the Lines
`i_drawscr` goes through are the first `nh - 1` Lines of the chain from the
`sstart` it is called with, and the cursor Line is one of them. -/
theorem i_draw_cursor_in_window (TABSTOP : Int) (fuel : Nat) (s : State) (ls : List Nat)
    (c : Nat) (nh nw : Int) (hw : WF s ls) (hc : s.cur.l = some c) (hcl : c ∈ ls)
    (hs : s.sstart = none ∨ ∃ t ∈ ls, s.sstart = some t) (hfuel : ls.length ≤ fuel)
    (hnh : 2 ≤ nh) :
    ∃ (s' : State) (f : Frame) (xs win : List Nat),
      i_draw TABSTOP fuel s nh nw = .drew s' f ∧
      ls = xs ++ win ∧ s'.sstart = win.head? ∧ s'.height = nh ∧
      f.rows.map Row.line = win.take (nh - 1).toNat ∧
      c ∈ f.rows.map Row.line := by
  obtain ⟨s3, sd, crow, ccol, xs, win, e1, e2, e3, e4, e5, -, e7, e8, e9, e10⟩ :=
    i_draw_shown TABSTOP fuel s ls c nh nw hw hc hcl hs hfuel
  obtain ⟨d1, -, d3, -, d5⟩ := i_drawscr_spec TABSTOP s3 sd crow ccol
  have hrows : (i_drawscr TABSTOP s3 sd crow ccol).2.rows.map Row.line =
      win.take (nh - 1).toNat := by
    rw [d5, e4, e2, e8]
    exact drawRows_lines _ _ _ _ win _ _ _ _ e9
  exact ⟨_, _, xs, win, e1, e7, d3.trans e8, d1.trans e4, hrows, hrows ▸ e10 hnh⟩

/-- C9 at a concrete input: four Lines, the cursor on the last one below a
window of two rows. -/
theorem i_draw_cursor_in_window_witness :
    ∃ (s' : State) (f : Frame) (xs win : List Nat),
      i_draw 8 4 lines4 3 80 = .drew s' f ∧
      [0, 1, 2, 3] = xs ++ win ∧ s'.sstart = win.head? ∧ s'.height = 3 ∧
      f.rows.map Row.line = win.take ((3 : Int) - 1).toNat ∧
      3 ∈ f.rows.map Row.line :=
  i_draw_cursor_in_window 8 4 lines4 [0, 1, 2, 3] 3 3 80 wf_lines4 rfl (by simp)
    (Or.inl rfl) (by simp) (by decide)

/-- C10: when the height or width the terminal reports differs from the
cached one, the draw of a well-formed buffer (cursor Line in the chain,
`sstart` unset or in the chain) calls `i_drawscr` with `sdirty = true`, the
cache holds the new height and width afterwards, and every row of the window
(the first `nh - 1` Lines from `sstart`) is rewritten with the bytes of its
Line, whatever its dirty flag. -/
theorem i_draw_resize (TABSTOP : Int) (fuel : Nat) (s : State) (ls : List Nat)
    (c : Nat) (nh nw : Int) (hw : WF s ls) (hc : s.cur.l = some c) (hcl : c ∈ ls)
    (hs : s.sstart = none ∨ ∃ t ∈ ls, s.sstart = some t) (hfuel : ls.length ≤ fuel)
    (hres : nh ≠ s.height ∨ nw ≠ s.width) :
    ∃ (s' : State) (f : Frame) (xs win : List Nat),
      i_draw TABSTOP fuel s nh nw = .drew s' f ∧
      f.sdirty = true ∧ s'.height = nh ∧ s'.width = nw ∧
      ls = xs ++ win ∧ s'.sstart = win.head? ∧
      f.rows.map Row.line = win.take (nh - 1).toNat ∧
      ∀ r ∈ f.rows, ∃ L, s.heap r.line = some L ∧ r.text = some (rowText TABSTOP nw L) := by
  obtain ⟨s3, sd, crow, ccol, xs, win, e1, e2, e3, e4, e5, e6, e7, e8, e9, -⟩ :=
    i_draw_shown TABSTOP fuel s ls c nh nw hw hc hcl hs hfuel
  obtain ⟨d1, d2, d3, d4, d5⟩ := i_drawscr_spec TABSTOP s3 sd crow ccol
  have hsd : sd = true := e6 hres
  refine ⟨_, _, xs, win, e1, d4.trans hsd, d1.trans e4, d2.trans e5, e7, d3.trans e8, ?_, ?_⟩
  · rw [d5, e4, e2, e8]
    exact drawRows_lines _ _ _ _ win _ _ _ _ e9
  · intro r hr
    rw [d5, hsd, e5, e2] at hr
    exact drawRows_all TABSTOP _ nw _ _ _ r hr

/-- C10 at a concrete input: the first draw of the four-Line buffer, whose
cached height and width are still 0, on a 24 by 80 terminal. -/
theorem i_draw_resize_witness :
    ∃ (s' : State) (f : Frame) (xs win : List Nat),
      i_draw 8 4 lines4 24 80 = .drew s' f ∧
      f.sdirty = true ∧ s'.height = 24 ∧ s'.width = 80 ∧
      [0, 1, 2, 3] = xs ++ win ∧ s'.sstart = win.head? ∧
      f.rows.map Row.line = win.take ((24 : Int) - 1).toNat ∧
      ∀ r ∈ f.rows, ∃ L, lines4.heap r.line = some L ∧ r.text = some (rowText 8 80 L) :=
  i_draw_resize 8 4 lines4 [0, 1, 2, 3] 3 24 80 wf_lines4 rfl (by simp)
    (Or.inl rfl) (by simp) (by decide)

/-! ## The other mutations keep the buffer well-formed -/

theorem delChar_ok (L : Line) (o : Int) (hL : LineOk L) (h0 : 0 < o) (h1 : o ≤ L.len) :
    LineOk (delChar L o) := by
  obtain ⟨hl, hz, hb, hs⟩ := hL
  refine ⟨by simp [delChar]; omega, ?_, ?_, ?_⟩
  · simp only [delChar, memmove, memcpy]
    rw [if_pos (by omega), ← hz]
    congr 1; omega
  · rw [delChar_content L o h0 h1]
    intro b hb2
    rcases List.mem_append.mp hb2 with h | h
    · exact hb b (List.mem_of_mem_take h)
    · exact hb b (List.mem_of_mem_drop h)
  · rcases hs with h | h
    · exact Or.inl ⟨h.1, h.2.1, by show L.len - 1 < L.cap; omega⟩
    · omega

/-- The `else` branch of `i_backspace` (offset above 0) keeps a well-formed
buffer well-formed, with the same chain. -/
theorem i_backspace_inside_wf (s : State) (ls : List Nat) (l : Nat) (o : Int) (L : Line)
    (hw : WF s ls) (hl : l ∈ ls) (hL : s.heap l = some L) (h0 : 0 < o) (h1 : o ≤ L.len) :
    WF (i_backspace s ⟨some l, o⟩).1 ls := by
  rw [i_backspace_inside s l o L hL h0]
  exact hw.hset l L (delChar L o) hL rfl rfl (delChar_ok L o (hw.ok l hl L hL) h0 h1)
    _ rfl rfl rfl (le_refl _)

/-- Backspace at the very start of the buffer does nothing. -/
theorem i_backspace_start (s : State) (l : Nat) (o : Int) (L : Line)
    (hL : s.heap l = some L) (h0 : o ≤ 0) (hp : L.prev = none) :
    i_backspace s ⟨some l, o⟩ = (s, ⟨some l, o⟩) := by
  simp only [i_backspace, hL, if_pos h0, hp]

theorem newl_ok (p n : Option Nat) : LineOk { newl with prev := p, next := n } := by
  refine ⟨le_refl _, by simp [newl, poke], by simp [newl, content], Or.inl ⟨le_refl _, rfl, ?_⟩⟩
  simp [newl, LINESIZE]

/-- Splicing a new Line after the cursor Line (`f_newl` with `arg->i != 0`)
keeps a well-formed buffer well-formed: the chain gains the new Line right
after the cursor Line, and the cursor moves to it. -/
theorem f_newl_after_wf (s : State) (pre post : List Nat) (cl : Nat)
    (hw : WF s (pre ++ cl :: post)) (hc : s.cur.l = some cl) :
    WF (f_newl s true) (pre ++ cl :: s.brk :: post) ∧
      (f_newl s true).cur = ⟨some s.brk, 0⟩ := by
  obtain ⟨C, hC, hok, hpre, hp, hpost, hnx⟩ := hw.cursorLine
  obtain ⟨n1, n2, n3, n4, n5⟩ := nodup_split hw.nodup
  have hbl : cl ≠ s.brk := Nat.ne_of_lt (hw.fresh cl (by simp))
  have hb1 : s.brk ∉ pre := fun hm => Nat.lt_irrefl _ (hw.fresh _ (by simp [hm]))
  have hb2 : s.brk ∉ post := fun hm => Nat.lt_irrefl _ (hw.fresh _ (by simp [hm]))
  have hnxm : ∀ x, C.next = some x → x ∈ post := fun x hx =>
    List.mem_of_mem_head? (hnx ▸ hx)
  have hheap : (f_newl s true).heap = fun x =>
      if x = cl then some { C with next := some s.brk }
      else if x = s.brk then some { newl with prev := some cl, next := C.next }
      else if C.next = some x then (s.heap x).map (fun X => { X with prev := some s.brk })
      else s.heap x := by
    simp only [f_newl, i_newline, hc, hset_ne _ _ hbl, hC, if_true]
    funext x
    cases hcn : C.next with
    | none =>
      by_cases hx : x = cl
      · subst hx; simp [upd, hset, hbl, hC]
      · by_cases hxb : x = s.brk
        · subst hxb; simp [upd, hset, hx, newl, hcn]
        · simp [upd, hset, hx, hxb]
    | some n =>
      have hnb : n ≠ s.brk := fun e => hb2 (e ▸ hnxm n hcn)
      have hnc : n ≠ cl := fun e => n2 (e ▸ hnxm n hcn)
      by_cases hx : x = cl
      · subst hx; simp [upd, hset, hbl, hC, Ne.symm hnc]
      · by_cases hxb : x = s.brk
        · subst hxb; simp [upd, hset, hx, newl, hcn, Ne.symm hnb]
        · by_cases hxn : x = n
          · subst hxn; simp [upd, hset, hx, hxb]
          · have : ¬ n = x := fun e => hxn e.symm
            simp [upd, hset, hx, hxb, hxn, this]
  have hfs : (f_newl s true).fstart = s.fstart := by
    simp only [f_newl, i_newline, hc, hset_ne _ _ hbl, hC, if_true]
  have hfe : (f_newl s true).fend = if C.next = none then some s.brk else s.fend := by
    simp only [f_newl, i_newline, hc, hset_ne _ _ hbl, hC, if_true]
  have hbrk : (f_newl s true).brk = s.brk + 1 := by
    simp only [f_newl, i_newline, hc, hset_ne _ _ hbl, hC, if_true]
  have hcur : (f_newl s true).cur = ⟨some s.brk, 0⟩ := by
    simp only [f_newl, i_newline, hc, hset_ne _ _ hbl, hC, if_true]
  have hother : ∀ x, x ≠ cl → x ≠ s.brk → (∀ y, C.next = some y → y ≠ x) →
      (f_newl s true).heap x = s.heap x := by
    intro x hx1 hx2 hx3
    rw [hheap]
    simp only [if_neg hx1, if_neg hx2]
    rw [if_neg (fun e => hx3 x e rfl)]
  refine ⟨⟨by simp, ?_, ?_, ?_, ?_, ?_⟩, hcur⟩
  · rw [List.nodup_append, List.nodup_cons, List.nodup_cons]
    refine ⟨n3, ⟨?_, hb2, n4⟩, ?_⟩
    · simp only [List.mem_cons, not_or]
      exact ⟨hbl, n2⟩
    · intro x hx hx2
      rcases List.mem_cons.mp hx2 with rfl | hx2
      · exact n1 hx
      · rcases List.mem_cons.mp hx2 with rfl | hx2
        · exact hb1 hx
        · exact n5 x hx hx2
  · rw [hfs, Dll_append]
    refine ⟨some cl, Dll_congr _ _ _ _ _ _ (fun a ha X hX => ⟨X, ?_, rfl, rfl⟩) hpre, ?_⟩
    · rw [hother a (fun e => n1 (e ▸ ha)) (fun e => hb1 (e ▸ ha))
        (fun y hy e => n5 a ha (e ▸ hnxm y hy))]
      exact hX
    rw [Dll_cons_iff]
    refine ⟨rfl, { C with next := some s.brk }, by rw [hheap]; simp, hp, ?_⟩
    show Dll _ (some cl) (some s.brk) (s.brk :: post) none
    rw [Dll_cons_iff]
    refine ⟨rfl, { newl with prev := some cl, next := C.next },
      by rw [hheap]; simp [Ne.symm hbl], rfl, ?_⟩
    show Dll _ (some s.brk) C.next post none
    cases post with
    | nil => exact hpost
    | cons n t =>
      rw [Dll_cons_iff] at hpost ⊢
      obtain ⟨e1, X, hX, hXp, hXr⟩ := hpost
      have hnl : n ≠ cl := fun e => n2 (by simp [e])
      have hnb : n ≠ s.brk := fun e => hb2 (by simp [e])
      refine ⟨e1, { X with prev := some s.brk }, ?_, rfl, ?_⟩
      · rw [hheap]; simp [hnl, hnb, e1, hX]
      · refine Dll_congr _ _ _ _ _ _ (fun a ha Y hY => ⟨Y, ?_, rfl, rfl⟩) hXr
        have hnt : n ∉ t := (List.nodup_cons.mp n4).1
        rw [hother a (fun e => n2 (by simp [← e, ha])) (fun e => hb2 (by simp [← e, ha]))
          (fun y hy e => hnt (by
            have : y = n := by rw [e1] at hy; exact (Option.some.inj hy).symm
            rw [← this, e]; exact ha))]
        exact hY
  · rw [hfe, hw.last, hnx]
    cases post with
    | nil => simp
    | cons n t => simp [List.getLast?_append_cons, List.getLast?_cons_cons]
  · intro a ha
    rw [hbrk]
    simp only [List.mem_append, List.mem_cons] at ha
    rcases ha with h | rfl | rfl | h
    · exact Nat.lt_succ_of_lt (hw.fresh a (by simp [h]))
    · exact Nat.lt_succ_of_lt (hw.fresh a (by simp))
    · exact Nat.lt_succ_self _
    · exact Nat.lt_succ_of_lt (hw.fresh a (by simp [h]))
  · intro a ha X hX
    rw [hheap] at hX
    by_cases hal : a = cl
    · subst hal
      have : X = { C with next := some s.brk } := by simpa using hX.symm
      exact this ▸ hok
    · by_cases hab : a = s.brk
      · subst hab
        have : X = { newl with prev := some cl, next := C.next } := by
          simpa [hal] using hX.symm
        exact this ▸ newl_ok _ _
      · have ham : a ∈ pre ++ cl :: post := by
          simp only [List.mem_append, List.mem_cons] at ha ⊢
          tauto
        simp only [if_neg hal, if_neg hab, Option.mem_def] at hX
        split_ifs at hX
        · obtain ⟨Y, hY, rfl⟩ := Option.map_eq_some'.mp hX
          exact hw.ok a ham Y hY
        · exact hw.ok a ham X hX

/-- Splicing a new Line before the cursor Line (`f_newl` with `arg->i == 0`)
keeps a well-formed buffer well-formed: the chain gains the new Line right
before the cursor Line, and the cursor moves to it. -/
theorem f_newl_before_wf (s : State) (pre post : List Nat) (cl : Nat)
    (hw : WF s (pre ++ cl :: post)) (hc : s.cur.l = some cl) :
    WF (f_newl s false) (pre ++ s.brk :: cl :: post) ∧
      (f_newl s false).cur = ⟨some s.brk, 0⟩ := by
  obtain ⟨C, hC, hok, hpre, hp, hpost, hnx⟩ := hw.cursorLine
  obtain ⟨n1, n2, n3, n4, n5⟩ := nodup_split hw.nodup
  have hbl : cl ≠ s.brk := Nat.ne_of_lt (hw.fresh cl (by simp))
  have hb1 : s.brk ∉ pre := fun hm => Nat.lt_irrefl _ (hw.fresh _ (by simp [hm]))
  have hb2 : s.brk ∉ post := fun hm => Nat.lt_irrefl _ (hw.fresh _ (by simp [hm]))
  have hpm : ∀ x, C.prev = some x → x ∈ pre := by
    intro x hx
    rw [hp] at hx
    rcases lastOr_eq_some pre none x hx with ⟨-, e⟩ | ⟨q, rfl⟩
    · exact absurd e (by simp)
    · simp
  have hheap : (f_newl s false).heap = fun x =>
      if x = cl then some { C with prev := some s.brk }
      else if x = s.brk then some { newl with next := some cl, prev := C.prev }
      else if C.prev = some x then (s.heap x).map (fun X => { X with next := some s.brk })
      else s.heap x := by
    simp only [f_newl, i_newline, hc, hset_ne _ _ hbl, hC, Bool.false_eq_true, if_false]
    funext x
    cases hcn : C.prev with
    | none =>
      by_cases hx : x = cl
      · subst hx; simp [upd, hset, hbl, hC]
      · by_cases hxb : x = s.brk
        · subst hxb; simp [upd, hset, hx, newl, hcn]
        · simp [upd, hset, hx, hxb]
    | some n =>
      have hnb : n ≠ s.brk := fun e => hb1 (e ▸ hpm n hcn)
      have hnc : n ≠ cl := fun e => n1 (e ▸ hpm n hcn)
      by_cases hx : x = cl
      · subst hx; simp [upd, hset, hbl, hC, Ne.symm hnc]
      · by_cases hxb : x = s.brk
        · subst hxb; simp [upd, hset, hx, newl, hcn, Ne.symm hnb]
        · by_cases hxn : x = n
          · subst hxn; simp [upd, hset, hx, hxb]
          · have : ¬ n = x := fun e => hxn e.symm
            simp [upd, hset, hx, hxb, hxn, this]
  have hfe : (f_newl s false).fend = s.fend := by
    simp only [f_newl, i_newline, hc, hset_ne _ _ hbl, hC, Bool.false_eq_true, if_false]
  have hfs : (f_newl s false).fstart = if C.prev = none then some s.brk else s.fstart := by
    simp only [f_newl, i_newline, hc, hset_ne _ _ hbl, hC, Bool.false_eq_true, if_false]
  have hbrk : (f_newl s false).brk = s.brk + 1 := by
    simp only [f_newl, i_newline, hc, hset_ne _ _ hbl, hC, Bool.false_eq_true, if_false]
  have hcur : (f_newl s false).cur = ⟨some s.brk, 0⟩ := by
    simp only [f_newl, i_newline, hc, hset_ne _ _ hbl, hC, Bool.false_eq_true, if_false]
  have hother : ∀ x, x ≠ cl → x ≠ s.brk → (∀ y, C.prev = some y → y ≠ x) →
      (f_newl s false).heap x = s.heap x := by
    intro x hx1 hx2 hx3
    rw [hheap]
    simp only [if_neg hx1, if_neg hx2]
    rw [if_neg (fun e => hx3 x e rfl)]
  have htail : Dll (f_newl s false).heap C.prev (some s.brk) (s.brk :: cl :: post) none := by
    rw [Dll_cons_iff]
    refine ⟨rfl, { newl with next := some cl, prev := C.prev },
      by rw [hheap]; simp [Ne.symm hbl], rfl, ?_⟩
    show Dll _ (some s.brk) (some cl) (cl :: post) none
    rw [Dll_cons_iff]
    refine ⟨rfl, { C with prev := some s.brk }, by rw [hheap]; simp, rfl, ?_⟩
    refine Dll_congr _ _ _ _ _ _ (fun a ha Y hY => ⟨Y, ?_, rfl, rfl⟩) hpost
    rw [hother a (fun e => n2 (e ▸ ha)) (fun e => hb2 (e ▸ ha))
      (fun y hy e => n5 y (hpm y hy) (e ▸ ha))]
    exact hY
  refine ⟨⟨by simp, ?_, ?_, ?_, ?_, ?_⟩, hcur⟩
  · rw [List.nodup_append, List.nodup_cons, List.nodup_cons]
    refine ⟨n3, ⟨?_, n2, n4⟩, ?_⟩
    · simp only [List.mem_cons, not_or]
      exact ⟨Ne.symm hbl, hb2⟩
    · intro x hx hx2
      rcases List.mem_cons.mp hx2 with rfl | hx2
      · exact hb1 hx
      · rcases List.mem_cons.mp hx2 with rfl | hx2
        · exact n1 hx
        · exact n5 x hx hx2
  · rw [hfs]
    rcases List.eq_nil_or_concat pre with rfl | ⟨pre', q, rfl⟩
    · have hp' : C.prev = none := hp
      rw [hp', if_pos rfl]
      rw [hp'] at htail
      exact htail
    · simp only [List.concat_eq_append] at *
      have hp' : C.prev = some q := by rw [hp, lastOr_append]
      rw [hp', if_neg (by simp), Dll_append]
      obtain ⟨m, d1, d2⟩ := (Dll_append _ _ _ _ _ _).mp hpre
      obtain ⟨e, Q, hQ, hQp, hQn⟩ := (Dll_cons_iff _ _ _ _ _ _).mp d2
      subst e
      have hQn' : Q.next = some cl := hQn
      have hq1 : q ∉ pre' := by
        have := (List.nodup_append.mp n3).2.2
        exact fun hm => this hm (List.mem_singleton_self q)
      refine ⟨some s.brk, ?_, ?_⟩
      · rw [Dll_append]
        refine ⟨some q, Dll_congr _ _ _ _ _ _ (fun a ha X hX => ⟨X, ?_, rfl, rfl⟩) d1, ?_⟩
        · rw [hother a (fun e => n1 (by simp [← e, ha]))
            (fun e => hb1 (by simp [← e, ha]))
            (fun y hy e => hq1 (by
              have : y = q := by rw [hp'] at hy; exact (Option.some.inj hy).symm
              rw [← this, e]; exact ha))]
          exact hX
        rw [Dll_cons_iff]
        refine ⟨rfl, { Q with next := some s.brk }, ?_, hQp, rfl⟩
        have hqc : q ≠ cl := fun e => n1 (by simp [e])
        have hqb : q ≠ s.brk := fun e => hb1 (by simp [e])
        rw [hheap]
        simp [hqc, hqb, hp', hQ]
      · rw [lastOr_append, ← hp']
        exact htail
  · rw [hfe, hw.last]
    simp [List.getLast?_append_cons, List.getLast?_cons_cons]
  · intro a ha
    rw [hbrk]
    simp only [List.mem_append, List.mem_cons] at ha
    rcases ha with h | rfl | rfl | h
    · exact Nat.lt_succ_of_lt (hw.fresh a (by simp [h]))
    · exact Nat.lt_succ_self _
    · exact Nat.lt_succ_of_lt (hw.fresh a (by simp))
    · exact Nat.lt_succ_of_lt (hw.fresh a (by simp [h]))
  · intro a ha X hX
    rw [hheap] at hX
    by_cases hal : a = cl
    · subst hal
      have : X = { C with prev := some s.brk } := by simpa using hX.symm
      exact this ▸ hok
    · by_cases hab : a = s.brk
      · subst hab
        have : X = { newl with next := some cl, prev := C.prev } := by
          simpa [hal] using hX.symm
        exact this ▸ newl_ok _ _
      · have ham : a ∈ pre ++ cl :: post := by
          simp only [List.mem_append, List.mem_cons] at ha ⊢
          tauto
        simp only [if_neg hal, if_neg hab, Option.mem_def] at hX
        split_ifs at hX
        · obtain ⟨Y, hY, rfl⟩ := Option.map_eq_some'.mp hX
          exact hw.ok a ham Y hY
        · exact hw.ok a ham X hX

/-! ## UTF-8 length and Line allocation -/

/-- C11 as stated fails: the lead byte 0xFE is in none of the listed ranges,
and `i_utf8len` returns 6 for it, not 1. -/
theorem i_utf8len_not_ranges :
    ¬ ∀ b : Nat, b < 256 →
      i_utf8len b =
        if 0xC0 ≤ b ∧ b ≤ 0xDF then 2
        else if 0xE0 ≤ b ∧ b ≤ 0xEF then 3
        else if 0xF0 ≤ b ∧ b ≤ 0xF7 then 4
        else if 0xF8 ≤ b ∧ b ≤ 0xFB then 5
        else if 0xFC ≤ b ∧ b ≤ 0xFD then 6
        else 1 := by
  intro h
  exact absurd (h 0xFE (by decide)) (by decide)

/-- C11 as the code has it: for every byte value `b` in 0..255, `i_utf8len`
returns 2 when `b` is in 0xC0..0xDF, 3 in 0xE0..0xEF, 4 in 0xF0..0xF7, 5 in
0xF8..0xFB, 6 in 0xFC..0xFF, and 1 for every byte below 0xC0. -/
theorem i_utf8len_ranges (b : Nat) (hb : b < 256) :
    i_utf8len b =
      if 0xC0 ≤ b ∧ b ≤ 0xDF then 2
      else if 0xE0 ≤ b ∧ b ≤ 0xEF then 3
      else if 0xF0 ≤ b ∧ b ≤ 0xF7 then 4
      else if 0xF8 ≤ b ∧ b ≤ 0xFB then 5
      else if 0xFC ≤ b ∧ b ≤ 0xFF then 6
      else 1 := by
  unfold i_utf8len
  rw [Nat.mod_eq_of_lt hb]
  split_ifs <;> first | rfl | omega

/-- C11 at a concrete input: the lead byte 0xE2 of a three-byte character. -/
theorem i_utf8len_ranges_witness :
    i_utf8len 0xE2 =
      if 0xC0 ≤ 0xE2 ∧ 0xE2 ≤ 0xDF then 2
      else if 0xE0 ≤ 0xE2 ∧ 0xE2 ≤ 0xEF then 3
      else if 0xF0 ≤ 0xE2 ∧ 0xE2 ≤ 0xF7 then 4
      else if 0xF8 ≤ 0xE2 ∧ 0xE2 ≤ 0xFB then 5
      else if 0xFC ≤ 0xE2 ∧ 0xE2 ≤ 0xFF then 6
      else 1 :=
  i_utf8len_ranges 0xE2 (by decide)

/-- C12, evaluated where the code breaks it.  `i_newline` returns a Line
whose `mul` is the hint itself, with `LINESIZE * mul` bytes, `len = 0` and
`dirty = true`, so `mul >= 1` only for a hint of at least 1.  The first Line
`i_loadfile` sets up has `mul = 0` (over a block of `LINESIZE` bytes); when
`i_insert` splits it on a separator it passes the hint 0, the new Line has
`mul = 0` and no storage, and the store `c[0] = 0` of `i_newline` lands outside
the block. -/
theorem i_newline_hint_zero :
    (∀ (s : State) (mul : Int),
      ((i_newline s mul).1.heap (i_newline s mul).2).map
        (fun L => (L.mul, L.cap, L.len, L.dirty)) = some (mul, LINESIZE * mul, 0, true)) ∧
    ((i_loadfile init []).heap 0).map (fun L => (L.mul, L.cap, L.len)) =
      some (0, LINESIZE, 0) ∧
    (i_loadfile init []).fault = false ∧
    ((i_insert (i_loadfile init []) ⟨some 0, 0⟩ [10]).1.heap 1).map
      (fun L => (L.mul, L.cap, L.len, L.dirty)) = some (0, 0, 0, true) ∧
    (i_insert (i_loadfile init []) ⟨some 0, 0⟩ [10]).1.fault = true := by
  refine ⟨fun s mul => by simp [i_newline], by decide, by decide, by decide, by decide⟩

/-! ## Invariants carried through the loop of `i_insert` -/

/-- An invariant of state and chain that the ordinary-byte branch, the
separator branch and the end of the loop of `i_insert` each keep on
well-formed buffers is kept by the whole loop. -/
theorem insertLoop_inv (I : State → List Nat → Prop)
    (hplain : ∀ (s : State) (pre post : List Nat) (l : Nat) (o : Int) (L : Line) (ch : Nat),
      WF s (pre ++ l :: post) → I s (pre ++ l :: post) → s.heap l = some L → 0 ≤ o →
      o ≤ L.len → ch ≠ 0 ∧ ch ≠ 10 ∧ ch ≠ 13 →
      I { s with heap := hset s.heap l (some (putChar L o ch).1),
                 fault := s.fault || (putChar L o ch).2 } (pre ++ l :: post))
    (hsep : ∀ (s : State) (pre post : List Nat) (l : Nat) (o : Int) (L : Line),
      WF s (pre ++ l :: post) → I s (pre ++ l :: post) → s.heap l = some L → 1 ≤ L.mul →
      0 ≤ o → o ≤ L.len → I (splitState s l o L) (pre ++ l :: s.brk :: post))
    (hend : ∀ (s : State) (ls : List Nat), I s ls → I { s with modified := true } ls)
    (self : State → Filepos → List Nat → State × Filepos) (hself : SelfOk self)
    (t : List Nat) (ht : ∀ b ∈ t, b ≠ 0) :
    ∀ (s : State) (pre post : List Nat) (l : Nat) (o : Int) (L : Line),
      WF s (pre ++ l :: post) → I s (pre ++ l :: post) → s.heap l = some L → 0 ≤ o →
      o ≤ L.len → CanSplit L t →
      ∃ ls', WF (insertLoop self s l o t).1 ls' ∧ I (insertLoop self s l o t).1 ls' := by
  induction t with
  | nil =>
    intro s pre post l o L hw hi hL h0 h1 _
    refine ⟨pre ++ l :: post, ?_, by simpa [insertLoop] using hend s _ hi⟩
    simpa [insertLoop] using (⟨hw.ne, hw.nodup, hw.chain, hw.last, hw.fresh, hw.ok⟩ :
      WF { s with modified := true } (pre ++ l :: post))
  | cons ch t ih =>
    intro s pre post l o L hw hi hL h0 h1 hcs
    have hch : ch ≠ 0 := ht ch (List.mem_cons_self _ _)
    have ht2 : ∀ b ∈ t, b ≠ 0 := fun b hb => ht b (List.mem_cons_of_mem _ hb)
    obtain ⟨L0, hL0, hok, -, -, -, hnx⟩ := hw.cursorLine
    obtain rfl : L0 = L := by rw [hL] at hL0; exact (Option.some.inj hL0).symm
    obtain ⟨n1, n2, -, -, -⟩ := nodup_split hw.nodup
    by_cases hsepc : ch = 10 ∨ ch = 13
    · have hm : 1 ≤ L0.mul := by
        rcases hcs with h | h
        · exact h
        · have := h ch rfl
          rcases hsepc with e | e
          · exact absurd e this.1
          · exact absurd e this.2
      have hbl : l ≠ s.brk := Nat.ne_of_lt (hw.fresh l (by simp))
      have hnxm : ∀ x, L0.next = some x → x ∈ post := fun x hx =>
        List.mem_of_mem_head? (hnx ▸ hx)
      have hn1 : L0.next ≠ some s.brk := fun e =>
        Nat.lt_irrefl _ (hw.fresh _ (by simp [hnxm _ e]))
      have hn2 : L0.next ≠ some l := fun e => n2 (hnxm _ e)
      have hpl : o < L0.len → Plain (cstr L0.c (L0.cap - o).toNat o) := fun ho =>
        (tail_plain L0 o hok h0 ho).2
      have step : insertLoop self s l o (ch :: t) =
          insertLoop self (splitState s l o L0) s.brk 0 t := by
        rw [insertLoop, if_neg hch]
        simp only [hL, if_pos hsepc]
        rw [splitLine_eq self hself s l o L0 hL hbl hn1 hn2 hpl]
      have hw2 : WF (splitState s l o L0) ((pre ++ [l]) ++ s.brk :: post) := by
        simpa using splitState_wf s pre post l o L0 hw hL hm h0 h1
      have hi2 : I (splitState s l o L0) ((pre ++ [l]) ++ s.brk :: post) := by
        simpa using hsep s pre post l o L0 hw hi hL hm h0 h1
      obtain ⟨-, tok, -, -, tm⟩ := tailLine_spec L0 o l hok hm h0 h1
      have hT : (splitState s l o L0).heap s.brk = some (tailLine L0 o l).1 := by
        simp [splitState, Ne.symm hbl]
      rw [step]
      exact ih ht2 _ (pre ++ [l]) post s.brk 0 (tailLine L0 o l).1 hw2 hi2 hT (le_refl _) tok.1
        (Or.inl tm)
    · have step : insertLoop self s l o (ch :: t) =
          insertLoop self { s with heap := hset s.heap l (some (putChar L0 o ch).1),
                                   fault := s.fault || (putChar L0 o ch).2 } l (o + 1) t := by
        rw [insertLoop, if_neg hch]
        simp only [hL, if_neg hsepc]
      have hc3 : ch ≠ 0 ∧ ch ≠ 10 ∧ ch ≠ 13 :=
        ⟨hch, fun e => hsepc (Or.inl e), fun e => hsepc (Or.inr e)⟩
      have hpk := putChar_ok L0 o ch hok h0 h1 hc3
      have hw2 : WF { s with heap := hset s.heap l (some (putChar L0 o ch).1),
                             fault := s.fault || (putChar L0 o ch).2 } (pre ++ l :: post) :=
        hw.hset l L0 (putChar L0 o ch).1 hL (by simp) (by simp) hpk.1 _ rfl rfl rfl (le_refl _)
      rw [step]
      exact ih ht2 _ pre post l (o + 1) (putChar L0 o ch).1 hw2
        (hplain s pre post l o L0 ch hw hi hL h0 h1 hc3) (by simp) (by omega) (by simp; omega)
        (Or.inl hpk.2)

/-- On a Line that respects the storage discipline no store of the
ordinary-byte branch leaves the block. -/
theorem putChar_nofault (L : Line) (o : Int) (ch : Nat) (hL : LineOk L) (h0 : 0 ≤ o)
    (h1 : o ≤ L.len) : (putChar L o ch).2 = false := by
  obtain ⟨-, -, hc⟩ := grow_store L hL.2.2.2
  have hl := hL.1
  simp only [putChar, outside, grow_len]
  split_ifs <;> simp <;> omega

theorem putChars_nofault (t : List Nat) (ht : Plain t) : ∀ (L : Line) (o : Int), LineOk L →
    0 ≤ o → o ≤ L.len → (putChars L o t).2 = false := by
  induction t with
  | nil => intro L o _ _ _; rfl
  | cons ch t ih =>
    intro L o hL h0 h1
    simp only [putChars, putChar_nofault L o ch hL h0 h1, Bool.false_or]
    exact ih (fun b hb => ht b (List.mem_cons_of_mem _ hb)) _ _
      (putChar_ok L o ch hL h0 h1 (ht ch (List.mem_cons_self _ _))).1 (by omega)
      (by simp; omega)

/-! ## The storage bound -/

theorem LineOk.strict {L : Line} (h : LineOk L) (hm : 1 ≤ L.mul) : Strict L := by
  rcases h.2.2.2 with h1 | h1
  · exact ⟨h1.1, h1.2.1, by have := h1.2.2; rw [h1.2.1] at this; omega⟩
  · omega

theorem tailLine_strict (L : Line) (o : Int) (l : Nat) (hL : LineOk L) (hm : 1 ≤ L.mul)
    (h0 : 0 ≤ o) :
    1 ≤ (tailLine L o l).1.mul ∧ (tailLine L o l).2 = false := by
  unfold tailLine
  by_cases ho : o < L.len
  · rw [if_pos ho]
    exact ⟨le_trans hm (putChars_mul _ (freshLine L l) 0),
      putChars_nofault _ (tail_plain L o hL h0 ho).2 _ _ (freshLine_ok L l hm) (le_refl _)
        (by simp [freshLine])⟩
  · rw [if_neg ho]
    exact ⟨hm, rfl⟩

theorem roomy_plain (s : State) (pre post : List Nat) (l : Nat) (o : Int) (L : Line) (ch : Nat)
    (hw : WF s (pre ++ l :: post)) (hi : Roomy s (pre ++ l :: post)) (hL : s.heap l = some L)
    (h0 : 0 ≤ o) (h1 : o ≤ L.len) (hc : ch ≠ 0 ∧ ch ≠ 10 ∧ ch ≠ 13) :
    Roomy { s with heap := hset s.heap l (some (putChar L o ch).1),
                   fault := s.fault || (putChar L o ch).2 } (pre ++ l :: post) := by
  have hok := hw.ok l (by simp) L hL
  refine ⟨fun a ha X hX => ?_, ?_⟩
  · by_cases hal : a = l
    · subst hal
      have : X = (putChar L o ch).1 := by simpa using hX.symm
      exact this ▸ (putChar_ok L o ch hok h0 h1 hc).2
    · exact hi.1 a ha X (by simpa [hal] using hX)
  · show (s.fault || (putChar L o ch).2) = false
    rw [hi.2, putChar_nofault L o ch hok h0 h1]
    rfl

theorem roomy_sep (s : State) (pre post : List Nat) (l : Nat) (o : Int) (L : Line)
    (hw : WF s (pre ++ l :: post)) (hi : Roomy s (pre ++ l :: post)) (hL : s.heap l = some L)
    (h0 : 0 ≤ o) (h1 : o ≤ L.len) :
    Roomy (splitState s l o L) (pre ++ l :: s.brk :: post) := by
  have hok := hw.ok l (by simp) L hL
  have hm : 1 ≤ L.mul := hi.1 l (by simp) L hL
  obtain ⟨t1, t2⟩ := tailLine_strict L o l hok hm h0
  obtain ⟨-, hcap, hlen⟩ := hok.strict hm
  refine ⟨fun a ha X hX => ?_, ?_⟩
  · by_cases hal : a = l
    · subst hal
      have : X = cutLine L o s.brk := by simpa [splitState] using hX.symm
      exact this ▸ hm
    · by_cases hab : a = s.brk
      · subst hab
        have : X = (tailLine L o l).1 := by simpa [splitState, hal] using hX.symm
        exact this ▸ t1
      · have ham : a ∈ pre ++ l :: post := by
          simp only [List.mem_append, List.mem_cons] at ha ⊢
          tauto
        simp only [splitState, if_neg hal, if_neg hab, Option.mem_def] at hX
        split_ifs at hX
        · obtain ⟨Y, hY, rfl⟩ := Option.map_eq_some'.mp hX
          exact hi.1 a ham Y hY
        · exact hi.1 a ham X hX
  · show (((s.fault || outside (LINESIZE * L.mul) 0 1) || (tailLine L o l).2) ||
      outside L.cap o 1) = false
    rw [hi.2, t2]
    simp only [outside, LINESIZE] at *
    simp
    constructor <;> omega

theorem merge_setup (s : State) (ls : List Nat) (a p : Nat) (A : Line) (hw : WF s ls)
    (ha : a ∈ ls) (hA : s.heap a = some A) (hprev : A.prev = some p) :
    ∃ P, p ∈ ls ∧ s.heap p = some P ∧ LineOk P ∧ LineOk A ∧ a ≠ p ∧ A.next ≠ some p ∧
      A.next ≠ some a ∧ (∀ x, A.next = some x → x ∈ ls) := by
  obtain ⟨pre', post, rfl⟩ := List.append_of_mem ha
  obtain ⟨A0, hA0, hokA, -, hpA, -, hnxA⟩ := hw.cursorLine
  obtain rfl : A0 = A := Option.some.inj (hA0.symm.trans hA)
  rw [hprev] at hpA
  rcases lastOr_eq_some pre' none p hpA.symm with ⟨-, e⟩ | ⟨pre, rfl⟩
  · exact absurd e (by simp)
  have hls : pre ++ [p] ++ a :: post = pre ++ p :: (a :: post) := by simp
  rw [hls] at hw ⊢
  obtain ⟨P0, hP0, hokP, -, -, -, -⟩ := hw.cursorLine
  obtain ⟨m1, m2, m3, m4, m5⟩ := nodup_split hw.nodup
  have hapost : a ∉ post := (List.nodup_cons.mp m4).1
  have hppost : p ∉ post := fun h => m2 (List.mem_cons_of_mem _ h)
  have hnxm : ∀ x, A0.next = some x → x ∈ post := fun x hx =>
    List.mem_of_mem_head? (hnxA ▸ hx)
  exact ⟨P0, by simp, hP0, hokP, hokA, fun e => m2 (by simp [e]),
    fun e => hppost (hnxm _ e), fun e => hapost (hnxm _ e),
    fun x hx => by simp [hnxm x hx]⟩

/-- C19: the storage bound is preserved.  In a well-formed buffer in which
every Line of the chain has `mul >= 1`, a block of `LINESIZE * mul` bytes and
`len + 1 <= LINESIZE * mul`, and in which no store has left a block:
after `i_insert` of a NUL-free text at a valid Position the buffer is
well-formed with every Line of its chain within the bound, and after
`i_backspace` at a valid Position every Line of the old chain that is still
live is within the bound; in both calls no store into a Line leaves the block
of `LINESIZE * mul` bytes the Line has at the moment of the store (`fault`
stays false). -/
theorem storage_bound_preserved (s : State) (ls : List Nat) (l : Nat) (o : Int) (L : Line)
    (T : List Nat) (hw : WF s ls) (hst : ∀ a ∈ ls, ∀ X ∈ s.heap a, Strict X)
    (hf : s.fault = false) (hl : l ∈ ls) (hL : s.heap l = some L) (h0 : 0 ≤ o)
    (h1 : o ≤ L.len) (hT : ∀ b ∈ T, b ≠ 0) :
    (∃ ls', WF (i_insert s ⟨some l, o⟩ T).1 ls' ∧
      (∀ a ∈ ls', ∀ X ∈ (i_insert s ⟨some l, o⟩ T).1.heap a, Strict X) ∧
      (i_insert s ⟨some l, o⟩ T).1.fault = false) ∧
    ((∀ a ∈ ls, ∀ X ∈ (i_backspace s ⟨some l, o⟩).1.heap a, Strict X) ∧
      (i_backspace s ⟨some l, o⟩).1.fault = false) := by
  have hroomy : Roomy s ls := ⟨fun a ha X hX => (hst a ha X hX).1, hf⟩
  have hok := hw.ok l hl L hL
  have hm : 1 ≤ L.mul := (hst l hl L hL).1
  constructor
  · obtain ⟨pre, post, rfl⟩ := List.append_of_mem hl
    obtain ⟨ls', w1, w2⟩ := insertLoop_inv Roomy roomy_plain
      (fun s pre post l o L hw hi hL _ h0 h1 => roomy_sep s pre post l o L hw hi hL h0 h1)
      (fun s ls h => ⟨h.1, h.2⟩) (i_insertF 1) (i_insertF_selfOk 0) T hT s pre post l o L hw
      hroomy hL h0 h1 (Or.inl hm)
    exact ⟨ls', w1, fun a ha X hX => (w1.ok a ha X hX).strict (w2.1 a ha X hX), w2.2⟩
  · by_cases ho : 0 < o
    · rw [i_backspace_inside s l o L hL ho]
      refine ⟨fun a ha X hX => ?_, ?_⟩
      · by_cases hal : a = l
        · subst hal
          have : X = delChar L o := by simpa using hX.symm
          exact this ▸ (delChar_ok L o hok ho h1).strict hm
        · exact hst a ha X (by simpa [hal] using hX)
      · show (s.fault || outside L.cap (o - 1) (L.len - o + 1)) = false
        obtain ⟨-, hcap, hlen⟩ := hok.strict hm
        rw [hf]
        simp only [outside, LINESIZE] at *
        simp
        omega
    · have ho0 : o ≤ 0 := by omega
      cases hp : L.prev with
      | none =>
        rw [i_backspace_start s l o L hL ho0 hp]
        exact ⟨hst, hf⟩
      | some p =>
        obtain ⟨P, hpl, hP, hokP, -, hap, hn1, hn2, -⟩ := merge_setup s ls l p L hw hl hL hp
        rw [i_backspace_merge_eq s l p o L P hL hP hp ho0 hap hn1 hn2]
        refine ⟨fun a ha X hX => ?_, ?_⟩
        · simp only [Option.mem_def] at hX
          by_cases hal : a = l
          · simp [hal] at hX
          · by_cases happ : a = p
            · subst happ
              simp only [if_neg hal, if_true] at hX
              have hmo := mergeLine_ok P L hokP hok
              refine (Option.some.inj hX) ▸ hmo.strict ?_
              show 1 ≤ (L.len + P.len).tdiv LINESIZE + 1
              rw [Int.tdiv_eq_ediv (by have := hokP.1; have := hok.1; omega)
                (by simp [LINESIZE])]
              have := hokP.1
              have := hok.1
              simp only [LINESIZE]
              omega
            · simp only [if_neg hal, if_neg happ] at hX
              split_ifs at hX
              · obtain ⟨Y, hY, rfl⟩ := Option.map_eq_some'.mp hX
                exact hst a ha Y hY
              · exact hst a ha X hX
        · show (s.fault ||
            outside (((L.len + P.len).tdiv LINESIZE + 1) * LINESIZE) P.len (L.len + 1)) = false
          have e1 := hokP.1
          have e2 := hok.1
          rw [hf, Int.tdiv_eq_ediv (by omega) (by simp [LINESIZE])]
          simp only [outside, LINESIZE]
          simp
          omega

/-- C19 at a concrete input: the buffer "ab", "cd", the Position
`(second Line, 2)` and the text "x\ny". -/
theorem storage_bound_preserved_witness :
    (∃ ls', WF (i_insert abcd.1 ⟨some 1, 2⟩ [120, 10, 121]).1 ls' ∧
      (∀ a ∈ ls', ∀ X ∈ (i_insert abcd.1 ⟨some 1, 2⟩ [120, 10, 121]).1.heap a, Strict X) ∧
      (i_insert abcd.1 ⟨some 1, 2⟩ [120, 10, 121]).1.fault = false) ∧
    ((∀ a ∈ [0, 1], ∀ X ∈ (i_backspace abcd.1 ⟨some 1, 2⟩).1.heap a, Strict X) ∧
      (i_backspace abcd.1 ⟨some 1, 2⟩).1.fault = false) :=
  storage_bound_preserved abcd.1 [0, 1] 1 2 ((abcd.1.heap 1).get (by decide))
    [120, 10, 121] wf_abcd (by decide) (by decide) (by simp) (Option.some_get _).symm
    (by decide) (by decide) (by decide)

/-! ## The capacity multiple -/

set_option maxRecDepth 100000 in
/-- C13 as stated fails on the merge path: in the well-formed buffer `wide`
the first Line has `mul = 2`; `i_backspace` at `(second Line, 0)` merges the
empty second Line into it and sets its `mul` to `79 / LINESIZE + 1 = 1`. -/
theorem merge_shrinks_mul :
    WF wide [0, 1] ∧
    (wide.heap 0).map (fun L => (L.len, L.mul)) = some (79, 2) ∧
    ((i_backspace wide ⟨some 1, 0⟩).1.heap 0).map (fun L => (L.len, L.mul)) = some (79, 1) ∧
    ¬ ∀ a X X', wide.heap a = some X → (i_backspace wide ⟨some 1, 0⟩).1.heap a = some X' →
      X.mul ≤ X'.mul := by
  have h1 : (wide.heap 0).map (fun L => (L.len, L.mul)) = some (79, 2) := by decide
  have h2 : ((i_backspace wide ⟨some 1, 0⟩).1.heap 0).map (fun L => (L.len, L.mul)) =
      some (79, 1) := by decide
  refine ⟨by decide, h1, h2, fun h => ?_⟩
  obtain ⟨X, hX, e1⟩ := Option.map_eq_some'.mp h1
  obtain ⟨X', hX', e2⟩ := Option.map_eq_some'.mp h2
  have := h 0 X X' hX hX'
  simp only [Prod.mk.injEq] at e1 e2
  omega

theorem grown_plain (s0 : State) (ls0 : List Nat) (s : State) (pre post : List Nat) (l : Nat)
    (o : Int) (L : Line) (ch : Nat) (_hw : WF s (pre ++ l :: post))
    (hi : Grown s0 ls0 s (pre ++ l :: post)) (hL : s.heap l = some L) (_h0 : 0 ≤ o)
    (_h1 : o ≤ L.len) (_hc : ch ≠ 0 ∧ ch ≠ 10 ∧ ch ≠ 13) :
    Grown s0 ls0 { s with heap := hset s.heap l (some (putChar L o ch).1),
                          fault := s.fault || (putChar L o ch).2 } (pre ++ l :: post) := by
  intro a ha X hX
  obtain ⟨hm, X', hX', hle⟩ := hi a ha X hX
  refine ⟨hm, ?_⟩
  by_cases hal : a = l
  · subst hal
    obtain rfl : X' = L := Option.some.inj (hX'.symm.trans hL)
    exact ⟨(putChar X' o ch).1, by simp, le_trans hle (putChar_mul _ _ _)⟩
  · exact ⟨X', by simpa [hal] using hX', hle⟩

theorem grown_sep (s0 : State) (ls0 : List Nat) (s : State) (pre post : List Nat) (l : Nat)
    (o : Int) (L : Line) (hw : WF s (pre ++ l :: post))
    (hi : Grown s0 ls0 s (pre ++ l :: post)) (hL : s.heap l = some L) (_h0 : 0 ≤ o)
    (_h1 : o ≤ L.len) :
    Grown s0 ls0 (splitState s l o L) (pre ++ l :: s.brk :: post) := by
  intro a ha X hX
  obtain ⟨hm, X', hX', hle⟩ := hi a ha X hX
  have hab : a ≠ s.brk := Nat.ne_of_lt (hw.fresh a hm)
  refine ⟨by simp only [List.mem_append, List.mem_cons] at hm ⊢; tauto, ?_⟩
  by_cases hal : a = l
  · subst hal
    obtain rfl : X' = L := Option.some.inj (hX'.symm.trans hL)
    exact ⟨cutLine X' o s.brk, by simp [splitState], hle⟩
  · simp only [splitState, if_neg hal, if_neg hab]
    split_ifs
    · exact ⟨{ X' with prev := some s.brk }, by simp [hX'], hle⟩
    · exact ⟨X', hX', hle⟩

theorem upd_map_mul (h : Nat → Option Line) (x a : Nat) (f : Line → Line)
    (hf : ∀ X, (f X).mul = X.mul) : (upd h x f a).map Line.mul = (h a).map Line.mul := by
  by_cases hx : a = x
  · subst hx
    cases e : h a <;> simp [e, hf]
  · simp [hx]

/-- The Lines that exist before `f_newl` keep their `mul`. -/
theorem f_newl_mul (s : State) (after : Bool) (a : Nat) (ha : a ≠ s.brk) :
    ((f_newl s after).heap a).map Line.mul = (s.heap a).map Line.mul := by
  unfold f_newl
  simp only [i_newline]
  cases hc : s.cur.l with
  | none => simp [ha]
  | some cl =>
    dsimp only
    cases hC : hset s.heap s.brk (some
        { c := poke (fun _ => 0) 0 0, len := 0, mul := 1, cap := LINESIZE * 1, dirty := true,
          next := none, prev := none }) cl with
    | none => simp [ha]
    | some C =>
      dsimp only
      cases after <;> simp only [Bool.false_eq_true, if_false, if_true]
      · cases C.prev <;> simp [upd_map_mul, ha]
      · cases C.next <;> simp [upd_map_mul, ha]

/-- C13 as the code has it.  In a well-formed buffer, at a valid Position
`(l, o)`: after `i_insert` of a NUL-free text that splits no Line without a
recorded block (the Line at `l` has `mul >= 1`, or the text does not begin
with a separator) every Line of the old chain is in the new chain with a
`mul` not below its old one; after `i_backspace` at an
offset above 0 and after `f_newl` (before or after the cursor Line) every
Line keeps its `mul`; `i_backspace` at the start of the first Line changes
nothing.  On the merge path of `i_backspace` (offset 0, previous Line `P` at
`p`) every Line other than `p` keeps its `mul`, and the `mul` of `p` is set
to `(combined length) / LINESIZE + 1`, which leaves room for the content and
the NUL but can be below its old value. -/
theorem mul_after_operation (s : State) (ls : List Nat) (l : Nat) (o : Int) (L : Line)
    (T : List Nat) (hw : WF s ls) (hl : l ∈ ls) (hL : s.heap l = some L) (h0 : 0 ≤ o)
    (h1 : o ≤ L.len) (hT : ∀ b ∈ T, b ≠ 0) :
    (CanSplit L T → ∃ ls', WF (i_insert s ⟨some l, o⟩ T).1 ls' ∧
      ∀ a ∈ ls, ∀ X, s.heap a = some X →
        a ∈ ls' ∧ ∃ X', (i_insert s ⟨some l, o⟩ T).1.heap a = some X' ∧ X.mul ≤ X'.mul) ∧
    (0 < o → ∀ a X, s.heap a = some X →
      ∃ X', (i_backspace s ⟨some l, o⟩).1.heap a = some X' ∧ X'.mul = X.mul) ∧
    (∀ after, ∀ a ∈ ls, ∀ X, s.heap a = some X →
      ∃ X', (f_newl s after).heap a = some X' ∧ X'.mul = X.mul) ∧
    (o = 0 → L.prev = none → (i_backspace s ⟨some l, o⟩).1 = s) ∧
    (∀ p P, o = 0 → L.prev = some p → s.heap p = some P →
      (∃ P', (i_backspace s ⟨some l, o⟩).1.heap p = some P' ∧
        P'.mul = (L.len + P.len).tdiv LINESIZE + 1 ∧ P'.len + 1 ≤ LINESIZE * P'.mul) ∧
      ∀ a ∈ ls, a ≠ p → a ≠ l → ∀ X, s.heap a = some X →
        ∃ X', (i_backspace s ⟨some l, o⟩).1.heap a = some X' ∧ X'.mul = X.mul) := by
  refine ⟨?_, ?_, ?_, ?_, ?_⟩
  · intro hcs
    obtain ⟨pre, post, rfl⟩ := List.append_of_mem hl
    have hstart : Grown s (pre ++ l :: post) s (pre ++ l :: post) :=
      fun a ha X hX => ⟨ha, X, hX, le_refl _⟩
    exact insertLoop_inv (Grown s (pre ++ l :: post)) (grown_plain s _)
      (fun s2 pre2 post2 l2 o2 L2 hw2 hi2 hL2 _ h02 h12 =>
        grown_sep s _ s2 pre2 post2 l2 o2 L2 hw2 hi2 hL2 h02 h12)
      (fun _ _ h => h) (i_insertF 1) (i_insertF_selfOk 0) T hT s pre post l o L hw hstart hL
      h0 h1 hcs
  · intro ho a X hX
    rw [i_backspace_inside s l o L hL ho]
    by_cases hal : a = l
    · subst hal
      obtain rfl : X = L := Option.some.inj (hX.symm.trans hL)
      exact ⟨delChar X o, by simp, rfl⟩
    · exact ⟨X, by simpa [hal] using hX, rfl⟩
  · intro after a ha X hX
    have hm := f_newl_mul s after a (Nat.ne_of_lt (hw.fresh a ha))
    rw [hX] at hm
    obtain ⟨X', hX', e⟩ := Option.map_eq_some'.mp hm
    exact ⟨X', hX', e⟩
  · intro ho hp
    rw [i_backspace_start s l o L hL (by omega) hp]
  · intro p P ho hp hP
    obtain ⟨P0, -, hP0, hokP, hokL, hap, hn1, hn2, -⟩ := merge_setup s ls l p L hw hl hL hp
    obtain rfl : P0 = P := Option.some.inj (hP0.symm.trans hP)
    rw [i_backspace_merge_eq s l p o L P0 hL hP hp (by omega) hap hn1 hn2]
    refine ⟨⟨mergeLine P0 L, by simp [Ne.symm hap], rfl, ?_⟩, fun a _ h1 h2 X hX => ?_⟩
    · exact ((mergeLine_ok P0 L hokP hokL).strict (by
        show 1 ≤ (L.len + P0.len).tdiv LINESIZE + 1
        have e1 := hokP.1
        have e2 := hokL.1
        rw [Int.tdiv_eq_ediv (by omega) (by simp [LINESIZE])]
        simp only [LINESIZE]
        omega)).2.2
    · simp only [if_neg h2, if_neg h1]
      split_ifs
      · exact ⟨{ X with prev := some p }, by simp [hX], rfl⟩
      · exact ⟨X, hX, rfl⟩

/-- C13 at a concrete input: the buffer "ab", "cd" at the Position
`(second Line, 0)` with the text "x\ny". -/
theorem mul_after_operation_witness :
    (∃ ls', WF (i_insert abcd.1 ⟨some 1, 0⟩ [120, 10, 121]).1 ls' ∧
      ∀ a ∈ [0, 1], ∀ X, abcd.1.heap a = some X →
        a ∈ ls' ∧ ∃ X', (i_insert abcd.1 ⟨some 1, 0⟩ [120, 10, 121]).1.heap a = some X' ∧
          X.mul ≤ X'.mul) ∧
    ((0 : Int) < 0 → ∀ a X, abcd.1.heap a = some X →
      ∃ X', (i_backspace abcd.1 ⟨some 1, 0⟩).1.heap a = some X' ∧ X'.mul = X.mul) ∧
    (∀ after, ∀ a ∈ [0, 1], ∀ X, abcd.1.heap a = some X →
      ∃ X', (f_newl abcd.1 after).heap a = some X' ∧ X'.mul = X.mul) ∧
    ((0 : Int) = 0 → ((abcd.1.heap 1).get (by decide)).prev = none →
      (i_backspace abcd.1 ⟨some 1, 0⟩).1 = abcd.1) ∧
    (∀ p P, (0 : Int) = 0 → ((abcd.1.heap 1).get (by decide)).prev = some p →
      abcd.1.heap p = some P →
      (∃ P', (i_backspace abcd.1 ⟨some 1, 0⟩).1.heap p = some P' ∧
        P'.mul = (((abcd.1.heap 1).get (by decide)).len + P.len).tdiv LINESIZE + 1 ∧
        P'.len + 1 ≤ LINESIZE * P'.mul) ∧
      ∀ a ∈ [0, 1], a ≠ p → a ≠ 1 → ∀ X, abcd.1.heap a = some X →
        ∃ X', (i_backspace abcd.1 ⟨some 1, 0⟩).1.heap a = some X' ∧ X'.mul = X.mul) :=
  have h := mul_after_operation abcd.1 [0, 1] 1 0 ((abcd.1.heap 1).get (by decide))
    [120, 10, 121] wf_abcd (by simp) (Option.some_get _).symm (by decide) (by decide)
    (by decide)
  ⟨h.1 (by decide), h.2⟩

/-! ## Evaluations at concrete buffers -/

/-- The `else` branch of `i_backspace` leaves the dirty flag of the Line as
it was. -/
theorem delChar_dirty (L : Line) (o : Int) : (delChar L o).dirty = L.dirty := rfl

/-- C14, evaluated where the code breaks it.  In the buffer `shown4` the
second Line holds "b" and is not dirty; `i_backspace` at `(second Line, 1)`
removes the byte and returns `(second Line, 0)`, the Line's length goes from
1 to 0, but its dirty flag is still false: the `else` branch lacks the
`dirty = true` that the ordinary-byte branch of `i_insert` and the merge
branch have. -/
theorem i_backspace_leaves_dirty :
    (shown4.heap 1).map (fun L => (content L, L.len, L.dirty)) = some ([98], 1, false) ∧
    (i_backspace shown4 ⟨some 1, 1⟩).2 = ⟨some 1, 0⟩ ∧
    ((i_backspace shown4 ⟨some 1, 1⟩).1.heap 1).map (fun L => (content L, L.len, L.dirty)) =
      some ([], 0, false) ∧
    (i_backspace shown4 ⟨some 1, 1⟩).1.height = 0 := by
  refine ⟨by decide, by decide, by decide, by decide⟩

theorem wordLoop_fix (step : Filepos → Filepos) (h : Nat → Option Line) (pos : Filepos)
    (a : Nat) (L : Line) (hs : step pos = pos) (hl : pos.l = some a) (hL : h a = some L)
    (hc : L.c pos.o ≠ 32) : ∀ k, wordLoop step h k pos = none := by
  intro k
  induction k with
  | zero => rfl
  | succ k ih =>
    rw [wordLoop]
    simp only [hl, hL, hs]
    rw [if_pos hc]
    exact ih

/-- C16, evaluated where the code breaks it.  In the buffer the editor starts
from (one empty Line, well-formed) the character movements leave the Position
`(first Line, 0)` where it is and the byte there is the NUL, not a space: the
loops of `m_nextword` and of `m_prevword` never stop, whatever bound is put on
their tests. -/
theorem word_movement_never_returns :
    WF (i_loadfile init []) [0] ∧
    (∀ fuel, m_nextword fuel (i_loadfile init []).heap ⟨some 0, 0⟩ = none) ∧
    (∀ fuel, m_prevword fuel (i_loadfile init []).heap ⟨some 0, 0⟩ = none) := by
  have hL : (i_loadfile init []).heap 0 =
      some (((i_loadfile init []).heap 0).get (by decide)) := (Option.some_get _).symm
  refine ⟨wf_empty, fun fuel => ?_, fun fuel => ?_⟩
  · have h1 : m_nextchar (i_loadfile init []).heap ⟨some 0, 0⟩ = ⟨some 0, 0⟩ := by decide
    simp only [m_nextword, h1]
    exact wordLoop_fix _ _ _ 0 _ h1 rfl hL (by decide) fuel
  · have h1 : m_prevchar (i_loadfile init []).heap ⟨some 0, 0⟩ = ⟨some 0, 0⟩ := by decide
    simp only [m_prevword, h1]
    exact wordLoop_fix _ _ _ 0 _ h1 rfl hL (by decide) fuel

/-- C17, evaluated where the code breaks it.  For a Line that holds one tab
and a width of 1 the inner loop of `i_drawscr` runs once (one byte is below
the width) and sends `TABSTOP` spaces, whatever `TABSTOP` is: with a tab stop
of 8 the row of `i_drawscr` has 8 columns on a terminal 1 column wide. -/
theorem row_with_tab_exceeds_width :
    (∀ TABSTOP : Int, (rowText TABSTOP 1 ((tabbed.heap 0).get (by decide))).length =
      TABSTOP.toNat) ∧
    tabbed.width = 1 ∧
    (i_drawscr 8 tabbed false 1 2).2.rows.map (fun r => (r.line, r.text.map List.length)) =
      [(0, some 8)] := by
  have hlen : ((tabbed.heap 0).get (by decide)).len = 1 := by decide
  have hc : ((tabbed.heap 0).get (by decide)).c 0 = 9 := by decide
  refine ⟨fun T => ?_, rfl, by decide⟩
  unfold rowText
  rw [hlen]
  simp [List.range_succ, hc]

/-- C20, evaluated where the code breaks it.  In the well-formed four-Line
buffer `above4` the cursor Line is the first Line and lies above the screen;
with a terminal height of 4 the recentring walk is allowed one step up but
stops at once at the first Line of the buffer, `sstart` becomes that Line, the
window is the Lines 0, 1, 2 and the cursor Line is its first row; the row
`i_draw` passes to `i_drawscr` is `nh / 2 = 2`. -/
theorem i_draw_row_after_early_stop :
    WF above4 [0, 1, 2, 3] ∧ above4.cur.l = some 0 ∧
    ((i_draw 8 4 above4 4 80).state).map State.sstart = some (some 0) ∧
    ((i_draw 8 4 above4 4 80).frame).map (fun f => f.rows.map Row.line) = some [0, 1, 2] ∧
    ((i_draw 8 4 above4 4 80).frame).map Frame.crow = some 2 := by
  refine ⟨by decide, rfl, by decide, by decide, by decide⟩

/-! ## Dirty tracking of a partial draw -/

theorem drawRows_partial (TABSTOP : Int) (cur : Option Nat) (width : Int) (xs : List Nat) :
    ∀ (k : Nat) (h : Nat → Option Line) (p f : Option Nat), Dll h p f xs none → xs.Nodup →
      (∀ r ∈ (drawRows TABSTOP cur false width k h f).2, ∃ L, h r.line = some L ∧
        r.text = if L.dirty = true ∨ cur = some r.line
          then some (rowText TABSTOP width L) else none) ∧
      (∀ a ∈ xs.take k, ∃ L, h a = some L ∧
        (drawRows TABSTOP cur false width k h f).1 a =
          some { L with dirty := decide (cur = some a) }) ∧
      (∀ a, a ∉ xs.take k → (drawRows TABSTOP cur false width k h f).1 a = h a) := by
  induction xs with
  | nil =>
    intro k h p f hd _
    have hf : f = none := hd
    subst hf
    cases k <;> simp [drawRows]
  | cons a t ih =>
    intro k h p f hd hnd
    obtain ⟨hf, L, hL, -, hr⟩ := (Dll_cons_iff _ _ _ _ _ _).mp hd
    subst hf
    have hat : a ∉ t := (List.nodup_cons.mp hnd).1
    have htn : t.Nodup := (List.nodup_cons.mp hnd).2
    cases k with
    | zero => simp [drawRows]
    | succ k =>
      have hatk : a ∉ t.take k := fun hm => hat (List.mem_of_mem_take hm)
      have key : ∀ g : Line → Line, (∀ X, (g X).prev = X.prev ∧ (g X).next = X.next) →
          (∀ r ∈ (drawRows TABSTOP cur false width k (upd h a g) L.next).2,
            ∃ M, h r.line = some M ∧
              r.text = if M.dirty = true ∨ cur = some r.line
                then some (rowText TABSTOP width M) else none) ∧
          (∀ b ∈ t.take k, ∃ M, h b = some M ∧
            (drawRows TABSTOP cur false width k (upd h a g) L.next).1 b =
              some { M with dirty := decide (cur = some b) }) ∧
          (drawRows TABSTOP cur false width k (upd h a g) L.next).1 a = some (g L) ∧
          (∀ b, b ≠ a → b ∉ t.take k →
            (drawRows TABSTOP cur false width k (upd h a g) L.next).1 b = h b) := by
        intro g hg
        have hd2 : Dll (upd h a g) (some a) L.next t none := by
          refine Dll_congr _ _ _ _ _ _ (fun b _ X hX => ?_) hr
          by_cases hb : b = a
          · subst hb
            exact ⟨g X, by simp [hX], (hg X).1, (hg X).2⟩
          · exact ⟨X, by simp [hb, hX], rfl, rfl⟩
        obtain ⟨i1, i2, i3⟩ := ih k (upd h a g) (some a) L.next hd2 htn
        have hlines := drawRows_lines TABSTOP cur false width t k _ _ _ hd2
        refine ⟨fun r hr => ?_, fun b hb => ?_, ?_, fun b hba hb => ?_⟩
        · obtain ⟨M, hM, hMt⟩ := i1 r hr
          have hrl : r.line ∈ t.take k := by
            rw [← hlines]
            exact List.mem_map_of_mem _ hr
          have hne : r.line ≠ a := fun e => hatk (e ▸ hrl)
          rw [upd_ne _ _ hne] at hM
          exact ⟨M, hM, hMt⟩
        · obtain ⟨M, hM, hMt⟩ := i2 b hb
          have hne : b ≠ a := fun e => hatk (e ▸ hb)
          rw [upd_ne _ _ hne] at hM
          exact ⟨M, hM, hMt⟩
        · rw [i3 a hatk, upd_same, hL]
          rfl
        · rw [i3 b hb, upd_ne _ _ hba]
      simp only [drawRows, hL]
      split_ifs with h1 h2
      · obtain ⟨k1, k2, k3, k4⟩ := key (fun X => { X with dirty := true }) (fun X => ⟨rfl, rfl⟩)
        refine ⟨fun r hr => ?_, fun b hb => ?_, fun b hb => ?_⟩
        · rcases List.mem_cons.mp hr with rfl | hr
          · exact ⟨L, hL, by simp [h1.symm]⟩
          · exact k1 r hr
        · rw [List.take_succ_cons] at hb
          rcases List.mem_cons.mp hb with rfl | hb
          · exact ⟨L, hL, by rw [k3]; simp [h1.symm]⟩
          · exact k2 b hb
        · rw [List.take_succ_cons, List.mem_cons, not_or] at hb
          exact k4 b hb.1 hb.2
      · obtain ⟨k1, k2, k3, k4⟩ := key (fun X => { X with dirty := false }) (fun X => ⟨rfl, rfl⟩)
        have hc : ¬ cur = some a := fun e => h1 e.symm
        have hdirty : L.dirty = true := by simpa using h2
        refine ⟨fun r hr => ?_, fun b hb => ?_, fun b hb => ?_⟩
        · rcases List.mem_cons.mp hr with rfl | hr
          · exact ⟨L, hL, by simp [hdirty]⟩
          · exact k1 r hr
        · rw [List.take_succ_cons] at hb
          rcases List.mem_cons.mp hb with rfl | hb
          · exact ⟨L, hL, by rw [k3]; simp [hc]⟩
          · exact k2 b hb
        · rw [List.take_succ_cons, List.mem_cons, not_or] at hb
          exact k4 b hb.1 hb.2
      · obtain ⟨i1, i2, i3⟩ := ih k h (some a) L.next hr htn
        have hc : ¬ cur = some a := fun e => h1 e.symm
        have hdirty : L.dirty = false := by simpa using h2
        refine ⟨fun r hr => ?_, fun b hb => ?_, fun b hb => ?_⟩
        · rcases List.mem_cons.mp hr with rfl | hr
          · exact ⟨L, hL, by simp [hdirty, hc]⟩
          · exact i1 r hr
        · rw [List.take_succ_cons] at hb
          rcases List.mem_cons.mp hb with rfl | hb
          · refine ⟨L, hL, ?_⟩
            rw [i3 b hatk, hL]
            cases L
            simp_all
          · exact i2 b hb
        · rw [List.take_succ_cons, List.mem_cons, not_or] at hb
          exact i3 b hb.2

/-- A draw that is not a full redraw has the cursor Line on the screen: with
a terminal height below 2 the first search of `i_draw` looks at no Line, and
every other call of `i_drawscr` has `sdirty` set. -/
theorem i_draw_short_terminal (TABSTOP : Int) (fuel : Nat) (s s' : State) (f : Frame)
    (nh nw : Int) (hnh : nh < 2) (hd : i_draw TABSTOP fuel s nh nw = .drew s' f) :
    f.sdirty = true := by
  have hk : (nh - 1).toNat = 0 := by omega
  unfold i_draw at hd
  cases hf : s.fstart with
  | none => simp [hf] at hd
  | some a =>
    simp only [hf, hk, scanOn] at hd
    have hcen : ∀ s2 : State, drawCentred TABSTOP s2 nh = .drew s' f → f.sdirty = true := by
      intro s2 h2
      unfold drawCentred at h2
      cases hc : s2.cur.l with
      | none => simp [hc] at h2
      | some c =>
        simp only [hc, Drawn.drew.injEq] at h2
        rw [← h2.2]
        rfl
    split at hd
    · cases hd
    · exact hcen _ hd
    · split at hd
      · cases hd
      · exact hcen _ hd
      · cases hd

/-- C18: in a call of `i_drawscr` with `sdirty = false` on a well-formed
buffer whose `sstart` is the head of a suffix `win` of the chain, the rows are
those of the window (the first `height - 1` Lines of `win`); the row of a
windowed Line is rewritten, with the bytes of the Line, exactly when the Line
is dirty or is the cursor Line; after the call a windowed Line is as before
but for its dirty flag, which is true for the cursor Line and false for every
other Line; every Line outside the window is unchanged. -/
theorem i_drawscr_dirty_tracking (TABSTOP : Int) (s : State) (ls xs win : List Nat)
    (crow ccol : Int) (hw : WF s ls) (hls : ls = xs ++ win) (hs : s.sstart = win.head?) :
    (i_drawscr TABSTOP s false crow ccol).2.rows.map Row.line =
      win.take (s.height - 1).toNat ∧
    (∀ r ∈ (i_drawscr TABSTOP s false crow ccol).2.rows, ∃ L, s.heap r.line = some L ∧
      r.text = if L.dirty = true ∨ s.cur.l = some r.line
        then some (rowText TABSTOP s.width L) else none) ∧
    (∀ a ∈ win.take (s.height - 1).toNat, ∃ L, s.heap a = some L ∧
      (i_drawscr TABSTOP s false crow ccol).1.heap a =
        some { L with dirty := decide (s.cur.l = some a) }) ∧
    (∀ a, a ∉ win.take (s.height - 1).toNat →
      (i_drawscr TABSTOP s false crow ccol).1.heap a = s.heap a) := by
  have hd : Dll s.heap (lastOr none xs) s.sstart win none := by
    rw [hs]
    exact Dll_suffix _ _ _ _ _ (hls ▸ hw.chain)
  have hnd : win.Nodup := by
    have := hw.nodup
    rw [hls] at this
    exact (List.nodup_append.mp this).2.1
  obtain ⟨h1, h2, h3⟩ :=
    drawRows_partial TABSTOP s.cur.l s.width win (s.height - 1).toNat s.heap _ _ hd hnd
  exact ⟨drawRows_lines _ _ _ _ win _ _ _ _ hd, h1, h2, h3⟩

/-- C18 at a concrete input: the four-Line buffer after a first draw, the
cursor moved from the fourth to the second Line. -/
theorem i_drawscr_dirty_tracking_witness :
    (i_drawscr 8 moved4 false 2 1).2.rows.map Row.line =
      [0, 1, 2, 3].take (moved4.height - 1).toNat ∧
    (∀ r ∈ (i_drawscr 8 moved4 false 2 1).2.rows, ∃ L, moved4.heap r.line = some L ∧
      r.text = if L.dirty = true ∨ moved4.cur.l = some r.line
        then some (rowText 8 moved4.width L) else none) ∧
    (∀ a ∈ [0, 1, 2, 3].take (moved4.height - 1).toNat, ∃ L, moved4.heap a = some L ∧
      (i_drawscr 8 moved4 false 2 1).1.heap a =
        some { L with dirty := decide (moved4.cur.l = some a) }) ∧
    (∀ a, a ∉ [0, 1, 2, 3].take (moved4.height - 1).toNat →
      (i_drawscr 8 moved4 false 2 1).1.heap a = moved4.heap a) :=
  i_drawscr_dirty_tracking 8 moved4 [0, 1, 2, 3] [] [0, 1, 2, 3] 2 1 (by decide) rfl
    (by decide)

/-! ## Movement keeps Positions valid -/

theorem Valid.intro {h : Nat → Option Line} {ls : List Nat} {b : Nat} {B : Line} {o : Int}
    (hb : b ∈ ls) (hB : h b = some B) (h0 : 0 ≤ o) (h1 : o ≤ B.len) :
    Valid h ls ⟨some b, o⟩ :=
  ⟨b, rfl, hb, B, hB, h0, h1⟩

theorem WF.live {s : State} {ls : List Nat} (hw : WF s ls) {a : Nat} (ha : a ∈ ls) :
    ∃ L, s.heap a = some L ∧ 0 ≤ L.len := by
  obtain ⟨L, hL⟩ := Dll_live _ _ _ _ _ hw.chain a ha
  exact ⟨L, hL, (hw.ok a ha L hL).1⟩

theorem WF.next_mem {s : State} {ls : List Nat} (hw : WF s ls) {a n : Nat} {L : Line}
    (ha : a ∈ ls) (hL : s.heap a = some L) (hn : L.next = some n) : n ∈ ls := by
  obtain ⟨pre, post, rfl⟩ := List.append_of_mem ha
  obtain ⟨M, hM, -, -, -, -, hnx⟩ := hw.cursorLine
  rw [hL] at hM
  obtain rfl := Option.some.inj hM
  rw [hn] at hnx
  cases post with
  | nil => simp at hnx
  | cons b t =>
    simp only [List.head?_cons, Option.some.injEq] at hnx
    simp [hnx]

theorem WF.prev_mem {s : State} {ls : List Nat} (hw : WF s ls) {a p : Nat} {L : Line}
    (ha : a ∈ ls) (hL : s.heap a = some L) (hp : L.prev = some p) : p ∈ ls := by
  obtain ⟨pre, post, rfl⟩ := List.append_of_mem ha
  obtain ⟨M, hM, -, -, hpr, -, -⟩ := hw.cursorLine
  rw [hL] at hM
  obtain rfl := Option.some.inj hM
  rw [hp] at hpr
  rcases lastOr_eq_some pre none p hpr.symm with ⟨-, h⟩ | ⟨pre2, rfl⟩
  · cases h
  · simp

theorem WF.stepsNext_mem {s : State} {ls : List Nat} (hw : WF s ls) :
    ∀ (k a : Nat), a ∈ ls → stepsNext s.heap k a ∈ ls := by
  intro k
  induction k with
  | zero => intro a ha; exact ha
  | succ k ih =>
    intro a ha
    obtain ⟨L, hL, -⟩ := hw.live ha
    simp only [stepsNext, hL]
    cases hn : L.next with
    | none => exact ha
    | some n => exact ih n (hw.next_mem ha hL hn)

theorem WF.stepsPrev_mem {s : State} {ls : List Nat} (hw : WF s ls) :
    ∀ (k a : Nat), a ∈ ls → stepsPrev s.heap k a ∈ ls := by
  intro k
  induction k with
  | zero => intro a ha; exact ha
  | succ k ih =>
    intro a ha
    obtain ⟨L, hL, -⟩ := hw.live ha
    simp only [stepsPrev, hL]
    cases hn : L.prev with
    | none => exact ha
    | some n => exact ih n (hw.prev_mem ha hL hn)

theorem WF.fstart_mem {s : State} {ls : List Nat} (hw : WF s ls) :
    ∃ f ∈ ls, s.fstart = some f := by
  obtain ⟨f0, rest0, hls0⟩ := List.exists_cons_of_ne_nil hw.ne
  have := Dll_head _ _ _ _ _ hw.chain
  exact ⟨f0, by simp [hls0], by simpa [hls0] using this⟩

theorem WF.fend_mem {s : State} {ls : List Nat} (hw : WF s ls) :
    ∃ e ∈ ls, s.fend = some e := by
  refine ⟨ls.getLast hw.ne, List.getLast_mem hw.ne, ?_⟩
  rw [hw.last, List.getLast?_eq_getLast _ hw.ne]

theorem clamp_valid {s : State} {ls : List Nat} (hw : WF s ls) {b : Nat} (hb : b ∈ ls)
    (o : Int) (h0 : 0 ≤ o) :
    Valid s.heap ls
      (match s.heap b with
       | none => ⟨some b, o⟩
       | some B => ⟨some b, if o > B.len then B.len else o⟩) := by
  obtain ⟨B, hB, hB0⟩ := hw.live hb
  simp only [hB]
  refine Valid.intro hb hB ?_ ?_ <;> split_ifs <;> omega

/-- C15: in a well-formed buffer, whatever the cached height, each of the ten
movement functions maps a valid Position (Line in the chain, offset between 0
and the length of the Line) to a valid Position, and maps a Position without
a Line to itself. -/
theorem movement_keeps_valid (s : State) (ls : List Nat) (pos : Filepos) (hw : WF s ls)
    (hv : Valid s.heap ls pos) :
    (Valid s.heap ls (m_prevchar s.heap pos) ∧ Valid s.heap ls (m_nextchar s.heap pos) ∧
     Valid s.heap ls (m_prevline s.heap pos) ∧ Valid s.heap ls (m_nextline s.heap pos) ∧
     Valid s.heap ls (m_startofline pos) ∧ Valid s.heap ls (m_endofline s.heap pos) ∧
     Valid s.heap ls (m_startoffile s pos) ∧ Valid s.heap ls (m_endoffile s pos) ∧
     Valid s.heap ls (m_prevscreen s pos) ∧ Valid s.heap ls (m_nextscreen s pos)) ∧
    ∀ o : Int,
      m_prevchar s.heap ⟨none, o⟩ = ⟨none, o⟩ ∧ m_nextchar s.heap ⟨none, o⟩ = ⟨none, o⟩ ∧
      m_prevline s.heap ⟨none, o⟩ = ⟨none, o⟩ ∧ m_nextline s.heap ⟨none, o⟩ = ⟨none, o⟩ ∧
      m_startofline ⟨none, o⟩ = ⟨none, o⟩ ∧ m_endofline s.heap ⟨none, o⟩ = ⟨none, o⟩ ∧
      m_startoffile s ⟨none, o⟩ = ⟨none, o⟩ ∧ m_endoffile s ⟨none, o⟩ = ⟨none, o⟩ ∧
      m_prevscreen s ⟨none, o⟩ = ⟨none, o⟩ ∧ m_nextscreen s ⟨none, o⟩ = ⟨none, o⟩ := by
  refine ⟨?_, fun o => ⟨rfl, rfl, rfl, rfl, rfl, rfl, rfl, rfl, rfl, rfl⟩⟩
  obtain ⟨l, o⟩ := pos
  obtain ⟨a, hl, ha, L, hL, h0, h1⟩ := hv
  obtain rfl : l = some a := hl
  have hL : s.heap a = some L := hL
  dsimp only at h0 h1
  refine ⟨?_, ?_, ?_, ?_, ?_, ?_, ?_, ?_, ?_, ?_⟩
  · simp only [m_prevchar, hL]
    split_ifs with hlt
    · cases hp : L.prev with
      | none => exact Valid.intro ha hL (le_refl _) (by omega)
      | some p =>
        have hpm := hw.prev_mem ha hL hp
        obtain ⟨P, hP, hP0⟩ := hw.live hpm
        simp only [hP]
        exact Valid.intro hpm hP hP0 (le_refl _)
    · exact Valid.intro ha hL (by omega) (by omega)
  · simp only [m_nextchar, hL]
    split_ifs with hgt
    · cases hn : L.next with
      | none => exact Valid.intro ha hL (by omega) (le_refl _)
      | some n =>
        have hnm := hw.next_mem ha hL hn
        obtain ⟨N, hN, hN0⟩ := hw.live hnm
        exact Valid.intro hnm hN (le_refl _) hN0
    · exact Valid.intro ha hL (by omega) (by omega)
  · simp only [m_prevline, hL]
    cases hp : L.prev with
    | none => exact Valid.intro ha hL h0 h1
    | some p => exact clamp_valid hw (hw.prev_mem ha hL hp) o h0
  · simp only [m_nextline, hL]
    cases hn : L.next with
    | none => exact Valid.intro ha hL h0 h1
    | some n => exact clamp_valid hw (hw.next_mem ha hL hn) o h0
  · exact Valid.intro ha hL (le_refl _) (by omega)
  · simp only [m_endofline, hL]
    exact Valid.intro ha hL (by omega) (le_refl _)
  · obtain ⟨f, hf, hfs⟩ := hw.fstart_mem
    obtain ⟨F, hF, hF0⟩ := hw.live hf
    simp only [m_startoffile, hfs]
    exact Valid.intro hf hF (le_refl _) hF0
  · obtain ⟨e, he, hes⟩ := hw.fend_mem
    obtain ⟨E, hE, hE0⟩ := hw.live he
    simp only [m_endoffile, hes, hE]
    exact Valid.intro he hE hE0 (le_refl _)
  · exact clamp_valid hw (hw.stepsPrev_mem _ a ha) o h0
  · exact clamp_valid hw (hw.stepsNext_mem _ a ha) o h0

/-- C15 at a concrete input: the four-Line buffer, the Position at the end of
its second Line. -/
theorem movement_keeps_valid_witness :
    (Valid lines4.heap [0, 1, 2, 3] (m_prevchar lines4.heap ⟨some 1, 1⟩) ∧
     Valid lines4.heap [0, 1, 2, 3] (m_nextchar lines4.heap ⟨some 1, 1⟩) ∧
     Valid lines4.heap [0, 1, 2, 3] (m_prevline lines4.heap ⟨some 1, 1⟩) ∧
     Valid lines4.heap [0, 1, 2, 3] (m_nextline lines4.heap ⟨some 1, 1⟩) ∧
     Valid lines4.heap [0, 1, 2, 3] (m_startofline ⟨some 1, 1⟩) ∧
     Valid lines4.heap [0, 1, 2, 3] (m_endofline lines4.heap ⟨some 1, 1⟩) ∧
     Valid lines4.heap [0, 1, 2, 3] (m_startoffile lines4 ⟨some 1, 1⟩) ∧
     Valid lines4.heap [0, 1, 2, 3] (m_endoffile lines4 ⟨some 1, 1⟩) ∧
     Valid lines4.heap [0, 1, 2, 3] (m_prevscreen lines4 ⟨some 1, 1⟩) ∧
     Valid lines4.heap [0, 1, 2, 3] (m_nextscreen lines4 ⟨some 1, 1⟩)) ∧
    ∀ o : Int,
      m_prevchar lines4.heap ⟨none, o⟩ = ⟨none, o⟩ ∧
      m_nextchar lines4.heap ⟨none, o⟩ = ⟨none, o⟩ ∧
      m_prevline lines4.heap ⟨none, o⟩ = ⟨none, o⟩ ∧
      m_nextline lines4.heap ⟨none, o⟩ = ⟨none, o⟩ ∧
      m_startofline ⟨none, o⟩ = ⟨none, o⟩ ∧ m_endofline lines4.heap ⟨none, o⟩ = ⟨none, o⟩ ∧
      m_startoffile lines4 ⟨none, o⟩ = ⟨none, o⟩ ∧
      m_endoffile lines4 ⟨none, o⟩ = ⟨none, o⟩ ∧
      m_prevscreen lines4 ⟨none, o⟩ = ⟨none, o⟩ ∧
      m_nextscreen lines4 ⟨none, o⟩ = ⟨none, o⟩ :=
  movement_keeps_valid lines4 [0, 1, 2, 3] ⟨some 1, 1⟩ (by decide) (by decide)

/-- The `else` branch of `i_backspace` on any Line: at a Position `(l, o)`
with `0 < o <= len` the call returns `(l, o - 1)`, removes the byte at index
`o - 1` of the Line, decrements its length, sets the cached height to 0, and
leaves the dirty flag of the Line as it was: it never assigns it. -/
theorem i_backspace_inside_effect (s : State) (l : Nat) (o : Int) (L : Line)
    (hL : s.heap l = some L) (h0 : 0 < o) (h1 : o ≤ L.len) :
    (i_backspace s ⟨some l, o⟩).2 = ⟨some l, o - 1⟩ ∧
    (i_backspace s ⟨some l, o⟩).1.height = 0 ∧
    ∃ M, (i_backspace s ⟨some l, o⟩).1.heap l = some M ∧
      content M = (content L).eraseIdx (o - 1).toNat ∧
      M.len = L.len - 1 ∧ M.dirty = L.dirty := by
  rw [i_backspace_inside s l o L hL h0]
  refine ⟨rfl, rfl, delChar L o, by simp, ?_, rfl, rfl⟩
  rw [delChar_content L o h0 h1, List.eraseIdx_eq_take_drop_succ]
  have e : o.toNat = (o - 1).toNat + 1 := by omega
  rw [e]

/-- The `else` branch of `i_backspace` on the second Line of the buffer
`shown4`, which is not dirty. -/
theorem i_backspace_inside_effect_witness :
    (i_backspace shown4 ⟨some 1, 1⟩).2 = ⟨some 1, 1 - 1⟩ ∧
    (i_backspace shown4 ⟨some 1, 1⟩).1.height = 0 ∧
    ∃ M, (i_backspace shown4 ⟨some 1, 1⟩).1.heap 1 = some M ∧
      content M = (content ((shown4.heap 1).get (by decide))).eraseIdx ((1 : Int) - 1).toNat ∧
      M.len = ((shown4.heap 1).get (by decide)).len - 1 ∧
      M.dirty = ((shown4.heap 1).get (by decide)).dirty :=
  i_backspace_inside_effect shown4 1 1 ((shown4.heap 1).get (by decide))
    (Option.some_get _).symm (by decide) (by decide)

/-! ## The cached height after a change of the number of Lines -/

theorem insertLoop_height_zero (self : State → Filepos → List Nat → State × Filepos)
    (t : List Nat) :
    ∀ (s : State) (l : Nat) (o : Int), s.height = 0 →
      (insertLoop self s l o t).1.height = 0 := by
  induction t with
  | nil => intro s l o h; simpa [insertLoop] using h
  | cons ch t ih =>
    intro s l o h
    rw [insertLoop]
    by_cases h0 : ch = 0
    · rw [if_pos h0]
      exact h
    · rw [if_neg h0]
      cases hL : s.heap l with
      | none => exact h
      | some L =>
        dsimp only
        by_cases hsep : ch = 10 ∨ ch = 13
        · rw [if_pos hsep]
          exact ih _ _ _ rfl
        · rw [if_neg hsep]
          exact ih _ _ _ h

/-- The separator branch of `i_insert`: when the text (up to its NUL) holds
a `\n` or `\r` and the Line of the Position is live, the cached height is 0
after the call. -/
theorem i_insert_sep_height (T : List Nat) (hT : ∀ b ∈ T, b ≠ 0)
    (hs : ∃ b ∈ T, b = 10 ∨ b = 13) :
    ∀ (s : State) (l : Nat) (o : Int) (L : Line), s.heap l = some L →
      (i_insert s ⟨some l, o⟩ T).1.height = 0 := by
  have key : ∀ (t : List Nat), (∀ b ∈ t, b ≠ 0) → (∃ b ∈ t, b = 10 ∨ b = 13) →
      ∀ (s : State) (l : Nat) (o : Int) (L : Line), s.heap l = some L →
        (insertLoop (i_insertF 1) s l o t).1.height = 0 := by
    intro t
    induction t with
    | nil => intro _ hs; simp at hs
    | cons ch t ih =>
      intro ht hs s l o L hL
      have hch : ch ≠ 0 := ht ch (List.mem_cons_self _ _)
      rw [insertLoop, if_neg hch]
      simp only [hL]
      split_ifs with hsep
      · exact insertLoop_height_zero _ t _ _ _ rfl
      · obtain ⟨b, hb, hbs⟩ := hs
        rcases List.mem_cons.mp hb with rfl | hbt
        · exact absurd hbs hsep
        · exact ih (fun x hx => ht x (List.mem_cons_of_mem _ hx)) ⟨b, hbt, hbs⟩ _ l _
            (putChar L o ch).1 (by simp)
  intro s l o L hL
  exact key T hT hs s l o L hL

/-- The merge path of `i_backspace` leaves the cached height at 0. -/
theorem i_backspace_merge_height (s : State) (a p : Nat) (o : Int) (A P : Line)
    (hA : s.heap a = some A) (hprev : A.prev = some p) (hP : s.heap p = some P)
    (ho : o ≤ 0) : (i_backspace s ⟨some a, o⟩).1.height = 0 := by
  simp only [i_backspace, hA, if_pos ho, hprev, hP]

/-- C21, evaluated where the code breaks it.  Function `f_newl` never assigns
the cached height: it is the same after the call as before, in every state.
In the well-formed buffer `top4` (four Lines "a" to "d" drawn on a terminal of
height 24, cursor on the first Line) `f_newl` with `arg->i = 1` adds a fifth
Line after the first and the cached height is still 24; the next `i_draw` on
the same terminal runs with `sdirty = false` and rewrites only the rows of
the first Line and of the new Line: the rows of the Lines "b", "c", "d",
which have moved down by one, are not rewritten. -/
theorem f_newl_keeps_height :
    (∀ (s : State) (after : Bool), (f_newl s after).height = s.height) ∧
    WF top4 [0, 1, 2, 3] ∧ top4.height = 24 ∧ top4.width = 80 ∧
    WF (f_newl top4 true) [0, 4, 1, 2, 3] ∧ (f_newl top4 true).height = 24 ∧
    ((i_draw 8 5 (f_newl top4 true) 24 80).frame).map
        (fun f => (f.sdirty, f.rows.map (fun r => (r.line, r.text)))) =
      some (false, [(0, some [97]), (4, some []), (1, none), (2, none), (3, none)]) := by
  refine ⟨fun s after => ?_, by decide, by decide, by decide, by decide, by decide,
    by decide⟩
  unfold f_newl
  simp only [i_newline]
  cases s.cur.l with
  | none => rfl
  | some cl =>
    dsimp only
    split
    · rfl
    · split <;> rfl

/-! ## Insertion and the block of the Line that is split -/

/-- Where no Line without a recorded block is split, no store of `i_insert`
leaves a block: on a well-formed buffer in which no store has left a block,
`i_insert` of a NUL-free text at a valid Position whose Line has `mul >= 1`,
or of a NUL-free text that does not begin with a separator, ends with `fault`
still false. -/
theorem i_insert_nofault (s : State) (ls : List Nat) (l : Nat) (o : Int) (L : Line)
    (T : List Nat) (hw : WF s ls) (hf : s.fault = false) (hl : l ∈ ls)
    (hL : s.heap l = some L) (h0 : 0 ≤ o) (h1 : o ≤ L.len) (hT : ∀ b ∈ T, b ≠ 0)
    (hcs : CanSplit L T) : (i_insert s ⟨some l, o⟩ T).1.fault = false := by
  obtain ⟨pre, post, rfl⟩ := List.append_of_mem hl
  obtain ⟨ls', -, w2⟩ := insertLoop_inv (fun s _ => s.fault = false)
    (fun s pre post l o L ch hw hi hL h0 h1 _ => by
      show (s.fault || (putChar L o ch).2) = false
      rw [hi, putChar_nofault L o ch (hw.ok l (by simp) L hL) h0 h1]
      rfl)
    (fun s pre post l o L hw hi hL hm h0 h1 => by
      have hok := hw.ok l (by simp) L hL
      obtain ⟨-, t2⟩ := tailLine_strict L o l hok hm h0
      obtain ⟨-, hcap, hlen⟩ := hok.strict hm
      show (((s.fault || outside (LINESIZE * L.mul) 0 1) || (tailLine L o l).2) ||
        outside L.cap o 1) = false
      rw [hi, t2]
      simp only [outside, LINESIZE] at *
      simp
      constructor <;> omega)
    (fun _ _ h => h) (i_insertF 1) (i_insertF_selfOk 0) T hT s pre post l o L hw hf hL h0 h1 hcs
  exact w2

/-- C1, evaluated where the code breaks it.  The buffer the editor starts
from is well-formed, `(first Line, 0)` is a valid Position on it and no store
has left a block; its one Line has `mul = 0` recorded over a block of
`LINESIZE` bytes.  Function `i_insert` of the text "\n" there splits that Line
through `i_newline(0)`: the new Line has `mul = 0` and a block of 0 bytes, the
store `c[0] = 0` of `i_newline` lands outside that block (`fault` is true
after the call), and the buffer the call leaves is not well-formed. -/
theorem i_insert_separator_on_fresh_buffer :
    WF (i_loadfile init []) [0] ∧ Valid (i_loadfile init []).heap [0] ⟨some 0, 0⟩ ∧
    (i_loadfile init []).fault = false ∧
    ((i_loadfile init []).heap 0).map (fun L => (L.mul, L.cap)) = some (0, 80) ∧
    (i_insert (i_loadfile init []) ⟨some 0, 0⟩ [10]).1.fault = true ∧
    ((i_insert (i_loadfile init []) ⟨some 0, 0⟩ [10]).1.heap 1).map
      (fun L => (L.mul, L.cap)) = some (0, 0) ∧
    ¬ WF (i_insert (i_loadfile init []) ⟨some 0, 0⟩ [10]).1 [0, 1] := by
  refine ⟨by decide, by decide, by decide, by decide, by decide, by decide, by decide⟩

/-- C2, evaluated where the code breaks it.  Loading a file that begins with
an empty line ("\na"), and the text "\ra" typed into the buffer the editor
starts from: the one separator of the text splits the first Line, which has
`mul = 0` recorded, through `i_newline(0)`, and the store `c[0] = 0` into the
new Line lands outside its block of 0 bytes (`fault` is true after the call):
the second Line of the chain is reached only through that store. -/
theorem i_insert_line_count_on_fresh_buffer :
    WF (i_loadfile init []) [0] ∧ (i_loadfile init []).fault = false ∧
    sepCount [10, 97] = 1 ∧ sepCount [13, 97] = 1 ∧
    (i_loadfile init [[10, 97]]).fault = true ∧
    (i_insert (i_loadfile init []) ⟨some 0, 0⟩ [13, 97]).1.fault = true := by
  refine ⟨by decide, by decide, by decide, by decide, by decide, by decide⟩

end Buffalo
